import Mathlib

/-!
Verification of the rkyv-js codec engine (a TypeScript reader/writer for the
rkyv zero-copy binary format) against its natural-language specification.

The development shallowly embeds the byte-level writer (`src/writer.ts`), the
reader (`RkyvReader`), the codec combinators of `src/codec.ts` /
`src/intrinsics.ts` (primitives, string, vec, optional, box, array,
struct/object, tagged enum, sequential hash map), the Swiss-table helpers of
`src/types.ts` (`internal/swiss-table.ts`), and the B-tree map codec
(`std-btree-map.ts`, instantiated at u32 keys and values).

Modelling conventions:
  - a byte buffer is a `List Nat` of bytes (each write reduces mod 256, as
    `DataView`/`Uint8Array` stores do);
  - the writer is represented by the list of bytes written so far; its
    `position` is the list length (the JS writer's backing capacity beyond
    `position` is never observable through `finish()`);
  - `writeRelPtr32At` patches previously reserved bytes in place, as in the
    source;
  - JS strings are represented by their UTF-8 byte sequences; the JS
    `TextEncoder`/`TextDecoder` pair is the identity on that representation.
    Valid UTF-8 never contains the byte 0xFF and never starts with a
    continuation byte (0x80-0xBF); those two facts appear as domain
    hypotheses where the inline string form needs them;
  - JS bigint arithmetic of the FxHash64 implementation is modelled on `Nat`
    with explicit masking by 2^64, and `DataView.setInt32` / `getInt32`
    two's-complement behaviour is modelled with explicit `% 2^32`;
  - fallible decoding returns `Option` (`none` models the JS code throwing).
-/

namespace RkyvJS

/-! ## Byte-level primitives (src/writer.ts, RkyvReader) -/

/-- Little-endian byte encoding of `v` in `width` bytes (each byte mod 256).
This is the byte sequence `DataView.setUintN(..., v, true)` stores. -/
def natToLE : Nat → Nat → List Nat
  | 0, _ => []
  | width + 1, v => v % 256 :: natToLE width (v / 256)

/-- Bytes stored by `DataView.setInt32(offset, i, true)`: the two's-complement
representation, i.e. the little-endian bytes of `i mod 2^32`. -/
def intToLE32 (i : Int) : List Nat := natToLE 4 (i.emod (2 ^ 32)).toNat

/-- Source `alignOffset(offset, align)` from src/codec.ts:
`remainder === 0 ? offset : offset + (align - remainder)`. -/
def alignOffset (offset a : Nat) : Nat :=
  if offset % a == 0 then offset else offset + (a - offset % a)

/-- Reader `readU8`: `view.getUint8(offset)`.  Out-of-range reads default to
0 in the model (the JS DataView would throw; no in-domain theorem below
performs an out-of-range read). -/
def readU8 (buf : List Nat) (o : Nat) : Nat := buf.getD o 0

/-- Little-endian unsigned read of `width` bytes at `o`. -/
def readUIntLE (buf : List Nat) (o : Nat) : Nat → Nat
  | 0 => 0
  | width + 1 => readU8 buf o + 256 * readUIntLE buf (o + 1) width

/-- Reader `readU32` (`view.getUint32(offset, true)`). -/
def readU32 (buf : List Nat) (o : Nat) : Nat := readUIntLE buf o 4

/-- Little-endian signed read of `width` bytes (two's complement), as
`DataView.getIntN(offset, true)` computes it. -/
def readIntLE (buf : List Nat) (o width : Nat) : Int :=
  let n := readUIntLE buf o width
  if n < 2 ^ (8 * width - 1) then (n : Int) else (n : Int) - 2 ^ (8 * width)

/-- Reader `readI32`. -/
def readI32 (buf : List Nat) (o : Nat) : Int := readIntLE buf o 4

/-- Reader `readRelPtr32`: `offset + getInt32(offset, true)` (the resolved
absolute target of a relative pointer). -/
def readRelPtr32 (buf : List Nat) (o : Nat) : Nat :=
  ((o : Int) + readI32 buf o).toNat

/-- Reader `readBytes(offset, length)`: the byte range `[o, o+len)`. -/
def readBytes (buf : List Nat) (o len : Nat) : List Nat :=
  (buf.drop o).take len

/-! Writer operations.  The writer state is the list of bytes written so far;
`pos` is its length. -/

/-- Writer `writeU8` (no alignment). -/
def wU8 (w : List Nat) (v : Nat) : List Nat := w ++ [v % 256]

/-- Writer `align(alignment)`: pad with zero bytes to the next multiple. -/
def wAlign (w : List Nat) (a : Nat) : List Nat :=
  if w.length % a == 0 then w else w ++ List.replicate (a - w.length % a) 0

/-- Writer `padTo(targetPosition)`: zero-pad up to an absolute position. -/
def wPadTo (w : List Nat) (t : Nat) : List Nat :=
  if w.length < t then w ++ List.replicate (t - w.length) 0 else w

/-- Writer `writeBytes(bytes)` (unaligned append). -/
def wBytes (w : List Nat) (bs : List Nat) : List Nat := w ++ bs.map (· % 256)

/-- Writer `writeU16/32/64` and friends: align to the width, then append the
little-endian bytes. -/
def wUIntLE (w : List Nat) (width v : Nat) : List Nat :=
  wAlign w width ++ natToLE width v

/-- Writer `writeI32`: align 4, then append the two's-complement bytes. -/
def wI32 (w : List Nat) (i : Int) : List Nat := wAlign w 4 ++ intToLE32 i

/-- Overwrite the bytes of `w` at positions `[p, p + bs.length)` with `bs`
(used to model `writeRelPtr32At` patching a reserved slot). -/
def setBytes (w : List Nat) (p : Nat) (bs : List Nat) : List Nat :=
  w.take p ++ bs ++ w.drop (p + bs.length)

/-- Writer `writeRelPtr32At(fromPos, toPos)`: patch the 4 bytes at `fromPos`
with the little-endian two's complement of `toPos - fromPos`. -/
def wRelPtr32At (w : List Nat) (fromPos toPos : Nat) : List Nat :=
  setBytes w fromPos (intToLE32 ((toPos : Int) - (fromPos : Int)))

/-- Writer `reserveRelPtr32()`: align 4, reserve 4 bytes, return their
position (the reserved bytes read as zero until patched). -/
def wReserveRelPtr32 (w : List Nat) : List Nat × Nat :=
  let w1 := wAlign w 4
  (w1 ++ [0, 0, 0, 0], w1.length)

/-- Reader `getRootPosition(rootSize) = bufferLength - rootSize`. -/
def getRootPosition (bufferLength rootSize : Nat) : Nat := bufferLength - rootSize

/-! ## Swiss-table engine (internal/swiss-table.ts and the hash-map archive
loops of std-hash-map.ts / indexmap.ts)

The JS code computes 64-bit hashes with `bigint` arithmetic masked by
`0xFFFFFFFFFFFFFFFF`; the model uses `Nat` with explicit `% 2^64`. -/

def MASK64 : Nat := 2 ^ 64 - 1

/-- Source `rotateLeft64(value, bits)` (bits = 5 at every call site). -/
def rotateLeft64 (value bits : Nat) : Nat :=
  let v := value % 2 ^ 64
  (v * 2 ^ bits + v / 2 ^ (64 - bits)) % 2 ^ 64

/-- Source `hashWord`: rotate left 5, xor the word, multiply by the seed. -/
def hashWord (hash word : Nat) : Nat :=
  (Nat.xor (rotateLeft64 hash 5) (word % 2 ^ 64) * 0x517cc1b727220a95) % 2 ^ 64

/-- Little-endian word assembled from `n` bytes of `bs` starting at `off`
(the inner `word |= bytes[offset+j] << (j*8)` loops of `fxHashBytes`). -/
def leWord (bs : List Nat) (off : Nat) : Nat → Nat
  | 0 => 0
  | n + 1 => bs.getD off 0 + 256 * leWord bs (off + 1) n

/-- The 8-byte main loop of `fxHashBytes` over chunk indices `i < len/8`. -/
def fxHashMain (bs : List Nat) (hash : Nat) : Nat → Nat
  | 0 => hash
  | i + 1 => hashWord (fxHashMain bs hash i) (leWord bs (i * 8) 8)

/-- Source `fxHashBytes`: 8-byte chunks, then 4/2/1-byte tail chunks at the
offsets `len & ~7`, `len & ~3`, `len - 1`. -/
def fxHashBytes (bs : List Nat) : Nat :=
  let len := bs.length
  let h0 := fxHashMain bs 0 (len / 8)
  let h1 := if len &&& 4 != 0 then hashWord h0 (leWord bs (len - len % 8) 4) else h0
  let h2 := if len &&& 2 != 0 then hashWord h1 (leWord bs (len - len % 4) 2) else h1
  if len &&& 1 != 0 then hashWord h2 (bs.getD (len - 1) 0) else h2

/-- Source `fxHashU8(hash, value)`. -/
def fxHashU8 (hash value : Nat) : Nat := hashWord hash value

/-- Source `hashString`: hash the UTF-8 bytes, then a 0xFF terminator byte
(mirroring Rust's `str` hashing). -/
def hashString (bs : List Nat) : Nat := fxHashU8 (fxHashBytes bs) 0xff

/-- Source `h2(hash)`: the top 7 bits below the sign bit,
`(hash >> 57) & 0x7F`. -/
def swissH2 (hash : Nat) : Nat := (hash % 2 ^ 64) / 2 ^ 57 &&& 0x7F

/-- Source `capacityFromLen`: 0 for the empty table, otherwise
`max(ceil(len * 8 / 7), len + 1)` (the JS float ceiling is exact for every
length below 2^49, so the integer ceiling `(8*len + 6) / 7` is used). -/
def capacityFromLen (len : Nat) : Nat :=
  if len == 0 then 0 else max ((8 * len + 6) / 7) (len + 1)

/-- Source `probeCap`: capacity rounded up to a multiple of 16
(`Math.ceil(capacity / 16) * 16`; division by 16 is float-exact). -/
def probeCap (capacity : Nat) : Nat :=
  if capacity == 0 then 0 else (capacity + 15) / 16 * 16

/-- Source `controlCount`: `probeCapacity + 16 - 1` for a non-empty table. -/
def controlCount (probeCapacity : Nat) : Nat :=
  if probeCapacity == 0 then 0 else probeCapacity + 16 - 1

/-- Doubling loop of `bucketMask` (`while (mask < probeCapacity) mask *= 2`),
fuelled: `probeCapacity` iterations are far more than the loop ever needs. -/
def bucketMaskAux (probeCapacity : Nat) : Nat → Nat → Nat
  | _, 0 => 0
  | mask, fuel + 1 =>
    if mask < probeCapacity then bucketMaskAux probeCapacity (mask * 2) fuel
    else mask

/-- Source `bucketMask`: next power of two of `probeCapacity`, minus 1. -/
def bucketMask (probeCapacity : Nat) : Nat :=
  if probeCapacity == 0 then 0 else bucketMaskAux probeCapacity 1 probeCapacity - 1

/-! The insertion loop of `hashMap._archive` / `indexMap._archive`
(std-hash-map.ts lines 783-808, indexmap.ts lines 186-210): starting from
`hash % capacity`, linearly probe `(slot + 1) % capacity` until an empty
control byte (0xFF) is found; set it to h2 and additionally mirror it at
index `capacity + slot` when `slot < ctrlCount - capacity`. -/

/-- One linear-probe search from `slot`, at most `probe` more steps
(the source's `for (let probe = 0; probe < capacity; probe++)` loop).
Returns the chosen slot, or `none` when the loop runs out. -/
def linearFindSlot (ctrl : List Nat) (capacity slot : Nat) : Nat → Option Nat
  | 0 => none
  | probe + 1 =>
    if ctrl.getD slot 0 == 0xff then some slot
    else linearFindSlot ctrl capacity ((slot + 1) % capacity) probe

/-- Insert one hash into the control-byte array exactly as the `_archive`
loops do, returning the updated control bytes and the chosen slot. -/
def archiveInsert (ctrl : List Nat) (capacity ctrlCount hash : Nat) :
    List Nat × Option Nat :=
  match linearFindSlot ctrl capacity (hash % capacity) capacity with
  | none => (ctrl, none)
  | some slot =>
    let h2v := swissH2 hash
    let ctrl1 := setBytes ctrl slot [h2v]
    let ctrl2 :=
      if slot < ctrlCount - capacity then setBytes ctrl1 (capacity + slot) [h2v]
      else ctrl1
    (ctrl2, some slot)

/-- Run the `_archive` insertion loop over the entry hashes in insertion
order; returns the final control bytes and the slot chosen for each entry. -/
def archiveInsertAll (ctrl : List Nat) (capacity ctrlCount : Nat) :
    List Nat → List Nat × List (Option Nat)
  | [] => (ctrl, [])
  | h :: hs =>
    let (ctrl1, slot) := archiveInsert ctrl capacity ctrlCount h
    let (ctrl2, slots) := archiveInsertAll ctrl1 capacity ctrlCount hs
    (ctrl2, slot :: slots)

/-- The control bytes and slot assignment produced by `hashMap._archive` /
`indexMap._archive` for a non-empty map whose entries hash to `hashes`
(in insertion order): control bytes start out all 0xFF. -/
def archiveControlBytes (hashes : List Nat) : List Nat × List (Option Nat) :=
  let len := hashes.length
  let capacity := capacityFromLen len
  let probeCapacity := probeCap capacity
  let ctrlCount := controlCount probeCapacity
  archiveInsertAll (List.replicate ctrlCount 0xff) capacity ctrlCount hashes

/-! The probe sequence the specification describes (and that
`buildSwissTable` implements via `ProbeSeq` and `findEmptySlot`): within a
16-slot window starting at the probe position, the first control byte equal
to 0xFF (indices taken mod `probeCapacity`) is the insertion slot; on a full
window the position advances by a 16-aligned stride masked by
`nextPow2(probeCapacity) - 1`.  Per the claim, the start slot is
`hash % capacity`. -/

/-- Source `findEmptySlot`: first empty index in the 16-wide group starting
at `startIndex`, indices wrapped mod `probeCapacity`. -/
def findEmptySlot (ctrl : List Nat) (startIndex probeCapacity : Nat) :
    Option Nat :=
  (List.range 16).findSome? fun i =>
    let idx := (startIndex + i) % probeCapacity
    if ctrl.getD idx 0 == 0xff then some idx else none

/-- The Swiss probe walk: try the window at `pos`; on failure advance by the
next 16-aligned stride masked by `mask` (fuelled, as the source's
`while (true)` loop has no syntactic bound). -/
def swissFindSlot (ctrl : List Nat) (probeCapacity mask pos stride : Nat) :
    Nat → Option Nat
  | 0 => none
  | fuel + 1 =>
    match findEmptySlot ctrl pos probeCapacity with
    | some idx => some idx
    | none =>
      let stride1 := stride + 16
      swissFindSlot ctrl probeCapacity mask ((pos + stride1) &&& mask) stride1 fuel

/-- Modelled from the spec: the slot the claim says each entry occupies —
start at `hash % capacity`, probe by the Swiss sequence.  (This matches
`buildSwissTable` except that `buildSwissTable` starts its `ProbeSeq` at
`hash % probeCapacity`; the claim and the archive loops use
`hash % capacity`.) -/
def claimSwissInsert (ctrl : List Nat) (capacity probeCapacity hash : Nat) :
    List Nat × Option Nat :=
  match swissFindSlot ctrl probeCapacity (bucketMask probeCapacity)
      (hash % capacity) 0 (probeCapacity + 1) with
  | none => (ctrl, none)
  | some slot => (setBytes ctrl slot [swissH2 hash], some slot)

/-- Modelled from the spec: run the claimed Swiss insertion over all entry
hashes in insertion order, returning each entry's claimed slot. -/
def claimSwissSlots (hashes : List Nat) : List (Option Nat) :=
  let len := hashes.length
  let capacity := capacityFromLen len
  let probeCapacity := probeCap capacity
  let ctrlCount := controlCount probeCapacity
  let rec go (ctrl : List Nat) : List Nat → List (Option Nat)
    | [] => []
    | h :: hs =>
      let (ctrl1, slot) := claimSwissInsert ctrl capacity probeCapacity h
      slot :: go ctrl1 hs
  go (List.replicate ctrlCount 0xff) hashes

/-! ## The codec universe (src/codec.ts / src/intrinsics.ts)

An inductive universe `Ty` of codec descriptions covering the library's
codec constructors: the fixed-width unsigned and signed integers
(`u8/u16/u32/u64`, `i8/i16/i32/i64`, via a width parameter), `bool`, `unit`,
`char`, `string`, `vec`, `optional`, `box`, fixed `array`, `object`/`struct`
(whose layout is shared with `tuple`), `taggedEnum`, and the sequential
`hashMap` of codec.ts.  `Val` is the corresponding value universe (JS
strings are represented by their UTF-8 bytes, JS `Map`s by their entry list
in insertion order), and `Res` the universe of resolver records produced by
`_archive` and consumed by `_resolve`. -/

mutual
inductive Ty where
  | tuint (width : Nat)
  | tint (width : Nat)
  | tbool
  | tunit
  | tchar
  | tstr
  | tvec (elem : Ty)
  | topt (inner : Ty)
  | tbox (inner : Ty)
  | tarr (elem : Ty) (len : Nat)
  | tstruct (fields : TyList)
  | tenum (variants : TyList)
  | tmap (key val : Ty)
  deriving DecidableEq
inductive TyList where
  | nil
  | cons (head : Ty) (tail : TyList)
  deriving DecidableEq
end

mutual
inductive Val where
  | vnat (n : Nat)
  | vint (i : Int)
  | vbool (b : Bool)
  | vunit
  | vstr (bytes : List Nat)
  | vnone
  | vsome (v : Val)
  | vlist (elems : ValList)
  | vstruct (fields : ValList)
  | venum (tag : Nat) (payload : Val)
  | vmap (entries : ValPairList)
  deriving DecidableEq
inductive ValList where
  | nil
  | cons (head : Val) (tail : ValList)
  deriving DecidableEq
inductive ValPairList where
  | nil
  | cons (key val : Val) (tail : ValPairList)
  deriving DecidableEq
end

mutual
inductive Res where
  | rpos (pos : Nat)
  | rstr (pos len : Nat)
  | rseq (pos len : Nat) (elems : ResList)
  | rlist (pos : Nat) (elems : ResList)
  | ropt (inner : Res)
  | renumUnit (pos : Nat)
  | renumVar (pos : Nat) (inner : Res)
  | rpair (fst snd : Res)
inductive ResList where
  | nil
  | cons (head : Res) (tail : ResList)
end

/-! List helpers on the universe's list types. -/

def lenT : TyList → Nat
  | .nil => 0
  | .cons _ ts => lenT ts + 1

def nthTy : TyList → Nat → Option Ty
  | .nil, _ => none
  | .cons t _, 0 => some t
  | .cons _ ts, k + 1 => nthTy ts k

def lenV : ValList → Nat
  | .nil => 0
  | .cons _ vs => lenV vs + 1

def headVal : ValList → Val
  | .nil => .vunit
  | .cons v _ => v

def tailVal : ValList → ValList
  | .nil => .nil
  | .cons _ vs => vs

def lenP : ValPairList → Nat
  | .nil => 0
  | .cons _ _ ps => lenP ps + 1

def keysOf : ValPairList → List Val
  | .nil => []
  | .cons k _ ps => k :: keysOf ps

def headRes : ResList → Res
  | .nil => .rpos 0
  | .cons r _ => r

def tailRes : ResList → ResList
  | .nil => .nil
  | .cons _ rs => rs

def resPos : Res → Nat
  | .rpos p => p
  | .rstr p _ => p
  | .rseq p _ _ => p
  | .rlist p _ => p
  | .renumUnit p => p
  | .renumVar p _ => p
  | _ => 0

def resLen : Res → Nat
  | .rstr _ l => l
  | .rseq _ l _ => l
  | _ => 0

def resInner : Res → Res
  | .ropt r => r
  | .renumVar _ r => r
  | r => r

def resElems : Res → ResList
  | .rseq _ _ rs => rs
  | .rlist _ rs => rs
  | _ => .nil

def resFst : Res → Res
  | .rpair a _ => a
  | r => r

def resSnd : Res → Res
  | .rpair _ b => b
  | r => r

/-- Discriminant width of `taggedEnum`: the smallest of 1/2/4 bytes that can
index the variant count (source: `<= 256 ? 1 : <= 65536 ? 2 : 4`). -/
def discSize (count : Nat) : Nat :=
  if count ≤ 256 then 1 else if count ≤ 65536 then 2 else 4

/-! Sizes and alignments, computed exactly as the codec constructors
compute them. -/

mutual
/-- Codec `size` of each type (the fixed archived-representation width). -/
def tySize : Ty → Nat
  | .tuint w => w
  | .tint w => w
  | .tbool => 1
  | .tunit => 0
  | .tchar => 4
  | .tstr => 8
  | .tvec _ => 8
  | .topt t => 1 + (alignOffset 1 (tyAlign t) - 1) + tySize t
  | .tbox _ => 4
  | .tarr t n => alignOffset (tySize t) (tyAlign t) * n
  | .tstruct fs => alignOffset (structEndAux fs 0) (maxAlignFields fs)
  | .tenum vs =>
    let d := discSize (lenT vs)
    let a := enumAlignFold vs d
    d + (alignOffset d a - d) + enumSizeFold vs 0
  | .tmap _ _ => 8

/-- Codec `align` of each type. -/
def tyAlign : Ty → Nat
  | .tuint w => w
  | .tint w => w
  | .tbool => 1
  | .tunit => 1
  | .tchar => 4
  | .tstr => 4
  | .tvec _ => 4
  | .topt t => max 1 (tyAlign t)
  | .tbox _ => 4
  | .tarr t _ => tyAlign t
  | .tstruct fs => maxAlignFields fs
  | .tenum vs => enumAlignFold vs (discSize (lenT vs))
  | .tmap _ _ => 4

/-- Running end offset of the C-style struct/tuple layout loop
(`currentOffset = alignOffset(currentOffset, align); currentOffset += size`). -/
def structEndAux : TyList → Nat → Nat
  | .nil, cur => cur
  | .cons t ts, cur => structEndAux ts (alignOffset cur (tyAlign t) + tySize t)

/-- Max field alignment of a struct/tuple (`maxAlign`, initial value 1). -/
def maxAlignFields : TyList → Nat
  | .nil => 1
  | .cons t ts => max (tyAlign t) (maxAlignFields ts)

/-- The `maxVariantAlign` fold of `taggedEnum` (unit variants, i.e. variants
of size 0, do not contribute). -/
def enumAlignFold : TyList → Nat → Nat
  | .nil, acc => acc
  | .cons t ts, acc =>
    enumAlignFold ts (if tySize t == 0 then acc else max acc (tyAlign t))

/-- The `maxVariantSize` fold of `taggedEnum` (unit variants skipped). -/
def enumSizeFold : TyList → Nat → Nat
  | .nil, acc => acc
  | .cons t ts, acc =>
    enumSizeFold ts (if tySize t == 0 then acc else max acc (tySize t))
end

/-- Aligned element stride (`alignOffset(element.size, element.align)`). -/
def tyStride (t : Ty) : Nat := alignOffset (tySize t) (tyAlign t)

/-- Entry alignment of the hash-map entry layout
(`Math.max(keyCodec.align, valueCodec.align)`). -/
def entryAlign (k v : Ty) : Nat := max (tyAlign k) (tyAlign v)

/-- Offset of the value inside a hash-map entry
(`alignOffset(keyCodec.size, valueCodec.align)`). -/
def entryValueOff (k v : Ty) : Nat := alignOffset (tySize k) (tyAlign v)

/-- Full hash-map entry stride
(`alignOffset(valueOffset + valueCodec.size, entryAlign)`). -/
def entrySize (k v : Ty) : Nat :=
  alignOffset (entryValueOff k v + tySize v) (entryAlign k v)

/-! ## Domain predicate

`wt t v` says the value `v` lies in the domain of the codec described by
`t`: integer values fit their width, strings are byte sequences a JS
`TextEncoder` can produce (UTF-8: no 0xFF byte, no leading continuation
byte; out-of-line lengths below 2^30 so the JS 32-bit length-marker
arithmetic does not overflow), array lengths match the codec, enum tags
name an existing variant (with `null` payloads for unit variants), map keys
are distinct (a JS `Map` invariant), and all counts fit the 32-bit length
fields of the format. -/

def allVals (p : Val → Bool) : ValList → Bool
  | .nil => true
  | .cons v vs => p v && allVals p vs

def allPairs (pk pv : Val → Bool) : ValPairList → Bool
  | .nil => true
  | .cons k v ps => pk k && pv v && allPairs pk pv ps

mutual
def wt : Ty → Val → Bool
  | .tuint w, .vnat n => n < 2 ^ (8 * w)
  | .tint w, .vint i =>
    decide (-(2 ^ (8 * w - 1) : Int) ≤ i) && decide (i < (2 ^ (8 * w - 1) : Int))
  | .tbool, .vbool _ => true
  | .tunit, .vunit => true
  | .tchar, .vnat n => n < 0x110000
  | .tstr, .vstr bs =>
    bs.all (· < 256) &&
      (if bs.length ≤ 8 then
        bs.all (· != 0xff) &&
          (match bs with
            | [] => true
            | b :: _ => (b &&& 0xC0) != 0x80)
      else decide (bs.length < 2 ^ 30))
  | .tvec e, .vlist vs => allVals (fun x => wt e x) vs && decide (lenV vs < 2 ^ 32)
  | .topt _, .vnone => true
  | .topt e, .vsome x => wt e x
  | .tbox e, x => wt e x
  | .tarr e n, .vlist vs => lenV vs == n && allVals (fun x => wt e x) vs
  | .tstruct fs, .vstruct vs => wtFields fs vs
  | .tenum vs, .venum tag p =>
    decide (lenT vs ≤ 2 ^ 32) && decide (tag < lenT vs) && wtNth vs tag p
  | .tmap k v, .vmap ps =>
    allPairs (fun x => wt k x) (fun x => wt v x) ps &&
      decide (keysOf ps).Nodup && decide (lenP ps < 2 ^ 32)
  | _, _ => false

def wtFields : TyList → ValList → Bool
  | .nil, .nil => true
  | .cons t ts, .cons v vs => wt t v && wtFields ts vs
  | _, _ => false

def wtNth : TyList → Nat → Val → Bool
  | .nil, _, _ => false
  | .cons t _, 0, p => if tySize t == 0 then p == .vunit else wt t p
  | .cons _ ts, k + 1, p => wtNth ts k p
end

mutual
/-- Structural well-formedness of a type description: integer widths are the
library's 1/2/4/8 and enums have at most 2^32 variants (so the discriminant
fits its chosen width). -/
def wfTy : Ty → Bool
  | .tuint w => w == 1 || w == 2 || w == 4 || w == 8
  | .tint w => w == 1 || w == 2 || w == 4 || w == 8
  | .tbool => true
  | .tunit => true
  | .tchar => true
  | .tstr => true
  | .tvec e => wfTy e
  | .topt e => wfTy e
  | .tbox e => wfTy e
  | .tarr e _ => wfTy e
  | .tstruct fs => wfFields fs
  | .tenum vs => decide (lenT vs ≤ 2 ^ 32) && wfFields vs
  | .tmap k v => wfTy k && wfTy v

def wfFields : TyList → Bool
  | .nil => true
  | .cons t ts => wfTy t && wfFields ts
end

mutual
/-- Every fixed-array element type has size a multiple of its alignment
(tagged enums can violate that because the enum size formula has no
trailing padding; `array._resolve` then advances the writer by less than
`array.size`, see the C10 analysis). -/
def arrOk : Ty → Bool
  | .tuint _ => true
  | .tint _ => true
  | .tbool => true
  | .tunit => true
  | .tchar => true
  | .tstr => true
  | .tvec e => arrOk e
  | .topt e => arrOk e
  | .tbox e => arrOk e
  | .tarr e _ => (tySize e % tyAlign e == 0) && arrOk e
  | .tstruct fs => arrOkFields fs
  | .tenum vs => arrOkFields vs
  | .tmap k v => arrOk k && arrOk v

def arrOkFields : TyList → Bool
  | .nil => true
  | .cons t ts => arrOk t && arrOkFields ts
end

/-! ## Decoding (the `decode` methods)

`decodeTy t buf o` eagerly decodes a value of type `t` at offset `o`;
`none` models the JS code throwing (an out-of-range enum discriminant). -/

/-- Inline-string length scan, the `while (length < 8)` loop of
`decodeString`: stop at the first 0xFF byte; the second argument counts the
remaining loop iterations (`8 - length`), so `strScanAux buf o 0 8` is the
index of the first 0xFF byte within the 8-byte slot, or 8 if none. -/
def strScanAux (buf : List Nat) (o : Nat) : Nat → Nat → Nat
  | len, 0 => len
  | len, fuel + 1 =>
    if readU8 buf (o + len) == 0xff then len else strScanAux buf o (len + 1) fuel

/-- Source `decodeString`: inline when the first byte's top two bits are not
`10`; otherwise read the marked length and follow the relative pointer. -/
def decodeStr (buf : List Nat) (o : Nat) : List Nat :=
  let firstByte := readU8 buf o
  if (firstByte &&& 0xc0) != 0x80 then
    readBytes buf o (strScanAux buf o 0 8)
  else
    let lenWithMarker := readU32 buf o
    let len := (lenWithMarker &&& 0x3f) ||| ((lenWithMarker >>> 8) <<< 6)
    readBytes buf (((o : Int) + readI32 buf (o + 4)).toNat) len

/-- The vec/hash-map element walk: align the cursor, decode, advance by the
element size (`decode` loops of `vec` and `hashMap`).  Arguments: cursor,
remaining count. -/
def decodeSeq (d : Nat → Option Val) (alignv sizev : Nat) :
    Nat → Nat → Option ValList
  | _, 0 => some .nil
  | cur, k + 1 =>
    let o := alignOffset cur alignv
    match d o, decodeSeq d alignv sizev (o + sizev) k with
    | some v, some vs => some (.cons v vs)
    | _, _ => none

/-- The fixed-array element walk: element `i` at `base + i * stride`
(`array.decode`). -/
def decodeStrideSeq (d : Nat → Option Val) (base stridev : Nat) :
    Nat → Nat → Option ValList
  | _, 0 => some .nil
  | i, k + 1 =>
    match d (base + i * stridev), decodeStrideSeq d base stridev (i + 1) k with
    | some v, some vs => some (.cons v vs)
    | _, _ => none

/-- The hash-map entry walk (`hashMap.decode`): align to the entry
alignment, decode key and value, advance by the entry size. -/
def decodePairsSeq (dk dv : Nat → Option Val) (alignv valueOff sizev : Nat) :
    Nat → Nat → Option ValPairList
  | _, 0 => some .nil
  | cur, k + 1 =>
    let o := alignOffset cur alignv
    match dk o, dv (o + valueOff),
        decodePairsSeq dk dv alignv valueOff sizev (o + sizev) k with
    | some kv, some vv, some ps => some (.cons kv vv ps)
    | _, _, _ => none

/-- JS `Map.prototype.set`: update the value in place if the key exists,
else append. -/
def mapInsert : ValPairList → Val → Val → ValPairList
  | .nil, k, v => .cons k v .nil
  | .cons k0 v0 ps, k, v =>
    if k0 = k then .cons k0 v ps else .cons k0 v0 (mapInsert ps k v)

/-- Build a JS `Map` by `set`-ing the read pairs in order. -/
def mapSetFold (m : ValPairList) : ValPairList → ValPairList
  | .nil => m
  | .cons k v ps => mapSetFold (mapInsert m k v) ps

mutual
def decodeTy (t : Ty) (buf : List Nat) (o : Nat) : Option Val :=
  match t with
  | .tuint w => some (.vnat (readUIntLE buf o w))
  | .tint w => some (.vint (readIntLE buf o w))
  | .tbool => some (.vbool (readU8 buf o != 0))
  | .tunit => some .vunit
  | .tchar => some (.vnat (readU32 buf o))
  | .tstr => some (.vstr (decodeStr buf o))
  | .tvec e =>
    let dataOff := readRelPtr32 buf o
    let len := readU32 buf (o + 4)
    (decodeSeq (fun p => decodeTy e buf p) (tyAlign e) (tySize e) dataOff len).map
      .vlist
  | .topt e =>
    if readU8 buf o == 0 then some .vnone
    else (decodeTy e buf (o + 1 + (alignOffset 1 (tyAlign e) - 1))).map .vsome
  | .tbox e => decodeTy e buf (readRelPtr32 buf o)
  | .tarr e n =>
    (decodeStrideSeq (fun p => decodeTy e buf p) o (tyStride e) 0 n).map .vlist
  | .tstruct fs => (decodeFields fs buf o 0).map .vstruct
  | .tenum vs =>
    let d := discSize (lenT vs)
    let disc := readUIntLE buf o d
    (decodeNth vs disc d buf o).map (.venum disc)
  | .tmap k v =>
    let dataOff := readRelPtr32 buf o
    let len := readU32 buf (o + 4)
    (decodePairsSeq (fun p => decodeTy k buf p) (fun p => decodeTy v buf p)
        (entryAlign k v) (entryValueOff k v) (entrySize k v) dataOff len).map
      (fun ps => .vmap (mapSetFold .nil ps))

/-- Per-field decode of the struct layout walk. -/
def decodeFields (fs : TyList) (buf : List Nat) (base cur : Nat) :
    Option ValList :=
  match fs with
  | .nil => some .nil
  | .cons t ts =>
    let off := alignOffset cur (tyAlign t)
    match decodeTy t buf (base + off), decodeFields ts buf base (off + tySize t) with
    | some v, some vs => some (.cons v vs)
    | _, _ => none

/-- Payload decode of the variant at positional index `i`; `none` when the
stored discriminant names no variant (`variantNames[discriminant]` is
`undefined` and the JS code crashes on the subsequent field access — the
codec never substitutes a default). -/
def decodeNth (vs : TyList) (i d : Nat) (buf : List Nat) (o : Nat) :
    Option Val :=
  match vs, i with
  | .nil, _ => none
  | .cons t _, 0 =>
    if tySize t == 0 then some .vunit
    else decodeTy t buf (o + d + (alignOffset d (tyAlign t) - d))
  | .cons _ ts, k + 1 => decodeNth ts k d buf o
end

/-! ## Encoding (the `_archive` / `_resolve` methods)

Loop combinators over value lists, mirroring the source's `for` loops. -/

/-- Archive each element in order (`for (const item of value)
elementResolvers.push(element._archive(writer, item))`). -/
def archList (f : Val → List Nat → List Nat × Res) :
    ValList → List Nat → List Nat × ResList
  | .nil, w => (w, .nil)
  | .cons v vs, w =>
    let (w1, r) := f v w
    let (w2, rs) := archList f vs w1
    (w2, .cons r rs)

/-- Resolve each element in order, aligning before each
(the element-resolve loop of `vec._archive`). -/
def resLoop (f : Val → Res → List Nat → List Nat × Nat) (alignv : Nat) :
    ValList → ResList → List Nat → List Nat
  | .nil, _, w => w
  | .cons v vs, rs, w =>
    let w1 := wAlign w alignv
    let (w2, _) := f v (headRes rs) w1
    resLoop f alignv vs (tailRes rs) w2

/-- The `array._resolve` loop: `n` iterations over `value[i]`/`resolvers[i]`
with an align before each element. -/
def arrLoop (f : Val → Res → List Nat → List Nat × Nat) (alignv : Nat) :
    ValList → ResList → Nat → List Nat → List Nat
  | _, _, 0, w => w
  | vs, rs, k + 1, w =>
    let w1 := wAlign w alignv
    let (w2, _) := f (headVal vs) (headRes rs) w1
    arrLoop f alignv (tailVal vs) (tailRes rs) k w2

/-- The entry-archive loop of `hashMap._archive`: archive key then value of
each entry in insertion order. -/
def archPairs (fk fv : Val → List Nat → List Nat × Res) :
    ValPairList → List Nat → List Nat × ResList
  | .nil, w => (w, .nil)
  | .cons k v ps, w =>
    let (w1, rk) := fk k w
    let (w2, rv) := fv v w1
    let (w3, rs) := archPairs fk fv ps w2
    (w3, .cons (.rpair rk rv) rs)

/-- The entry-resolve loop of `hashMap._archive`: per entry, align to the
entry alignment, resolve the key, pad by `valueOffset - key.size`, resolve
the value, pad by `entrySize - valueOffset - value.size`. -/
def resPairs (fk fv : Val → Res → List Nat → List Nat × Nat)
    (alignv keySize valueOff sizev valueSize : Nat) :
    ValPairList → ResList → List Nat → List Nat
  | .nil, _, w => w
  | .cons k v ps, rs, w =>
    let w1 := wAlign w alignv
    let (w2, _) := fk k (resFst (headRes rs)) w1
    let w3 := wPadTo w2 (w2.length + (valueOff - keySize))
    let (w4, _) := fv v (resSnd (headRes rs)) w3
    let w5 := wPadTo w4 (w4.length + (sizev - valueOff - valueSize))
    resPairs fk fv alignv keySize valueOff sizev valueSize ps (tailRes rs) w5

/-- The shared `_resolve` of `vec` and the sequential `hashMap`: align 4,
reserve the relative-pointer slot, write the u32 length, then patch the slot
with target `r.pos` when the length is positive and target `0` otherwise
(note the patch stores the delta `toPos - ptrPos`, not `toPos`). -/
def resolveSeqHeader (r : Res) (w : List Nat) : List Nat × Nat :=
  let (w1, ptrPos) := wReserveRelPtr32 w
  let w2 := wUIntLE w1 4 (resLen r)
  let w3 := wRelPtr32At w2 ptrPos (if resLen r > 0 then resPos r else 0)
  (w3, ptrPos)

/-- The out-of-line string length marker,
`(len & 0x3f) | 0x80 | ((len & ~0x3f) << 2)`.  On JS 32-bit integers
`len & ~0x3f` is `len - (len & 0x3f)` and `<< 2` multiplies by 4 (lengths
stay below 2^30 in the string codec's domain, so no 32-bit wrap occurs). -/
def encodedLen (len : Nat) : Nat :=
  ((len &&& 0x3f) ||| 0x80) ||| ((len - (len &&& 0x3f)) * 4)

mutual
/-- The `_archive` phase: write everything the value depends on and return
the resolver.  Mismatched value shapes (outside the codec's domain, where
the JS code would misbehave or throw) return a trivial resolver. -/
def archiveTy (t : Ty) (v : Val) (w : List Nat) : List Nat × Res :=
  match t, v with
  | .tstr, .vstr bs =>
    if bs.length ≤ 8 then (w, .rstr 0 bs.length)
    else (wBytes w bs, .rstr w.length bs.length)
  | .tvec e, .vlist vs =>
    match vs with
    | .nil => (w, .rseq w.length 0 .nil)
    | _ =>
      let (w1, rs) := archList (fun x u => archiveTy e x u) vs w
      let w2 := wAlign w1 (tyAlign e)
      let start := w2.length
      let w3 := resLoop (fun x r u => resolveTy e x r u) (tyAlign e) vs rs w2
      (w3, .rseq start (lenV vs) rs)
  | .topt _, .vnone => (w, .rpos w.length)
  | .topt e, .vsome x =>
    let (w1, r) := archiveTy e x w
    (w1, .ropt r)
  | .tbox e, x =>
    let (w1, r) := archiveTy e x w
    let w2 := wAlign w1 (tyAlign e)
    let (w3, _) := resolveTy e x r w2
    (w3, .rpos (w3.length - tySize e))
  | .tarr e _, .vlist vs =>
    let (w1, rs) := archList (fun x u => archiveTy e x u) vs w
    (w1, .rlist w1.length rs)
  | .tstruct fs, .vstruct vs =>
    let (w1, rs) := archiveFields fs vs w
    (w1, .rlist w1.length rs)
  | .tenum vs, .venum tag p => archiveNth vs tag p w
  | .tmap k v, .vmap ps =>
    match ps with
    | .nil => (w, .rseq w.length 0 .nil)
    | _ =>
      let (w1, rs) := archPairs (fun x u => archiveTy k x u)
        (fun x u => archiveTy v x u) ps w
      let w2 := wAlign w1 (entryAlign k v)
      let start := w2.length
      let w3 := resPairs (fun x r u => resolveTy k x r u)
        (fun x r u => resolveTy v x r u) (entryAlign k v) (tySize k)
        (entryValueOff k v) (entrySize k v) (tySize v) ps rs w2
      (w3, .rseq start (lenP ps) rs)
  | _, _ => (w, .rpos 0)

/-- The `_resolve` phase: write the value's fixed-size representation at the
(aligned) current position; returns the new writer and that position. -/
def resolveTy (t : Ty) (v : Val) (r : Res) (w : List Nat) : List Nat × Nat :=
  match t, v with
  | .tuint width, .vnat n =>
    let w1 := wAlign w width
    (w1 ++ natToLE width n, w1.length)
  | .tint width, .vint i =>
    let w1 := wAlign w width
    (w1 ++ natToLE width (i.emod (2 ^ (8 * width))).toNat, w1.length)
  | .tbool, .vbool b => (w ++ [if b then 1 else 0], w.length)
  | .tunit, _ => (w, w.length)
  | .tchar, .vnat n =>
    let w1 := wAlign w 4
    (w1 ++ natToLE 4 n, w1.length)
  | .tstr, .vstr bs =>
    let w1 := wAlign w 4
    let pos := w1.length
    if bs.length ≤ 8 then
      (w1 ++ bs.map (· % 256) ++ List.replicate (8 - bs.length) 0xff, pos)
    else
      let w2 := w1 ++ natToLE 4 (encodedLen bs.length)
      (w2 ++ intToLE32 ((resPos r : Int) - (pos : Int)), pos)
  | .tvec _, _ => resolveSeqHeader r w
  | .topt e, .vnone =>
    let w1 := wAlign w (max 1 (tyAlign e))
    let pos := w1.length
    (w1 ++ 0 :: List.replicate ((alignOffset 1 (tyAlign e) - 1) + tySize e) 0, pos)
  | .topt e, .vsome x =>
    let w1 := wAlign w (max 1 (tyAlign e))
    let pos := w1.length
    let w2 := w1 ++ 1 :: List.replicate (alignOffset 1 (tyAlign e) - 1) 0
    let (w3, _) := resolveTy e x (resInner r) w2
    (w3, pos)
  | .tbox _, _ =>
    let (w1, ptrPos) := wReserveRelPtr32 w
    (wRelPtr32At w1 ptrPos (resPos r), ptrPos)
  | .tarr e n, .vlist vs =>
    let w1 := wAlign w (tyAlign e)
    let pos := w1.length
    let w2 := arrLoop (fun x q u => resolveTy e x q u) (tyAlign e) vs
      (resElems r) n w1
    (w2, pos)
  | .tstruct fs, .vstruct vs =>
    let w1 := wAlign w (maxAlignFields fs)
    let pos := w1.length
    let w2 := resolveFields fs vs (resElems r) pos 0 w1
    (wPadTo w2 (pos + tySize (.tstruct fs)), pos)
  | .tenum vs, .venum tag p =>
    let d := discSize (lenT vs)
    let w1 := wAlign w (enumAlignFold vs d)
    let pos := w1.length
    let w2 := wUIntLE w1 d tag
    let w3 := resolveNthPayload vs tag p (resInner r) d w2
    (wPadTo w3 (pos + tySize (.tenum vs)), pos)
  | .tmap _ _, _ => resolveSeqHeader r w
  | _, _ => (w, w.length)

/-- Per-field archive of `object._archive`. -/
def archiveFields (fs : TyList) (vs : ValList) (w : List Nat) :
    List Nat × ResList :=
  match fs with
  | .nil => (w, .nil)
  | .cons t ts =>
    let (w1, r) := archiveTy t (headVal vs) w
    let (w2, rs) := archiveFields ts (tailVal vs) w1
    (w2, .cons r rs)

/-- Per-field resolve of `object._resolve`: pad to the field offset, then
resolve the field in place. -/
def resolveFields (fs : TyList) (vs : ValList) (rs : ResList)
    (pos cur : Nat) (w : List Nat) : List Nat :=
  match fs with
  | .nil => w
  | .cons t ts =>
    let off := alignOffset cur (tyAlign t)
    let w1 := wPadTo w (pos + off)
    let (w2, _) := resolveTy t (headVal vs) (headRes rs) w1
    resolveFields ts (tailVal vs) (tailRes rs) pos (off + tySize t) w2

/-- Archive of the variant at positional index `tag`
(`taggedEnum._archive`): unit variants have no resolver. -/
def archiveNth (vs : TyList) (tag : Nat) (p : Val) (w : List Nat) :
    List Nat × Res :=
  match vs, tag with
  | .nil, _ => (w, .rpos w.length)
  | .cons t _, 0 =>
    if tySize t == 0 then (w, .renumUnit w.length)
    else
      let (w1, r) := archiveTy t p w
      (w1, .renumVar w1.length r)
  | .cons _ ts, k + 1 => archiveNth ts k p w

/-- Payload write of `taggedEnum._resolve` for the variant at index `tag`:
for a non-unit variant, write `alignOffset(discSize, variant.align) -
discSize` zero bytes, then resolve the payload. -/
def resolveNthPayload (vs : TyList) (tag : Nat) (p : Val) (r : Res)
    (d : Nat) (w : List Nat) : List Nat :=
  match vs, tag with
  | .nil, _ => w
  | .cons t _, 0 =>
    if tySize t == 0 then w
    else
      let w1 := w ++ List.replicate (alignOffset d (tyAlign t) - d) 0
      (resolveTy t p r w1).1
  | .cons _ ts, k + 1 => resolveNthPayload ts k p r d w
end

/-- Top-level `codec.encode(writer, value)` on a fresh writer: archive the
dependencies, then resolve the value; returns the finished buffer and the
root position the resolve returned. -/
def encodeVal (t : Ty) (v : Val) : List Nat × Nat :=
  let (w1, r) := archiveTy t v []
  resolveTy t v r w1

/-- Top-level `encode(codec, value)` from src/codec.ts: the finished bytes. -/
def encodeBytes (t : Ty) (v : Val) : List Nat := (encodeVal t v).1

/-- Top-level `decode(codec, bytes)`: decode at
`getRootPosition(codec.size) = bytes.length - codec.size`. -/
def decodeTop (t : Ty) (buf : List Nat) : Option Val :=
  decodeTy t buf (getRootPosition buf.length (tySize t))

/-! ## Basic lemmas about the byte-level model -/

/-- Buffer extension: `w'` has `w` as an initial segment.  All writer
operations only extend the buffer (patches rewrite bytes appended by the
same resolve call, see `resolveSeqHeader_eq`). -/
def Ext (w w' : List Nat) : Prop := ∃ tail, w' = w ++ tail

theorem extSelf {w : List Nat} : Ext w w := ⟨[], by simp⟩

theorem extAppend (w t : List Nat) : Ext w (w ++ t) := ⟨t, by simp⟩

theorem extTrans {a b c : List Nat} (h1 : Ext a b) (h2 : Ext b c) : Ext a c := by
  obtain ⟨t1, rfl⟩ := h1
  obtain ⟨t2, rfl⟩ := h2
  exact ⟨t1 ++ t2, by simp⟩

theorem extLengthLe {a b : List Nat} (h : Ext a b) : a.length ≤ b.length := by
  obtain ⟨t, rfl⟩ := h
  simp

/-! Facts about `alignOffset`. -/

theorem alignOffset_ge (offset a : Nat) : offset ≤ alignOffset offset a := by
  unfold alignOffset
  split <;> omega

theorem alignOffset_eq_self {offset a : Nat} (h : a ∣ offset) :
    alignOffset offset a = offset := by
  obtain ⟨k, rfl⟩ := h
  unfold alignOffset
  simp [Nat.mul_mod_right]

theorem dvd_alignOffset {a : Nat} (ha : 0 < a) (offset : Nat) :
    a ∣ alignOffset offset a := by
  unfold alignOffset
  split
  · next h =>
    simp only [beq_iff_eq] at h
    exact Nat.dvd_of_mod_eq_zero h
  · next h =>
    refine ⟨offset / a + 1, ?_⟩
    have hlt : offset % a < a := Nat.mod_lt _ ha
    have hdm := Nat.div_add_mod offset a
    have hexp : a * (offset / a + 1) = a * (offset / a) + a := by ring
    omega

theorem alignOffset_lt {a : Nat} (ha : 0 < a) (offset : Nat) :
    alignOffset offset a < offset + a := by
  unfold alignOffset
  have := Nat.mod_lt offset ha
  split
  · omega
  · next h =>
    simp only [beq_iff_eq] at h
    omega

/-- Minimality: the aligned offset is the least multiple of `a` at or after
`offset`. -/
theorem alignOffset_le {a offset b : Nat} (ha : 0 < a) (hb : a ∣ b)
    (hob : offset ≤ b) : alignOffset offset a ≤ b := by
  obtain ⟨k, rfl⟩ := hb
  obtain ⟨m, hm⟩ := dvd_alignOffset ha offset
  have h2 := alignOffset_lt ha offset
  have h3 : a * m < a * (k + 1) := by
    have hx : a * k + a = a * (k + 1) := by ring
    omega
  have hmk : m < k + 1 := Nat.lt_of_mul_lt_mul_left h3
  have h4 : a * m ≤ a * k := Nat.mul_le_mul le_rfl (by omega)
  omega

theorem alignOffset_add_multiple {a k : Nat} (ha : 0 < a) (hk : a ∣ k)
    (offset : Nat) : alignOffset (k + offset) a = k + alignOffset offset a := by
  obtain ⟨m, rfl⟩ := hk
  unfold alignOffset
  rw [Nat.mul_add_mod a m offset]
  split <;> omega

/-! Writer length and extension facts. -/

@[simp] theorem wAlign_length (w : List Nat) (a : Nat) :
    (wAlign w a).length = alignOffset w.length a := by
  unfold wAlign alignOffset
  split <;> simp_all

theorem wAlign_ext (w : List Nat) (a : Nat) : Ext w (wAlign w a) := by
  unfold wAlign
  split
  · exact extSelf
  · exact extAppend _ _

@[simp] theorem wPadTo_length (w : List Nat) (t : Nat) :
    (wPadTo w t).length = max w.length t := by
  unfold wPadTo
  split <;> simp <;> omega

theorem wPadTo_ext (w : List Nat) (t : Nat) : Ext w (wPadTo w t) := by
  unfold wPadTo
  split
  · exact extAppend _ _
  · exact extSelf

theorem wPadTo_eq_append (w : List Nat) (t : Nat) :
    wPadTo w t = w ++ List.replicate (t - w.length) 0 := by
  unfold wPadTo
  split
  · rfl
  · simp
    omega

@[simp] theorem natToLE_length (width v : Nat) : (natToLE width v).length = width := by
  induction width generalizing v with
  | zero => rfl
  | succ k ih => simp [natToLE, ih]

@[simp] theorem intToLE32_length (i : Int) : (intToLE32 i).length = 4 := by
  simp [intToLE32]

/-! Reads from extended buffers and over written chunks. -/

theorem readU8_append {pre : List Nat} {o : Nat} (rest : List Nat)
    (h : o < pre.length) : readU8 (pre ++ rest) o = readU8 pre o := by
  simp only [readU8]
  exact List.getD_append pre rest 0 o h

theorem readU8_append_cons (pre : List Nat) (b : Nat) (rest : List Nat) :
    readU8 (pre ++ b :: rest) pre.length = b := by
  simp only [readU8]
  rw [List.getD_append_right _ _ _ _ (le_refl pre.length)]
  simp [List.getD]

/-- Reading `width` bytes just past a prefix sees exactly the chunk placed
there, independent of what precedes and follows it. -/
theorem readUIntLE_append_chunk (width : Nat) :
    ∀ (pre mid post : List Nat), width ≤ mid.length →
      readUIntLE (pre ++ mid ++ post) pre.length width = readUIntLE mid 0 width := by
  induction width with
  | zero => intro pre mid post _; rfl
  | succ k ih =>
    intro pre mid post hw
    cases mid with
    | nil => simp at hw
    | cons b bs =>
      simp only [readUIntLE]
      have h1 : readU8 (pre ++ (b :: bs) ++ post) pre.length = b := by
        have he : pre ++ (b :: bs) ++ post = pre ++ b :: (bs ++ post) := by simp
        rw [he, readU8_append_cons]
      have h2 : readU8 (b :: bs) 0 = b := rfl
      rw [h1, h2]
      have hlen : k ≤ bs.length := by simp at hw; omega
      have h3 : pre ++ (b :: bs) ++ post = (pre ++ [b]) ++ bs ++ post := by simp
      have h4 : readUIntLE ((pre ++ [b]) ++ bs ++ post) (pre ++ [b]).length k =
          readUIntLE bs 0 k := ih (pre ++ [b]) bs post hlen
      have h5 : readUIntLE (b :: bs) 1 k = readUIntLE bs 0 k := by
        have := ih [b] bs [] hlen
        simpa using this
      rw [h3, show pre.length + 1 = (pre ++ [b]).length by simp, h4, h5]

/-- Reading back a `natToLE` chunk recovers the value modulo `2^(8*width)`. -/
theorem readUIntLE_natToLE (width : Nat) :
    ∀ v : Nat, readUIntLE (natToLE width v) 0 width = v % 2 ^ (8 * width) := by
  induction width with
  | zero => intro v; simp [readUIntLE, natToLE, Nat.mod_one]
  | succ k ih =>
    intro v
    simp only [natToLE, readUIntLE]
    have h1 : readU8 (v % 256 :: natToLE k (v / 256)) 0 = v % 256 := rfl
    have h2 : readUIntLE (v % 256 :: natToLE k (v / 256)) 1 k =
        readUIntLE (natToLE k (v / 256)) 0 k := by
      have := readUIntLE_append_chunk k [v % 256] (natToLE k (v / 256)) []
        (by simp)
      simpa using this
    rw [h1, h2, ih]
    have hpow : (2 : Nat) ^ (8 * (k + 1)) = 256 * 2 ^ (8 * k) := by ring
    rw [hpow, Nat.mod_mul]

/-- The chunk-read lemma specialised to a written `natToLE`. -/
theorem readUIntLE_write (pre post : List Nat) (width v : Nat) :
    readUIntLE (pre ++ natToLE width v ++ post) pre.length width =
      v % 2 ^ (8 * width) := by
  rw [readUIntLE_append_chunk width pre _ post (by simp), readUIntLE_natToLE]

theorem readUIntLE_lt (buf : List Nat) (o : Nat) (width : Nat)
    (hb : ∀ i, buf.getD i 0 < 256) :
    readUIntLE buf o width < 2 ^ (8 * width) := by
  induction width generalizing o with
  | zero => simp [readUIntLE]
  | succ k ih =>
    simp only [readUIntLE]
    have h1 : readU8 buf o < 256 := hb o
    have h2 := ih (o + 1)
    have hpow : (2 : Nat) ^ (8 * (k + 1)) = 256 * 2 ^ (8 * k) := by ring
    rw [hpow]
    omega

/-- Reading back an `intToLE32` chunk recovers the integer when it fits in
a signed 32-bit word. -/
theorem readI32_intToLE32 (pre post : List Nat) (i : Int)
    (hlo : -(2 ^ 31) ≤ i) (hhi : i < 2 ^ 31) :
    readI32 (pre ++ intToLE32 i ++ post) pre.length = i := by
  have hread : readUIntLE (pre ++ intToLE32 i ++ post) pre.length 4 =
      (i.emod (2 ^ 32)).toNat % 2 ^ (8 * 4) := readUIntLE_write pre post 4 _
  have hmod : (0 : Int) ≤ i.emod (2 ^ 32) := Int.emod_nonneg i (by norm_num)
  have hmlt : i.emod (2 ^ 32) < 2 ^ 32 := Int.emod_lt_of_pos i (by norm_num)
  have htn : ((i.emod (2 ^ 32)).toNat : Int) = i.emod (2 ^ 32) :=
    Int.toNat_of_nonneg hmod
  have hself : (i.emod (2 ^ 32)).toNat % 2 ^ (8 * 4) = (i.emod (2 ^ 32)).toNat :=
    Nat.mod_eq_of_lt (by omega)
  have hch : i.emod (2 ^ 32) = i ∨ i.emod (2 ^ 32) = i + 2 ^ 32 := by
    rcases le_or_lt 0 i with hpos | hneg
    · left
      exact Int.emod_eq_of_lt hpos (by omega)
    · right
      have h1 : (0 : Int) ≤ i + 2 ^ 32 := by omega
      have h2 : i + 2 ^ 32 < 2 ^ 32 := by omega
      have h3 := Int.emod_eq_of_lt h1 h2
      have heq : (i + 2 ^ 32 * 1) % (2 ^ 32) = i % (2 ^ 32) :=
        Int.add_mul_emod_self_left i (2 ^ 32) 1
      have heq2 : i + 2 ^ 32 * 1 = i + 2 ^ 32 := by ring
      rw [heq2] at heq
      have e2 : ((2 : Int) ^ 32) = 4294967296 := by norm_num
      rw [e2] at h3 heq ⊢
      show i % 4294967296 = i + 4294967296
      omega
  simp only [readI32, readIntLE, hread, hself]
  have e1 : (2 : Nat) ^ (8 * 4 - 1) = 2147483648 := by norm_num
  rw [e1]
  split
  · next hsmall => rcases hch with hc | hc <;> omega
  · next hbig => rcases hch with hc | hc <;> omega

/-! Bit-arithmetic helpers for the string length marker. -/

/-- Disjoint or is addition: or-ing a value below `2^n` with a multiple of
`2^n` adds them. -/
theorem lor_high_low (lo q n : Nat) (h : lo < 2 ^ n) :
    lo ||| 2 ^ n * q = lo + 2 ^ n * q := by
  apply Nat.eq_of_testBit_eq
  intro j
  rw [Nat.testBit_lor]
  have hadd : lo + 2 ^ n * q = 2 ^ n * q + lo := by ring
  rw [hadd, Nat.testBit_mul_pow_two_add q h j]
  have hq : (2 ^ n * q).testBit j = if j < n then false else q.testBit (j - n) := by
    have h0 : (0 : Nat) < 2 ^ n := Nat.pos_pow_of_pos n (by norm_num)
    have := Nat.testBit_mul_pow_two_add (b := 0) q h0 j
    simpa using this
  rw [hq]
  split
  · next hj => simp
  · next hj =>
    have hlo : lo.testBit j = false :=
      Nat.testBit_lt_two_pow (lt_of_lt_of_le h (Nat.pow_le_pow_right (by norm_num) (by omega)))
    simp [hlo]

theorem and63_eq_mod (x : Nat) : x &&& 63 = x % 64 := by
  have h : (63 : Nat) = 2 ^ 6 - 1 := by norm_num
  rw [h, Nat.and_pow_two_sub_one_eq_mod]

/-- The out-of-line marker field in arithmetic form. -/
theorem encodedLen_eq (len : Nat) :
    encodedLen len = (len % 64 + 128) + 256 * (len / 64) := by
  unfold encodedLen
  rw [and63_eq_mod]
  have h1 : len % 64 ||| 128 = len % 64 + 128 := by
    have := lor_high_low (len % 64) 1 7 (by omega)
    simpa using this
  rw [h1]
  have h2 : (len - len % 64) * 4 = 256 * (len / 64) := by
    have := Nat.div_add_mod len 64
    omega
  rw [h2]
  have h3 : len % 64 + 128 < 2 ^ 8 := by omega
  have := lor_high_low (len % 64 + 128) (len / 64) 8 h3
  simpa using this

theorem encodedLen_mod256 (len : Nat) :
    encodedLen len % 256 = len % 64 + 128 := by
  rw [encodedLen_eq]
  omega

/-- Any byte in `[0x80, 0xC0)` has its top two bits equal to `10`. -/
theorem and192_of_range (a : Nat) (h1 : 128 ≤ a) (h2 : a < 192) :
    a &&& 192 = 128 := by
  apply Nat.eq_of_testBit_eq
  intro j
  rw [Nat.testBit_and]
  have h192 : (192 : Nat).testBit j = (decide (j = 6) || decide (j = 7)) := by
    have hrw : (192 : Nat) = 2 ^ 6 * 3 + 0 := by norm_num
    rw [hrw, Nat.testBit_mul_pow_two_add 3 (by norm_num : (0:Nat) < 2 ^ 6) j]
    by_cases hj : j < 6
    · rw [if_pos hj, Nat.zero_testBit]
      have h6 : ¬ (j = 6) := by omega
      have h7 : ¬ (j = 7) := by omega
      simp [h6, h7]
    · rw [if_neg hj]
      have h3 : (3 : Nat) = 2 ^ 2 - 1 := by norm_num
      rw [h3, Nat.testBit_two_pow_sub_one]
      by_cases h6 : j = 6
      · subst h6
        simp
      · by_cases h7 : j = 7
        · subst h7
          simp
        · have hn : ¬ (j - 6 < 2) := by omega
          simp [hn, h6, h7]
  have h128 : (128 : Nat).testBit j = decide (j = 7) := by
    have hrw : (128 : Nat) = 2 ^ 7 := by norm_num
    rw [hrw, Nat.testBit_two_pow]
    simp [eq_comm]
  rw [h192, h128]
  have ha : a = 2 ^ 6 * 2 + (a - 128) := by norm_num; omega
  have hsub : a - 128 < 2 ^ 6 := by omega
  rcases Nat.lt_or_ge j 6 with hj | hj
  · have hbit : a.testBit j = (a - 128).testBit j := by
      conv_lhs => rw [ha]
      rw [Nat.testBit_mul_pow_two_add 2 hsub j, if_pos hj]
    have h6 : ¬ (j = 6) := by omega
    have h7 : ¬ (j = 7) := by omega
    simp [hbit, h6, h7]
  · have hat : a.testBit j = decide (1 = j - 6) := by
      conv_lhs => rw [ha]
      rw [Nat.testBit_mul_pow_two_add 2 hsub j, if_neg (by omega)]
      have h2p : (2 : Nat) = 2 ^ 1 := by norm_num
      rw [h2p, Nat.testBit_two_pow]
    rw [hat]
    by_cases h6 : j = 6
    · subst h6
      simp
    · by_cases h7 : j = 7
      · subst h7
        simp
      · have hne : ¬ (1 = j - 6) := by omega
        simp [h6, h7, hne]

theorem wAlign_eq_self {w : List Nat} {a : Nat} (h : a ∣ w.length) :
    wAlign w a = w := by
  obtain ⟨k, hk⟩ := h
  unfold wAlign
  rw [hk]
  simp [Nat.mul_mod_right]

theorem setBytes_chunk (a b c d : List Nat) (h : b.length = d.length) :
    setBytes (a ++ b ++ c) a.length d = a ++ d ++ c := by
  unfold setBytes
  have ht : (a ++ b ++ c).take a.length = a := by
    rw [List.append_assoc, List.take_left]
  have hd : (a ++ b ++ c).drop (a.length + d.length) = c := by
    have h1 : a.length + d.length = (a ++ b).length := by
      simp [h]
    rw [h1, List.drop_left]
  rw [ht, hd]

/-- Exact integer form of the JS float ceiling `Math.ceil(a / b)` on natural
inputs (the JS computation is float-exact for all lengths this library can
encounter). -/
theorem ceil_ratCast_div (a b : Nat) (hb : 0 < b) :
    Nat.ceil ((a : ℚ) / b) = (a + b - 1) / b := by
  rcases Nat.eq_zero_or_pos a with rfl | ha
  · rw [Nat.cast_zero, zero_div, Nat.ceil_zero]
    exact (Nat.div_eq_of_lt (by omega)).symm
  · have hbq : (0 : ℚ) < b := by exact_mod_cast hb
    have hsplit : a + b - 1 = (a - 1) + b := by omega
    rw [hsplit, Nat.add_div_right _ hb, Nat.ceil_eq_iff (Nat.succ_ne_zero _)]
    have hdm := Nat.div_add_mod (a - 1) b
    have hmod := Nat.mod_lt (a - 1) hb
    constructor
    · have hcan : (a - 1) / b + 1 - 1 = (a - 1) / b := Nat.add_sub_cancel _ _
      rw [hcan, lt_div_iff₀ hbq]
      have hnat : ((a - 1) / b) * b < a := by
        have := Nat.div_mul_le_self (a - 1) b
        omega
      exact_mod_cast hnat
    · rw [div_le_iff₀ hbq]
      have hnat : a ≤ ((a - 1) / b + 1) * b := by
        have hexp : ((a - 1) / b + 1) * b = b * ((a - 1) / b) + b := by ring
        omega
      exact_mod_cast hnat

/-! ## Claim C5: hash-table sizing functions -/

/-- C5: for every `len > 0`, `capacityFromLen len` is
`max(ceil(len * 8 / 7), len + 1)` (rational ceiling); `probeCap` rounds the
capacity up to a multiple of 16 (a multiple of 16, at least the capacity,
less than capacity + 16); the control-byte count is `probeCapacity + 15`;
for `len = 0` all three are 0; and the capacity for 20 entries is 23. -/
theorem C5_sizing :
    (∀ len : Nat, 0 < len →
      capacityFromLen len = max (Nat.ceil ((8 * len : ℚ) / 7)) (len + 1) ∧
      (probeCap (capacityFromLen len)) % 16 = 0 ∧
      capacityFromLen len ≤ probeCap (capacityFromLen len) ∧
      probeCap (capacityFromLen len) < capacityFromLen len + 16 ∧
      controlCount (probeCap (capacityFromLen len)) =
        probeCap (capacityFromLen len) + 15) ∧
    capacityFromLen 0 = 0 ∧ probeCap 0 = 0 ∧ controlCount 0 = 0 ∧
    capacityFromLen 20 = 23 := by
  refine ⟨?_, by decide, by decide, by decide, by decide⟩
  intro len hlen
  have hcap : capacityFromLen len = max ((8 * len + 6) / 7) (len + 1) := by
    unfold capacityFromLen
    rw [if_neg (by simp; omega)]
  have hceil : Nat.ceil ((8 * len : ℚ) / 7) = (8 * len + 6) / 7 := by
    have h := ceil_ratCast_div (8 * len) 7 (by norm_num)
    rw [show ((8 * len : Nat) : ℚ) = (8 * len : ℚ) by push_cast; ring,
      show ((7 : Nat) : ℚ) = (7 : ℚ) by norm_num] at h
    rw [h]
    norm_num
  have hc1 : 0 < capacityFromLen len := by
    rw [hcap]
    omega
  have hpc : probeCap (capacityFromLen len) =
      (capacityFromLen len + 15) / 16 * 16 := by
    unfold probeCap
    rw [if_neg (by simp; omega)]
  refine ⟨by rw [hcap, hceil], ?_, ?_, ?_, ?_⟩
  · rw [hpc]
    simp [Nat.mul_mod_left]
  · rw [hpc]
    have := Nat.div_add_mod (capacityFromLen len + 15) 16
    have := Nat.mod_lt (capacityFromLen len + 15) (show 0 < 16 by norm_num)
    omega
  · rw [hpc]
    have := Nat.div_add_mod (capacityFromLen len + 15) 16
    omega
  · have hpos : 0 < probeCap (capacityFromLen len) := by
      rw [hpc]
      have := Nat.div_add_mod (capacityFromLen len + 15) 16
      have := Nat.mod_lt (capacityFromLen len + 15) (show 0 < 16 by norm_num)
      omega
    unfold controlCount
    rw [if_neg (by simp; omega)]
    omega

/-- Witness for C5 at `len = 20`. -/
theorem C5_sizing_witness :
    capacityFromLen 20 = max (Nat.ceil ((8 * 20 : ℚ) / 7)) (20 + 1) ∧
    capacityFromLen 20 = 23 := by
  refine ⟨(C5_sizing.1 20 (by norm_num)).1, C5_sizing.2.2.2.2⟩

/-! ## Claim C6: string codec encoding -/

/-- C6: resolving a string of at most 8 UTF-8 bytes writes those bytes
followed by 0xFF padding into the 8-byte slot (so "hello" encodes to
`68 65 6C 6C 6F FF FF FF`); resolving a longer string writes the 4-byte
length field `(len & 0x3F) | 0x80 | ((len & ~0x3F) << 2)` — whose first
byte has top two bits `10` — followed by a 4-byte relative pointer to the
UTF-8 bytes archived earlier (at resolver position `p`). -/
theorem C6_string_encoding :
    (∀ (bs : List Nat) (r : Res) (w : List Nat), bs.length ≤ 8 →
      resolveTy .tstr (.vstr bs) r w =
        (wAlign w 4 ++ bs.map (· % 256) ++ List.replicate (8 - bs.length) 0xff,
          (wAlign w 4).length)) ∧
    encodeBytes .tstr (.vstr [0x68, 0x65, 0x6c, 0x6c, 0x6f]) =
      [0x68, 0x65, 0x6c, 0x6c, 0x6f, 0xff, 0xff, 0xff] ∧
    (∀ (bs : List Nat) (p : Nat) (w : List Nat), 8 < bs.length →
      archiveTy .tstr (.vstr bs) w = (wBytes w bs, .rstr w.length bs.length) ∧
      resolveTy .tstr (.vstr bs) (.rstr p bs.length) w =
        (wAlign w 4 ++ natToLE 4 (encodedLen bs.length) ++
          intToLE32 ((p : Int) - (((wAlign w 4).length : Nat) : Int)),
          (wAlign w 4).length) ∧
      encodedLen bs.length =
        ((bs.length &&& 0x3f) ||| 0x80) |||
          ((bs.length - (bs.length &&& 0x3f)) <<< 2) ∧
      (encodedLen bs.length % 256) &&& 0xC0 = 0x80) := by
  refine ⟨?_, by decide, ?_⟩
  · intro bs r w h
    simp only [resolveTy]
    rw [if_pos h]
  · intro bs p w h
    refine ⟨?_, ?_, ?_, ?_⟩
    · simp only [archiveTy]
      rw [if_neg (by omega)]
    · simp only [resolveTy]
      rw [if_neg (by omega)]
      simp [resPos]
    · unfold encodedLen
      rw [Nat.shiftLeft_eq]
    · rw [encodedLen_mod256]
      exact and192_of_range _ (by omega) (by omega)

/-- Witness for C6: the inline clause at "hi" (2 bytes) and the out-of-line
clause at a 12-byte string, both on the empty writer. -/
theorem C6_string_encoding_witness :
    resolveTy .tstr (.vstr [0x68, 0x69]) (.rpos 0) [] =
      (wAlign [] 4 ++ [0x68, 0x69].map (· % 256) ++ List.replicate 6 0xff, 0) ∧
    (encodedLen 12 % 256) &&& 0xC0 = 0x80 := by
  constructor
  · have h := C6_string_encoding.1 [0x68, 0x69] (.rpos 0) [] (by norm_num)
    simpa using h
  · exact (C6_string_encoding.2.2 (List.replicate 12 0x61) 0 [] (by simp)).2.2.2

/-! ## Claim C7: empty vector encoding -/

/-- C7 as stated is false: `vec._resolve` calls
`writer.writeRelPtr32At(ptrPos, 0)` for the empty vector, which stores the
delta `0 - ptrPos`, not the delta 0.  In a struct `{x: u32, v: vec<u32>}`
holding `x = 7` and an empty vector, the vector's data-pointer slot sits at
buffer offset 4 and stores delta `-4` (absolute target 0). -/
theorem C7_counterexample :
    readI32 (encodeBytes (.tstruct (.cons (.tuint 4) (.cons (.tvec (.tuint 4)) .nil)))
      (.vstruct (.cons (.vnat 7) (.cons (.vlist .nil) .nil)))) 4 = -4 ∧
    (-4 : Int) ≠ 0 := by
  constructor
  · decide
  · decide

/-- C7 amended: resolving an empty vector patches the data-pointer slot
with target position 0, i.e. stores the delta `0 - ptrPos`; at the root of
a fresh buffer the slot sits at position 0, so `vector<u32>([])` encodes to
eight zero bytes with stored delta 0, and decoding an encoded empty vector
returns the empty list. -/
theorem C7_empty_vector_amended (t : Ty) :
    encodeBytes (.tvec t) (.vlist .nil) = List.replicate 8 0 ∧
    readI32 (encodeBytes (.tvec t) (.vlist .nil)) 0 = 0 ∧
    decodeTop (.tvec t) (encodeBytes (.tvec t) (.vlist .nil)) = some (.vlist .nil) ∧
    (∀ (r : Res) (w : List Nat), resLen r = 0 →
      resolveTy (.tvec t) (.vlist .nil) r w =
        (wAlign w 4 ++ intToLE32 (0 - (((wAlign w 4).length : Nat) : Int)) ++
          natToLE 4 0, (wAlign w 4).length)) := by
  have hres : ∀ (r : Res) (w : List Nat), resLen r = 0 →
      resolveTy (.tvec t) (.vlist .nil) r w =
        (wAlign w 4 ++ intToLE32 (0 - (((wAlign w 4).length : Nat) : Int)) ++
          natToLE 4 0, (wAlign w 4).length) := by
    intro r w hr
    simp only [resolveTy, resolveSeqHeader, wReserveRelPtr32, wUIntLE, hr]
    rw [if_neg (by omega)]
    have hlen4 : (wAlign w 4 ++ [0, 0, 0, 0]).length = alignOffset w.length 4 + 4 := by
      simp
    have h4 : (4 : Nat) ∣ (wAlign w 4 ++ [0, 0, 0, 0]).length := by
      rw [hlen4]
      exact Nat.dvd_add (dvd_alignOffset (by norm_num) _) ⟨1, by norm_num⟩
    rw [wAlign_eq_self h4]
    unfold wRelPtr32At
    simp only [Nat.cast_zero, zero_sub]
    have hchunk := setBytes_chunk (wAlign w 4) [0, 0, 0, 0] (natToLE 4 0)
      (intToLE32 (-((wAlign w 4).length : Int))) (by simp)
    rw [List.append_assoc, ← List.append_assoc]
    rw [hchunk]
  have henc : encodeBytes (.tvec t) (.vlist .nil) = List.replicate 8 0 := by
    unfold encodeBytes encodeVal
    have harch : archiveTy (.tvec t) (.vlist .nil) [] = ([], .rseq 0 0 .nil) := by
      simp [archiveTy]
    rw [harch]
    show (resolveTy (.tvec t) (.vlist .nil) (.rseq 0 0 .nil) []).1 = List.replicate 8 0
    rw [hres (.rseq 0 0 .nil) [] (by simp [resLen])]
    decide
  refine ⟨henc, ?_, ?_, hres⟩
  · rw [henc]
    decide
  · rw [henc]
    simp only [decodeTop, getRootPosition, decodeTy, List.length_replicate]
    have hlen : readU32 (List.replicate 8 0) (8 - tySize (.tvec t) + 4) = 0 := by
      have ht : tySize (.tvec t) = 8 := by simp [tySize]
      rw [ht]
      decide
    rw [hlen]
    simp [decodeSeq]

/-- Witness for C7's amended theorem: the fourth conjunct instantiated on
the empty writer with the trivial resolver. -/
theorem C7_empty_vector_witness :
    resolveTy (.tvec (.tuint 4)) (.vlist .nil) (.rseq 0 0 .nil) [] =
      (wAlign [] 4 ++ intToLE32 (0 - (((wAlign [] 4).length : Nat) : Int)) ++
        natToLE 4 0, (wAlign [] 4).length) :=
  (C7_empty_vector_amended (.tuint 4)).2.2.2 (.rseq 0 0 .nil) [] (by simp [resLen])

/-! ## Claim C8: layout invariants -/

/-- Field offsets of the C-style struct/tuple layout loop starting from
cumulative offset `cur` (`fieldOffsets` of `object`, `offsets` of `tuple`). -/
def structOffsets : TyList → Nat → List Nat
  | .nil, _ => []
  | .cons t ts, cur =>
    let off := alignOffset cur (tyAlign t)
    off :: structOffsets ts (off + tySize t)

mutual
/-- No tagged enum anywhere in the type. -/
def noEnum : Ty → Bool
  | .tuint _ => true
  | .tint _ => true
  | .tbool => true
  | .tunit => true
  | .tchar => true
  | .tstr => true
  | .tvec e => noEnum e
  | .topt e => noEnum e
  | .tbox e => noEnum e
  | .tarr e _ => noEnum e
  | .tstruct fs => noEnumFields fs
  | .tenum _ => false
  | .tmap k v => noEnum k && noEnum v

def noEnumFields : TyList → Bool
  | .nil => true
  | .cons t ts => noEnum t && noEnumFields ts
end

theorem discSize_pos (c : Nat) : 0 < discSize c := by
  unfold discSize
  split
  · norm_num
  · split <;> norm_num

theorem enumAlignFold_ge_acc : ∀ (vs : TyList) (acc : Nat),
    acc ≤ enumAlignFold vs acc
  | .nil, acc => le_refl _
  | .cons t ts, acc => by
    simp only [enumAlignFold]
    split
    · exact enumAlignFold_ge_acc ts acc
    · exact le_trans (le_max_left _ _) (enumAlignFold_ge_acc ts _)

theorem maxAlignFields_pos : ∀ fs : TyList, 0 < maxAlignFields fs
  | .nil => by simp [maxAlignFields]
  | .cons t ts => by
    simp only [maxAlignFields]
    have := maxAlignFields_pos ts
    omega

theorem tyAlign_pos : ∀ t : Ty, wfTy t → 0 < tyAlign t
  | .tuint w, h => by
    simp [wfTy] at h
    simp only [tyAlign]
    rcases h with h | h | h | h <;> omega
  | .tint w, h => by
    simp [wfTy] at h
    simp only [tyAlign]
    rcases h with h | h | h | h <;> omega
  | .tbool, _ => by simp [tyAlign]
  | .tunit, _ => by simp [tyAlign]
  | .tchar, _ => by simp [tyAlign]
  | .tstr, _ => by simp [tyAlign]
  | .tvec _, _ => by simp [tyAlign]
  | .topt e, _ => by simp only [tyAlign]; omega
  | .tbox _, _ => by simp [tyAlign]
  | .tarr e n, h => by
    simp only [wfTy] at h
    simp only [tyAlign]
    exact tyAlign_pos e h
  | .tstruct fs, _ => by
    simp only [tyAlign]
    exact maxAlignFields_pos fs
  | .tenum vs, _ => by
    simp only [tyAlign]
    exact lt_of_lt_of_le (discSize_pos (lenT vs)) (enumAlignFold_ge_acc vs _)
  | .tmap _ _, _ => by simp [tyAlign]

/-- Each field offset computed by the struct/tuple layout loop is a multiple
of that field's alignment. -/
theorem structOffsets_dvd : ∀ (fs : TyList) (cur i : Nat) (t : Ty),
    nthTy fs i = some t → wfFields fs →
    tyAlign t ∣ (structOffsets fs cur).getD i 0
  | .nil, _, i, t, h, _ => by simp [nthTy] at h
  | .cons t0 ts, cur, 0, t, h, hwf => by
    simp only [nthTy, Option.some.injEq] at h
    subst h
    simp only [wfFields, Bool.and_eq_true] at hwf
    simp only [structOffsets, List.getD_cons_zero]
    exact dvd_alignOffset (tyAlign_pos t0 hwf.1) cur
  | .cons t0 ts, cur, k + 1, t, h, hwf => by
    simp only [nthTy] at h
    simp only [wfFields, Bool.and_eq_true] at hwf
    simp only [structOffsets, List.getD_cons_succ]
    exact structOffsets_dvd ts _ k t h hwf.2

/-- `codec.size % codec.align == 0` for every well-formed type containing no
tagged enum. -/
theorem tySize_mod_align_of_noEnum : ∀ t : Ty, wfTy t → noEnum t →
    tySize t % tyAlign t = 0
  | .tuint w, h, _ => by
    simp [wfTy] at h
    simp only [tySize, tyAlign]
    rcases h with ((h | h) | h) | h <;> subst h <;> norm_num
  | .tint w, h, _ => by
    simp [wfTy] at h
    simp only [tySize, tyAlign]
    rcases h with ((h | h) | h) | h <;> subst h <;> norm_num
  | .tbool, _, _ => by simp [tySize, tyAlign]
  | .tunit, _, _ => by simp [tySize, tyAlign]
  | .tchar, _, _ => by simp [tySize, tyAlign]
  | .tstr, _, _ => by simp [tySize, tyAlign]
  | .tvec _, _, _ => by simp [tySize, tyAlign]
  | .topt e, hwf, hne => by
    simp only [wfTy] at hwf
    simp only [noEnum] at hne
    have hpos := tyAlign_pos e hwf
    have hmax : max 1 (tyAlign e) = tyAlign e := by omega
    simp only [tySize, tyAlign, hmax]
    have hge := alignOffset_ge 1 (tyAlign e)
    have hoff : 1 + (alignOffset 1 (tyAlign e) - 1) + tySize e =
        alignOffset 1 (tyAlign e) + tySize e := by omega
    rw [hoff]
    obtain ⟨k, hk⟩ := Nat.dvd_add (dvd_alignOffset hpos 1)
      (Nat.dvd_of_mod_eq_zero (tySize_mod_align_of_noEnum e hwf hne))
    rw [hk]
    exact Nat.mul_mod_right _ _
  | .tbox _, _, _ => by simp [tySize, tyAlign]
  | .tarr e n, hwf, _ => by
    simp only [wfTy] at hwf
    simp only [tySize, tyAlign]
    obtain ⟨k, hk⟩ := dvd_alignOffset (tyAlign_pos e hwf) (tySize e)
    rw [hk, Nat.mul_assoc]
    exact Nat.mul_mod_right _ _
  | .tstruct fs, _, _ => by
    simp only [tySize, tyAlign]
    obtain ⟨k, hk⟩ := dvd_alignOffset (maxAlignFields_pos fs) (structEndAux fs 0)
    rw [hk]
    exact Nat.mul_mod_right _ _
  | .tenum vs, _, hne => by simp [noEnum] at hne
  | .tmap _ _, _, _ => by simp [tySize, tyAlign]

/-- C8 counterexample: the claim's `codec.size % codec.align == 0` fails for
`taggedEnum({A: tuple(u16,u16,u16), B: u32})`: the enum layout adds no
trailing padding, so its size is 1 + 3 + 6 = 10 while its alignment is 4. -/
theorem C8_counterexample :
    tySize (.tenum (.cons (.tstruct (.cons (.tuint 2) (.cons (.tuint 2)
        (.cons (.tuint 2) .nil)))) (.cons (.tuint 4) .nil))) = 10 ∧
    tyAlign (.tenum (.cons (.tstruct (.cons (.tuint 2) (.cons (.tuint 2)
        (.cons (.tuint 2) .nil)))) (.cons (.tuint 4) .nil))) = 4 ∧
    tySize (.tenum (.cons (.tstruct (.cons (.tuint 2) (.cons (.tuint 2)
        (.cons (.tuint 2) .nil)))) (.cons (.tuint 4) .nil))) %
      tyAlign (.tenum (.cons (.tstruct (.cons (.tuint 2) (.cons (.tuint 2)
        (.cons (.tuint 2) .nil)))) (.cons (.tuint 4) .nil))) ≠ 0 := by
  refine ⟨by decide, by decide, by decide⟩

/-- C8 amended: every field offset computed by a layout calculation (struct
and tuple fields, the tagged-enum payload offset, the optional payload
offset, fixed-array element offsets) is a multiple of that field's
alignment; and `codec.size % codec.align == 0` holds for every composite
codec containing no tagged enum — the tagged enum itself (whose size formula
has no trailing padding) is the sole violator the counterexample exhibits. -/
theorem C8_layout_amended :
    (∀ (fs : TyList) (cur i : Nat) (t : Ty), nthTy fs i = some t → wfFields fs →
      tyAlign t ∣ (structOffsets fs cur).getD i 0) ∧
    (∀ (vs : TyList) (d : Nat) (t : Ty), wfTy t → 0 < d →
      tyAlign t ∣ d + (alignOffset d (tyAlign t) - d)) ∧
    (∀ t : Ty, wfTy t → tyAlign t ∣ 1 + (alignOffset 1 (tyAlign t) - 1)) ∧
    (∀ (t : Ty) (i : Nat), wfTy t → tyAlign t ∣ i * tyStride t) ∧
    (∀ t : Ty, wfTy t → noEnum t → tySize t % tyAlign t = 0) := by
  refine ⟨structOffsets_dvd, ?_, ?_, ?_, ?_⟩
  · intro vs d t hwf hd
    have hpos := tyAlign_pos t hwf
    have hge := alignOffset_ge d (tyAlign t)
    have : d + (alignOffset d (tyAlign t) - d) = alignOffset d (tyAlign t) := by omega
    rw [this]
    exact dvd_alignOffset hpos d
  · intro t hwf
    have hpos := tyAlign_pos t hwf
    have hge := alignOffset_ge 1 (tyAlign t)
    have : 1 + (alignOffset 1 (tyAlign t) - 1) = alignOffset 1 (tyAlign t) := by omega
    rw [this]
    exact dvd_alignOffset hpos 1
  · intro t i hwf
    exact Dvd.dvd.mul_left (dvd_alignOffset (tyAlign_pos t hwf) (tySize t)) i
  · exact tySize_mod_align_of_noEnum

/-- C8 amended, witnessed at `struct(u32, u8, u16)` (third field offset 6 is a
multiple of 2) and at its own size/alignment. -/
theorem C8_layout_amended_witness :
    (tyAlign (.tuint 2) ∣
      (structOffsets (.cons (.tuint 4) (.cons (.tuint 1)
        (.cons (.tuint 2) .nil))) 0).getD 2 0) ∧
    tySize (.tstruct (.cons (.tuint 4) (.cons (.tuint 1)
        (.cons (.tuint 2) .nil)))) %
      tyAlign (.tstruct (.cons (.tuint 4) (.cons (.tuint 1)
        (.cons (.tuint 2) .nil)))) = 0 :=
  ⟨C8_layout_amended.1 (.cons (.tuint 4) (.cons (.tuint 1)
      (.cons (.tuint 2) .nil))) 0 2 (.tuint 2) (by decide) (by decide),
   C8_layout_amended.2.2.2.2 (.tstruct (.cons (.tuint 4) (.cons (.tuint 1)
      (.cons (.tuint 2) .nil)))) (by decide) (by decide)⟩

/-! ## Claim C9: tagged-enum discriminant handling -/

theorem decodeNth_ge : ∀ (vs : TyList) (i d : Nat) (buf : List Nat) (o : Nat),
    lenT vs ≤ i → decodeNth vs i d buf o = none
  | .nil, _, _, _, _, _ => rfl
  | .cons t ts, 0, d, buf, o, h => by
    simp only [lenT] at h
    omega
  | .cons t ts, k + 1, d, buf, o, h => by
    simp only [decodeNth]
    exact decodeNth_ge ts k d buf o (by simp only [lenT] at h; omega)

theorem nthTy_lt : ∀ (vs : TyList) (i : Nat), i < lenT vs →
    ∃ t, nthTy vs i = some t
  | .nil, i, h => by simp only [lenT] at h; omega
  | .cons t ts, 0, _ => ⟨t, rfl⟩
  | .cons t ts, k + 1, h =>
    nthTy_lt ts k (by simp only [lenT] at h; omega)

/-- `decodeNth` at an in-range index runs the variant codec of that
declaration-order index (unit variants decode to `vunit`; payload variants
decode at the aligned payload offset). -/
theorem decodeNth_eq : ∀ (vs : TyList) (i d : Nat) (buf : List Nat) (o : Nat)
    (t : Ty), nthTy vs i = some t →
    decodeNth vs i d buf o =
      if tySize t == 0 then some .vunit
      else decodeTy t buf (o + d + (alignOffset d (tyAlign t) - d))
  | .nil, i, _, _, _, t, h => by simp [nthTy] at h
  | .cons t0 ts, 0, d, buf, o, t, h => by
    simp only [nthTy, Option.some.injEq] at h
    subst h
    rfl
  | .cons t0 ts, k + 1, d, buf, o, t, h => by
    simp only [nthTy] at h
    simp only [decodeNth]
    exact decodeNth_eq ts k d buf o t h

/-- C9: decoding a tagged enum whose stored discriminant is at least the
variant count yields `none` (in the JS source, `variantNames[discriminant]`
is `undefined` and the immediately following
`variantInfo.get(undefined)!.isUnit` access throws — a fatal error; no
default value is ever substituted), while a discriminant below the variant
count selects the variant at that declaration-order index, decoding its
payload at the enum's aligned payload offset. -/
theorem C9_enum_discriminant : ∀ (vs : TyList) (buf : List Nat) (o : Nat),
    (lenT vs ≤ readUIntLE buf o (discSize (lenT vs)) →
      decodeTy (.tenum vs) buf o = none) ∧
    (readUIntLE buf o (discSize (lenT vs)) < lenT vs →
      ∃ t, nthTy vs (readUIntLE buf o (discSize (lenT vs))) = some t ∧
        decodeTy (.tenum vs) buf o =
          (if tySize t == 0 then some .vunit
           else decodeTy t buf (o + discSize (lenT vs) +
             (alignOffset (discSize (lenT vs)) (tyAlign t) -
               discSize (lenT vs)))).map
            (.venum (readUIntLE buf o (discSize (lenT vs))))) := by
  intro vs buf o
  constructor
  · intro h
    simp only [decodeTy]
    rw [decodeNth_ge vs _ _ buf o h]
    rfl
  · intro hlt
    obtain ⟨t, ht⟩ := nthTy_lt vs _ hlt
    refine ⟨t, ht, ?_⟩
    simp only [decodeTy]
    rw [decodeNth_eq vs _ _ buf o t ht]

/-- C9 witnessed at `taggedEnum({A: u32, B: unit})`: discriminant byte 5 is
out of range and decodes to `none`; discriminant byte 1 selects the second
(unit) variant. -/
theorem C9_enum_discriminant_witness :
    decodeTy (.tenum (.cons (.tuint 4) (.cons .tunit .nil))) [5] 0 = none ∧
    decodeTy (.tenum (.cons (.tuint 4) (.cons .tunit .nil)))
      [1, 0, 0, 0, 0, 0, 0, 0] 0 = some (.venum 1 .vunit) := by
  constructor
  · exact (C9_enum_discriminant (.cons (.tuint 4) (.cons .tunit .nil))
      [5] 0).1 (by decide)
  · obtain ⟨t, ht, heq⟩ := (C9_enum_discriminant
      (.cons (.tuint 4) (.cons .tunit .nil)) [1, 0, 0, 0, 0, 0, 0, 0] 0).2
      (by decide)
    rw [heq]
    have h1 : readUIntLE [1, 0, 0, 0, 0, 0, 0, 0] 0
        (discSize (lenT (.cons (.tuint 4) (.cons .tunit .nil)))) = 1 := by
      decide
    have h2 : nthTy (TyList.cons (.tuint 4) (.cons .tunit .nil)) 1 =
        some Ty.tunit := by decide
    rw [h1, h2] at ht
    cases ht
    decide

/-! ## Claim C4: the control-byte mirror region -/

/-- C4 code bug: for the one-entry map with string key `"a"` the control-byte
array does have the claimed length `probeCapacity + 15 = 31`, but the mirror
write of `hashMap._archive` lands at `capacity + slot` (here `2 + 1 = 3`)
instead of `probeCapacity + slot` (here `16 + 1 = 17`): the byte at
`probeCapacity + 1` stays the empty sentinel `0xFF` and differs from the
byte `85` at index 1, so the trailing 15 bytes do not mirror the first 15
control bytes (they only would if `capacity` were a multiple of 16). -/
theorem C4_mirror_bug :
    (archiveControlBytes [hashString [0x61]]).1.length =
      probeCap (capacityFromLen 1) + 15 ∧
    (archiveControlBytes [hashString [0x61]]).1.getD 1 0 = 85 ∧
    (archiveControlBytes [hashString [0x61]]).1.getD
      (probeCap (capacityFromLen 1) + 1) 0 = 0xff ∧
    (archiveControlBytes [hashString [0x61]]).1.getD
      (capacityFromLen 1 + 1) 0 = 85 := by
  refine ⟨by decide, by decide, by decide, by decide⟩

/-! ## Claim C3: the probe sequence of the archive loops -/

/-- C3 counterexample: for the two-entry map with string keys `"a"`, `"c"`
(whose hashes collide modulo the capacity 3), the archive loop probes
linearly (`slot = (slot + 1) % capacity`) and wraps to slot 0, while the
claimed Swiss 16-wide-window probe would pick slot 3. -/
theorem C3_counterexample :
    (archiveControlBytes [hashString [0x61], hashString [0x63]]).2 ≠
      claimSwissSlots [hashString [0x61], hashString [0x63]] ∧
    (archiveControlBytes [hashString [0x61], hashString [0x63]]).2 =
      [some 2, some 0] ∧
    claimSwissSlots [hashString [0x61], hashString [0x63]] =
      [some 2, some 3] := by
  refine ⟨by decide, by decide, by decide⟩

theorem linearFindSlot_spec : ∀ (k fuel : Nat) (ctrl : List Nat)
    (capacity start : Nat), 0 < capacity → start < capacity → k < fuel →
    (∀ j, j < k → ctrl.getD ((start + j) % capacity) 0 ≠ 0xff) →
    ctrl.getD ((start + k) % capacity) 0 = 0xff →
    linearFindSlot ctrl capacity start fuel =
      some ((start + k) % capacity) := by
  intro k
  induction k with
  | zero =>
    intro fuel ctrl capacity start hcap hstart hfuel _ hemp
    match fuel, hfuel with
    | f + 1, _ =>
      have hemp' : ctrl.getD start 0 = 0xff := by
        rwa [Nat.add_zero, Nat.mod_eq_of_lt hstart] at hemp
      simp only [linearFindSlot]
      rw [hemp']
      simp [Nat.mod_eq_of_lt hstart]
  | succ k ih =>
    intro fuel ctrl capacity start hcap hstart hfuel hne hemp
    match fuel, hfuel with
    | f + 1, hfuel =>
      have h0 : ctrl.getD start 0 ≠ 0xff := by
        have := hne 0 (Nat.succ_pos k)
        rwa [Nat.add_zero, Nat.mod_eq_of_lt hstart] at this
      simp only [linearFindSlot]
      rw [if_neg (by simpa using h0)]
      have hrec := ih f ctrl capacity ((start + 1) % capacity) hcap
        (Nat.mod_lt _ hcap) (by omega)
        (fun j hj => by
          rw [Nat.mod_add_mod, Nat.add_assoc, Nat.add_comm 1 j]
          exact hne (j + 1) (by omega))
        (by rw [Nat.mod_add_mod, Nat.add_assoc, Nat.add_comm 1 k]; exact hemp)
      rw [hrec, Nat.mod_add_mod, Nat.add_assoc, Nat.add_comm 1 k]

/-- C3 amended: the insertion slot chosen by the `_archive` loops of
`hashMap` and `indexMap` is the first control byte equal to the empty
sentinel `0xFF` in *linear* cyclic probe order — start slot
`hash % capacity`, advancing one slot at a time modulo `capacity` — not the
Swiss 16-wide-window/pow2-masked-stride sequence the claim describes (the
counterexample separates the two). -/
theorem C3_linear_probe_amended : ∀ (ctrl : List Nat)
    (capacity ctrlCount hash k : Nat), 0 < capacity → k < capacity →
    (∀ j, j < k → ctrl.getD ((hash % capacity + j) % capacity) 0 ≠ 0xff) →
    ctrl.getD ((hash % capacity + k) % capacity) 0 = 0xff →
    (archiveInsert ctrl capacity ctrlCount hash).2 =
      some ((hash % capacity + k) % capacity) := by
  intro ctrl capacity ctrlCount hash k hcap hk hne hemp
  have h := linearFindSlot_spec k capacity ctrl capacity (hash % capacity)
    hcap (Nat.mod_lt _ hcap) hk hne hemp
  simp only [archiveInsert, h]

/-- C3 amended, witnessed at control bytes `[0, 255, 255]`, capacity 3,
hash 0: slot 0 is occupied, the linear probe picks slot 1. -/
theorem C3_linear_probe_amended_witness :
    (archiveInsert [0, 255, 255] 3 3 0).2 = some 1 := by
  have h := C3_linear_probe_amended [0, 255, 255] 3 3 0 1 (by decide)
    (by decide) (by decide) (by decide)
  exact h.trans (by decide)

/-! ## Claim C2: the B-tree map (`btreeMap`, instantiated at `u32`/`u32`,
branching factor `E = 5`)

Node layout constants, computed exactly as `btreeMap(u32, u32)` computes
them (`keyAlign = valueAlign = 4`, `nodeAlign = 4`, `keyStride =
valueStride = 4`). -/

def btKeysOffset : Nat := alignOffset 1 4
def btValuesOffset : Nat := alignOffset (btKeysOffset + 4 * 5) 4
def btLeafLenOffset : Nat := alignOffset (btValuesOffset + 4 * 5) 4
def btLeafNodeSize : Nat := alignOffset (btLeafLenOffset + 4) 4
def btLesserNodesOffset : Nat := alignOffset (btValuesOffset + 4 * 5) 4
def btGreaterNodeOffset : Nat := btLesserNodesOffset + 4 * 5
def btInnerNodeSize : Nat := alignOffset (btGreaterNodeOffset + 4) 4

/-- The `for (let i = 0; i < E; i++)` key/value slot loop of `writeLeaf` /
`writeInner`: align, then `u32._resolve` for present entries and
`keyCodec.size` zero bytes for unused slots (fuelled by `E = 5`). -/
def btSlots : List Nat → Nat → List Nat → List Nat
  | _, 0, w => w
  | [], fuel + 1, w => btSlots [] fuel (wBytes (wAlign w 4) (List.replicate 4 0))
  | x :: xs, fuel + 1, w => btSlots xs fuel (wUIntLE (wAlign w 4) 4 x)

/-- `writeLeaf` (also the `len <= E` single-leaf branch of `_archive`):
kind byte 0, padded key and value slot arrays, the leaf entry count, padding
to the full node size.  Returns the writer and the node position. -/
def btLeafWrite (entries : List (Nat × Nat)) (w : List Nat) :
    List Nat × Nat :=
  let w1 := wAlign w 4
  let leafPos := w1.length
  let w2 := wU8 w1 0
  let w3 := wPadTo w2 (leafPos + btKeysOffset)
  let w4 := btSlots (entries.map Prod.fst) 5 w3
  let w5 := wPadTo w4 (leafPos + btValuesOffset)
  let w6 := btSlots (entries.map Prod.snd) 5 w5
  let w7 := wPadTo w6 (leafPos + btLeafLenOffset)
  let w8 := wUIntLE w7 4 entries.length
  (wPadTo w8 (leafPos + btLeafNodeSize), leafPos)

/-- The `lesser_nodes` pointer loop of `writeInner`: a relative pointer to
`childNodes[i]` while `i < childNodes.length - 1`, the null delta 0 in the
remaining slots. -/
def btLesser (children : List Nat) : Nat → Nat → List Nat → List Nat
  | _, 0, w => w
  | i, fuel + 1, w =>
    let w1 :=
      if i + 1 < children.length then
        wI32 w ((children.getD i 0 : Int) - (w.length : Int))
      else wI32 w 0
    btLesser children (i + 1) fuel w1

/-- `writeInner`: kind byte 1, the separator key/value slot arrays (unused
slots zero-filled — the node records no key count), `E` lesser pointers and
the greater pointer. -/
def btInnerWrite (seps : List (Nat × Nat)) (children : List Nat)
    (w : List Nat) : List Nat × Nat :=
  let w1 := wAlign w 4
  let innerPos := w1.length
  let w2 := wU8 w1 1
  let w3 := wPadTo w2 (innerPos + btKeysOffset)
  let w4 := btSlots (seps.map Prod.fst) 5 w3
  let w5 := wPadTo w4 (innerPos + btValuesOffset)
  let w6 := btSlots (seps.map Prod.snd) 5 w5
  let w7 := wPadTo w6 (innerPos + btLesserNodesOffset)
  let w8 := btLesser children 0 5 w7
  let w9 :=
    if 0 < children.length then
      wI32 w8 ((children.getLast?.getD 0 : Int) - (w8.length : Int))
    else wI32 w8 0
  (wPadTo w9 (innerPos + btInnerNodeSize), innerPos)

/-- The leaf-building loop of `_archive` (`for (i = 0; i < len; i += E)`),
fuelled by the entry count. -/
def btWriteLeaves : Nat → List (Nat × Nat) → List Nat → List Nat × List Nat
  | 0, _, w => (w, [])
  | _ + 1, [], w => (w, [])
  | fuel + 1, es, w =>
    let (w1, p) := btLeafWrite (es.take 5) w
    let (w2, ps) := btWriteLeaves fuel (es.drop 5) w1
    (w2, p :: ps)

/-- The separator entries of one inner node
(`separatorIdx = Math.min((i + j + 1) * E - 1, len - 1)`; the JS guard
`0 <= separatorIdx < len` always holds for a non-empty map). -/
def btSeps (entries : List (Nat × Nat)) (len i count : Nat) :
    List (Nat × Nat) :=
  (List.range count).map fun j =>
    entries.getD (min ((i + j + 1) * 5 - 1) (len - 1)) (0, 0)

/-- One pass of the level-building loop: group `E + 1` children per inner
node, with `Math.min(childrenForNode.length - 1, E)` separator entries. -/
def btInnerPass (entries : List (Nat × Nat)) (len : Nat) :
    Nat → Nat → List Nat → List Nat → List Nat × List Nat
  | 0, _, _, w => (w, [])
  | _ + 1, _, [], w => (w, [])
  | fuel + 1, i, children, w =>
    let group := children.take 6
    let seps := btSeps entries len i (min (group.length - 1) 5)
    let (w1, p) := btInnerWrite seps group w
    let (w2, ps) := btInnerPass entries len fuel (i + 6) (children.drop 6) w1
    (w2, p :: ps)

/-- The `while (currentLevel.length > 1)` loop of `_archive`; the result is
the root node position `currentLevel[0].pos`. -/
def btBuildTree (entries : List (Nat × Nat)) (len : Nat) :
    Nat → List Nat → List Nat → List Nat × Nat
  | 0, ps, w => (w, ps.headD 0)
  | fuel + 1, ps, w =>
    if ps.length ≤ 1 then (w, ps.headD 0)
    else
      let (w1, next) := btInnerPass entries len (ps.length + 1) 0 ps w
      btBuildTree entries len fuel next w1

/-- `btreeMap._archive`: `(writer, rootPos, len)`. -/
def btArchive (entries : List (Nat × Nat)) (w : List Nat) :
    List Nat × Nat × Nat :=
  let len := entries.length
  if len == 0 then (w, 0, 0)
  else if len ≤ 5 then
    let (w1, p) := btLeafWrite entries w
    (w1, p, len)
  else
    let (w1, leaves) := btWriteLeaves len entries w
    if leaves.length == 1 then (w1, leaves.headD 0, len)
    else
      let (w2, root) := btBuildTree entries len len leaves w1
      (w2, root, len)

/-- `btreeMap._resolve`: align 4, reserve the root pointer, write the length,
patch the pointer to `rootPos` (0 for the empty map). -/
def btResolve (rootPos len : Nat) (w : List Nat) : List Nat × Nat :=
  let w1 := wAlign w 4
  let structPos := w1.length
  let (w2, ptrPos) := wReserveRelPtr32 w1
  let w3 := wUIntLE w2 4 len
  let w4 :=
    if 0 < len then wRelPtr32At w3 ptrPos rootPos
    else wRelPtr32At w3 ptrPos 0
  (w4, structPos)

/-- `encode` for `btreeMap(u32, u32)` starting from an empty writer. -/
def btEncode (entries : List (Nat × Nat)) : List Nat :=
  let (w, rootPos, len) := btArchive entries []
  (btResolve rootPos len w).1

/-- JS `Map.prototype.set` on an insertion-ordered association list. -/
def btSet (m : List (Nat × Nat)) (k v : Nat) : List (Nat × Nat) :=
  if m.any (fun p => p.1 == k) then
    m.map fun p => if p.1 == k then (k, v) else p
  else m ++ [(k, v)]

/-- The descend-to-leftmost-leaf loop of `collectEntries` (`while (true)`
following `lesser_nodes[0]` until a leaf or a null pointer), fuelled. -/
def btDescend (buf : List Nat) : Nat → Nat → List (Nat × Nat) → List (Nat × Nat)
  | 0, _, st => st
  | fuel + 1, cur, st =>
    if readU8 buf cur == 0 then (cur, 0) :: st
    else
      let lesserPtr := cur + btLesserNodesOffset
      if readI32 buf lesserPtr == 0 then (cur, 0) :: st
      else btDescend buf fuel (readRelPtr32 buf lesserPtr) ((cur, 0) :: st)

/-- The iterative in-order stack walk of `collectEntries`
(`while (stack.length > 0 && result.size < len)`), fuelled.  The stack's top
is the list head; an inner node yields all `E` key/value slots (including
zero-filled unused ones) and descends through non-null child pointers. -/
def btLoop (buf : List Nat) (len : Nat) :
    Nat → List (Nat × Nat) → List (Nat × Nat) → List (Nat × Nat)
  | 0, _, res => res
  | _ + 1, [], res => res
  | fuel + 1, (node, idx) :: st, res =>
    if len ≤ res.length then res
    else if readU8 buf node == 0 then
      let leafLen := readU32 buf (node + btLeafLenOffset)
      if idx < leafLen then
        let k := readU32 buf (node + btKeysOffset + idx * 4)
        let v := readU32 buf (node + btValuesOffset + idx * 4)
        btLoop buf len fuel ((node, idx + 1) :: st) (btSet res k v)
      else btLoop buf len fuel st res
    else if idx < 5 then
      let k := readU32 buf (node + btKeysOffset + idx * 4)
      let v := readU32 buf (node + btValuesOffset + idx * 4)
      let res1 := btSet res k v
      let idx1 := idx + 1
      let ptrOff :=
        if idx1 < 5 then node + btLesserNodesOffset + idx1 * 4
        else node + btGreaterNodeOffset
      if readI32 buf ptrOff == 0 then btLoop buf len fuel ((node, idx1) :: st) res1
      else
        btLoop buf len fuel
          (btDescend buf buf.length (readRelPtr32 buf ptrOff)
            ((node, idx1) :: st)) res1
    else btLoop buf len fuel st res

/-- `btreeMap.decode`: read the root pointer and length, then walk. -/
def btDecode (buf : List Nat) (offset : Nat) : List (Nat × Nat) :=
  let len := readU32 buf (offset + 4)
  if len == 0 then []
  else
    let rootOffset := readRelPtr32 buf offset
    btLoop buf len (4 * buf.length + 8) (btDescend buf buf.length rootOffset []) []

set_option maxRecDepth 40000 in
/-- C2 code bug: encoding `btreeMap(u32, u32)` with the six ascending-key
entries `{1↦10, …, 6↦60}` builds one inner node over two leaves, but the
inner node records no key count, so the in-order walk visits all `E = 5`
inner key slots: after the five leaf entries and the duplicated separator
`(5, 50)` it yields the zero-filled slot `(0, 0)` and stops at
`result.size == len` — the decoded map is `{1↦10, …, 5↦50, 0↦0}`, missing
key 6 and containing an entry that was never inserted, and the keys are not
in ascending order.  The two-level sub-claim is true: with 20 entries the
root node written is an inner node (kind byte 1). -/
theorem C2_btree_bug :
    btDecode (btEncode [(1, 10), (2, 20), (3, 30), (4, 40), (5, 50), (6, 60)])
        (getRootPosition
          (btEncode [(1, 10), (2, 20), (3, 30), (4, 40), (5, 50),
            (6, 60)]).length 8) =
      [(1, 10), (2, 20), (3, 30), (4, 40), (5, 50), (0, 0)] ∧
    btDecode (btEncode [(1, 10), (2, 20), (3, 30), (4, 40), (5, 50), (6, 60)])
        (getRootPosition
          (btEncode [(1, 10), (2, 20), (3, 30), (4, 40), (5, 50),
            (6, 60)]).length 8) ≠
      [(1, 10), (2, 20), (3, 30), (4, 40), (5, 50), (6, 60)] ∧
    readU8 (btEncode ((List.range 20).map fun i => (i + 1, 10 * (i + 1))))
        (readRelPtr32
          (btEncode ((List.range 20).map fun i => (i + 1, 10 * (i + 1))))
          (getRootPosition
            (btEncode ((List.range 20).map fun i =>
              (i + 1, 10 * (i + 1)))).length 8)) = 1 := by
  refine ⟨by decide, by decide, by decide⟩

/-! ## Claim C10: `_resolve` position/size accounting

Helper facts: every alignment the codec constructors produce is a power of
two (the library's integer widths are 1/2/4/8 and the composite alignments
are maxima of member alignments), so smaller alignments divide larger
ones. -/

theorem setBytes_length_of_le {w : List Nat} {p : Nat} {bs : List Nat}
    (h : p + bs.length ≤ w.length) : (setBytes w p bs).length = w.length := by
  simp only [setBytes, List.length_append, List.length_take, List.length_drop]
  omega

/-- The alignment values of the codec universe: powers of two. -/
def Pow2 (a : Nat) : Prop := ∃ k, a = 2 ^ k

theorem pow2_one : Pow2 1 := ⟨0, rfl⟩

theorem pow2_max {a b : Nat} (ha : Pow2 a) (hb : Pow2 b) : Pow2 (max a b) := by
  rcases le_total a b with h | h
  · rwa [Nat.max_eq_right h]
  · rwa [Nat.max_eq_left h]

theorem pow2_dvd {a b : Nat} (ha : Pow2 a) (hb : Pow2 b) (h : a ≤ b) :
    a ∣ b := by
  obtain ⟨i, rfl⟩ := ha
  obtain ⟨j, rfl⟩ := hb
  exact Nat.pow_dvd_pow 2 ((Nat.pow_le_pow_iff_right (by norm_num)).mp h)

theorem discSize_pow2 (c : Nat) : Pow2 (discSize c) := by
  unfold discSize
  split
  · exact ⟨0, rfl⟩
  · split
    · exact ⟨1, rfl⟩
    · exact ⟨2, rfl⟩

mutual
theorem tyAlign_pow2 : ∀ t : Ty, wfTy t → Pow2 (tyAlign t)
  | .tuint w, h => by
    simp [wfTy] at h
    simp only [tyAlign]
    rcases h with ((h | h) | h) | h <;> subst h
    · exact ⟨0, rfl⟩
    · exact ⟨1, rfl⟩
    · exact ⟨2, rfl⟩
    · exact ⟨3, rfl⟩
  | .tint w, h => by
    simp [wfTy] at h
    simp only [tyAlign]
    rcases h with ((h | h) | h) | h <;> subst h
    · exact ⟨0, rfl⟩
    · exact ⟨1, rfl⟩
    · exact ⟨2, rfl⟩
    · exact ⟨3, rfl⟩
  | .tbool, _ => ⟨0, rfl⟩
  | .tunit, _ => ⟨0, rfl⟩
  | .tchar, _ => ⟨2, rfl⟩
  | .tstr, _ => ⟨2, rfl⟩
  | .tvec _, _ => ⟨2, rfl⟩
  | .topt e, h => by
    simp only [wfTy] at h
    simp only [tyAlign]
    exact pow2_max pow2_one (tyAlign_pow2 e h)
  | .tbox _, _ => ⟨2, rfl⟩
  | .tarr e _, h => by
    simp only [wfTy] at h
    simp only [tyAlign]
    exact tyAlign_pow2 e h
  | .tstruct fs, h => by
    simp only [wfTy] at h
    simp only [tyAlign]
    exact maxAlignFields_pow2 fs h
  | .tenum vs, h => by
    simp only [wfTy, Bool.and_eq_true] at h
    simp only [tyAlign]
    exact enumAlignFold_pow2 vs _ h.2 (discSize_pow2 _)
  | .tmap _ _, _ => ⟨2, rfl⟩

theorem maxAlignFields_pow2 : ∀ fs : TyList, wfFields fs →
    Pow2 (maxAlignFields fs)
  | .nil, _ => pow2_one
  | .cons t ts, h => by
    simp only [wfFields, Bool.and_eq_true] at h
    simp only [maxAlignFields]
    exact pow2_max (tyAlign_pow2 t h.1) (maxAlignFields_pow2 ts h.2)

theorem enumAlignFold_pow2 : ∀ (vs : TyList) (acc : Nat), wfFields vs →
    Pow2 acc → Pow2 (enumAlignFold vs acc)
  | .nil, _, _, ha => ha
  | .cons t ts, acc, h, ha => by
    simp only [wfFields, Bool.and_eq_true] at h
    simp only [enumAlignFold]
    split
    · exact enumAlignFold_pow2 ts acc h.2 ha
    · exact enumAlignFold_pow2 ts _ h.2 (pow2_max ha (tyAlign_pow2 t h.1))
end

theorem enumSizeFold_ge_acc : ∀ (vs : TyList) (acc : Nat),
    acc ≤ enumSizeFold vs acc
  | .nil, acc => le_refl _
  | .cons t ts, acc => by
    simp only [enumSizeFold]
    split
    · exact enumSizeFold_ge_acc ts acc
    · exact le_trans (le_max_left _ _) (enumSizeFold_ge_acc ts _)

/-- A variant with a payload contributes its alignment to the enum's
`maxVariantAlign` fold. -/
theorem enumAlignFold_nth : ∀ (vs : TyList) (i : Nat) (t : Ty) (acc : Nat),
    nthTy vs i = some t → tySize t ≠ 0 → tyAlign t ≤ enumAlignFold vs acc
  | .nil, i, t, acc, h, _ => by simp [nthTy] at h
  | .cons t0 ts, 0, t, acc, h, hs => by
    simp only [nthTy, Option.some.injEq] at h
    subst h
    simp only [enumAlignFold]
    split
    · next heq => simp only [beq_iff_eq] at heq; exact absurd heq hs
    · exact le_trans (le_trans (le_max_right acc _) (le_refl _))
        (enumAlignFold_ge_acc ts _)
  | .cons t0 ts, k + 1, t, acc, h, hs => by
    simp only [nthTy] at h
    simp only [enumAlignFold]
    exact enumAlignFold_nth ts k t _ h hs

/-- A variant with a payload contributes its size to the enum's
`maxVariantSize` fold. -/
theorem enumSizeFold_nth : ∀ (vs : TyList) (i : Nat) (t : Ty) (acc : Nat),
    nthTy vs i = some t → tySize t ≠ 0 → tySize t ≤ enumSizeFold vs acc
  | .nil, i, t, acc, h, _ => by simp [nthTy] at h
  | .cons t0 ts, 0, t, acc, h, hs => by
    simp only [nthTy, Option.some.injEq] at h
    subst h
    simp only [enumSizeFold]
    split
    · next heq => simp only [beq_iff_eq] at heq; exact absurd heq hs
    · exact le_trans (le_max_right acc _) (enumSizeFold_ge_acc ts _)
  | .cons t0 ts, k + 1, t, acc, h, hs => by
    simp only [nthTy] at h
    simp only [enumSizeFold]
    exact enumSizeFold_nth ts k t _ h hs

theorem wfFields_nth : ∀ (vs : TyList) (i : Nat) (t : Ty),
    nthTy vs i = some t → wfFields vs → wfTy t
  | .nil, i, t, h, _ => by simp [nthTy] at h
  | .cons t0 ts, 0, t, h, hwf => by
    simp only [nthTy, Option.some.injEq] at h
    subst h
    simp only [wfFields, Bool.and_eq_true] at hwf
    exact hwf.1
  | .cons t0 ts, k + 1, t, h, hwf => by
    simp only [nthTy] at h
    simp only [wfFields, Bool.and_eq_true] at hwf
    exact wfFields_nth ts k t h hwf.2

theorem arrOkFields_nth : ∀ (vs : TyList) (i : Nat) (t : Ty),
    nthTy vs i = some t → arrOkFields vs → arrOk t
  | .nil, i, t, h, _ => by simp [nthTy] at h
  | .cons t0 ts, 0, t, h, hok => by
    simp only [nthTy, Option.some.injEq] at h
    subst h
    simp only [arrOkFields, Bool.and_eq_true] at hok
    exact hok.1
  | .cons t0 ts, k + 1, t, h, hok => by
    simp only [nthTy] at h
    simp only [arrOkFields, Bool.and_eq_true] at hok
    exact arrOkFields_nth ts k t h hok.2

/-- `wtNth` at an in-range index is the domain check of that variant. -/
theorem wtNth_eq : ∀ (vs : TyList) (i : Nat) (t : Ty) (p : Val),
    nthTy vs i = some t →
    wtNth vs i p = if tySize t == 0 then p == Val.vunit else wt t p
  | .nil, i, t, p, h => by simp [nthTy] at h
  | .cons t0 ts, 0, t, p, h => by
    simp only [nthTy, Option.some.injEq] at h
    subst h
    rfl
  | .cons t0 ts, k + 1, t, p, h => by
    simp only [nthTy] at h
    simp only [wtNth]
    exact wtNth_eq ts k t p h

mutual
/-- Structural depth, the induction measure for the resolve/decode
proofs. -/
def tyDepth : Ty → Nat
  | .tuint _ => 1
  | .tint _ => 1
  | .tbool => 1
  | .tunit => 1
  | .tchar => 1
  | .tstr => 1
  | .tvec e => tyDepth e + 1
  | .topt e => tyDepth e + 1
  | .tbox e => tyDepth e + 1
  | .tarr e _ => tyDepth e + 1
  | .tstruct fs => tyListDepth fs + 1
  | .tenum vs => tyListDepth vs + 1
  | .tmap k v => max (tyDepth k) (tyDepth v) + 1

def tyListDepth : TyList → Nat
  | .nil => 0
  | .cons t ts => max (tyDepth t) (tyListDepth ts)
end

theorem tyDepth_nth : ∀ (fs : TyList) (i : Nat) (t : Ty),
    nthTy fs i = some t → tyDepth t ≤ tyListDepth fs
  | .nil, i, t, h => by simp [nthTy] at h
  | .cons t0 ts, 0, t, h => by
    simp only [nthTy, Option.some.injEq] at h
    subst h
    simp only [tyListDepth]
    exact le_max_left _ _
  | .cons t0 ts, k + 1, t, h => by
    simp only [nthTy] at h
    simp only [tyListDepth]
    exact le_trans (tyDepth_nth ts k t h) (le_max_right _ _)

@[simp] theorem alignOffset_one (x : Nat) : alignOffset x 1 = x :=
  alignOffset_eq_self (one_dvd x)

/-- The shared vec/map `_resolve` writes exactly its 8-byte header at the
aligned position (the relative-pointer patch stays inside those bytes). -/
theorem resolveSeqHeader_spec (r : Res) (w : List Nat) :
    (resolveSeqHeader r w).2 = alignOffset w.length 4 ∧
    (resolveSeqHeader r w).1.length = alignOffset w.length 4 + 8 := by
  have h4 : (0 : Nat) < 4 := by norm_num
  have hd : (4 : Nat) ∣ alignOffset w.length 4 + 4 :=
    Nat.dvd_add (dvd_alignOffset h4 _) ⟨1, rfl⟩
  unfold resolveSeqHeader wReserveRelPtr32 wUIntLE
  constructor
  · simp
  · simp only [wRelPtr32At]
    rw [setBytes_length_of_le]
    · simp only [List.length_append, wAlign_length, natToLE_length,
        List.length_cons, List.length_nil]
      norm_num
      rw [alignOffset_eq_self hd]
    · simp only [List.length_append, wAlign_length, natToLE_length,
        intToLE32_length, List.length_cons, List.length_nil]
      norm_num
      have := alignOffset_ge (alignOffset w.length 4 + 4) 4
      omega

/-- Length accounting for `taggedEnum._resolve`'s payload write, given the
resolve accounting of the selected variant. -/
theorem resolveNthPayload_length : ∀ (vs : TyList) (tag : Nat) (p : Val)
    (r : Res) (d : Nat) (t : Ty) (w : List Nat),
    nthTy vs tag = some t →
    (tySize t ≠ 0 → ∀ u : List Nat, (resolveTy t p r u).1.length =
      alignOffset u.length (tyAlign t) + tySize t) →
    (resolveNthPayload vs tag p r d w).length =
      if tySize t == 0 then w.length
      else alignOffset (w.length + (alignOffset d (tyAlign t) - d))
        (tyAlign t) + tySize t
  | .nil, tag, p, r, d, t, w, h, _ => by simp [nthTy] at h
  | .cons t0 ts, 0, p, r, d, t, w, h, hres => by
    simp only [nthTy, Option.some.injEq] at h
    subst h
    simp only [resolveNthPayload]
    by_cases hz : (tySize t0 == 0) = true
    · rw [if_pos hz, if_pos hz]
    · rw [if_neg hz, if_neg hz]
      rw [hres (by simpa using hz)]
      simp
  | .cons t0 ts, k + 1, p, r, d, t, w, h, hres => by
    simp only [nthTy] at h
    simp only [resolveNthPayload]
    exact resolveNthPayload_length ts k p r d t w h hres

/-- Length accounting for the `array._resolve` element loop, given the
element codec's resolve accounting; needs the element size to be a multiple
of the element alignment (`arrOk`), so each iteration advances by exactly
`tySize e`. -/
theorem arrLoop_length (e : Ty)
    (hres : ∀ (x : Val) (q : Res) (z : List Nat), wt e x = true →
      (resolveTy e x q z).1.length = alignOffset z.length (tyAlign e) + tySize e)
    (ha : 0 < tyAlign e) (hdvd : tyAlign e ∣ tySize e) :
    ∀ (k : Nat) (vs : ValList) (rs : ResList) (u : List Nat),
    lenV vs = k → allVals (fun x => wt e x) vs = true → tyAlign e ∣ u.length →
    (arrLoop (fun x q z => resolveTy e x q z) (tyAlign e) vs rs k u).length =
      u.length + tySize e * k := by
  intro k
  induction k with
  | zero => intro vs rs u _ _ _; simp [arrLoop]
  | succ m ihm =>
    intro vs rs u hlen hall hdu
    cases vs with
    | nil => simp [lenV] at hlen
    | cons x xs =>
      simp only [allVals, Bool.and_eq_true] at hall
      simp only [lenV] at hlen
      simp only [arrLoop, headVal, tailVal]
      have hstep : (resolveTy e x (headRes rs) (wAlign u (tyAlign e))).1.length =
          u.length + tySize e := by
        rw [hres x (headRes rs) _ hall.1]
        rw [wAlign_length, alignOffset_eq_self hdu, alignOffset_eq_self hdu]
      rw [ihm xs (tailRes rs) _ (by omega) hall.2]
      · rw [hstep]; ring
      · rw [hstep]; exact Nat.dvd_add hdu hdvd

/-- Length accounting for `object._resolve`'s field loop (given each field's
resolve accounting): starting exactly at `pos + cur` and with `pos` a
multiple of the struct alignment, the loop ends exactly at
`pos + structEndAux fs cur`. -/
theorem resolveFields_length : ∀ (fs : TyList) (vs : ValList) (rs : ResList)
    (pos cur : Nat) (u : List Nat),
    (∀ (i : Nat) (t : Ty), nthTy fs i = some t →
      ∀ (x : Val) (q : Res) (z : List Nat), wt t x = true →
        (resolveTy t x q z).1.length = alignOffset z.length (tyAlign t) + tySize t) →
    wfFields fs → wtFields fs vs → maxAlignFields fs ∣ pos →
    u.length = pos + cur →
    (resolveFields fs vs rs pos cur u).length = pos + structEndAux fs cur
  | .nil, vs, rs, pos, cur, u, _, _, _, _, hu => by
    simp only [resolveFields, structEndAux]
    exact hu
  | .cons t ts, .nil, rs, pos, cur, u, _, _, hwt, _, _ => by
    simp [wtFields] at hwt
  | .cons t ts, .cons x xs, rs, pos, cur, u, hres, hwf, hwt, hpos, hu => by
    simp only [wfFields, Bool.and_eq_true] at hwf
    simp only [wtFields, Bool.and_eq_true] at hwt
    simp only [resolveFields, headVal, tailVal, structEndAux]
    have hat : 0 < tyAlign t := tyAlign_pos t hwf.1
    have hdt : tyAlign t ∣ pos :=
      dvd_trans
        (pow2_dvd (tyAlign_pow2 t hwf.1)
          (maxAlignFields_pow2 (.cons t ts) (by simp [wfFields, hwf.1, hwf.2]))
          (by simp only [maxAlignFields]; exact le_max_left _ _))
        hpos
    have hoff : tyAlign t ∣ alignOffset cur (tyAlign t) := dvd_alignOffset hat _
    have hgecur := alignOffset_ge cur (tyAlign t)
    have hw1 : (wPadTo u (pos + alignOffset cur (tyAlign t))).length =
        pos + alignOffset cur (tyAlign t) := by
      rw [wPadTo_length, hu]
      omega
    have hstep : (resolveTy t x (headRes rs)
        (wPadTo u (pos + alignOffset cur (tyAlign t)))).1.length =
        pos + alignOffset cur (tyAlign t) + tySize t := by
      rw [hres 0 t rfl x (headRes rs) _ hwt.1, hw1,
        alignOffset_eq_self (Nat.dvd_add hdt hoff)]
    refine resolveFields_length ts xs (tailRes rs) pos
      (alignOffset cur (tyAlign t) + tySize t) _
      (fun i t' h => hres (i + 1) t' h) hwf.2 hwt.2 ?_ ?_
    · exact dvd_trans
        (pow2_dvd (maxAlignFields_pow2 ts hwf.2)
          (maxAlignFields_pow2 (.cons t ts) (by simp [wfFields, hwf.1, hwf.2]))
          (by simp only [maxAlignFields]; exact le_max_right _ _))
        hpos
    · rw [hstep]; ring

/-- The central `_resolve` accounting, by strong induction on the structural
depth: for every well-formed codec whose embedded fixed arrays have
size-divisible elements and every in-domain value, `_resolve` returns the
alignment-rounded current position and advances the writer by exactly
`codec.size`. -/
theorem resolve_advance_aux : ∀ (N : Nat) (t : Ty), tyDepth t ≤ N →
    ∀ (v : Val) (r : Res) (w : List Nat), wfTy t → arrOk t → wt t v →
    (resolveTy t v r w).2 = alignOffset w.length (tyAlign t) ∧
    (resolveTy t v r w).1.length = alignOffset w.length (tyAlign t) + tySize t := by
  intro N
  induction N with
  | zero =>
    intro t ht
    exfalso
    cases t <;> simp [tyDepth] at ht
  | succ N ih =>
    intro t ht v r w hwf hok hwt
    cases t with
    | tuint width =>
      cases v <;> simp [wt] at hwt
      exact ⟨by simp [resolveTy, tyAlign],
        by simp [resolveTy, tyAlign, tySize]⟩
    | tint width =>
      cases v <;> simp [wt] at hwt
      exact ⟨by simp [resolveTy, tyAlign],
        by simp [resolveTy, tyAlign, tySize]⟩
    | tbool =>
      cases v <;> simp [wt] at hwt
      exact ⟨by simp [resolveTy, tyAlign],
        by simp [resolveTy, tyAlign, tySize]⟩
    | tunit =>
      cases v <;> simp [wt] at hwt
      exact ⟨by simp [resolveTy, tyAlign],
        by simp [resolveTy, tyAlign, tySize]⟩
    | tchar =>
      cases v <;> simp [wt] at hwt
      exact ⟨by simp [resolveTy, tyAlign],
        by simp [resolveTy, tyAlign, tySize]⟩
    | tstr =>
      cases v <;> simp [wt] at hwt
      constructor
      · simp only [resolveTy, tyAlign]
        split <;> simp
      · simp only [resolveTy, tyAlign, tySize]
        split
        · next hle =>
          simp only [List.length_append, wAlign_length, List.length_map,
            List.length_replicate]
          omega
        · simp only [List.length_append, wAlign_length, natToLE_length,
            intToLE32_length]
    | tvec e =>
      simp only [resolveTy, tyAlign, tySize]
      exact resolveSeqHeader_spec r w
    | tmap tk tv =>
      simp only [resolveTy, tyAlign, tySize]
      exact resolveSeqHeader_spec r w
    | tbox e =>
      constructor
      · simp [resolveTy, wReserveRelPtr32, tyAlign]
      · simp only [resolveTy, wReserveRelPtr32, wRelPtr32At, tyAlign, tySize]
        rw [setBytes_length_of_le (by simp)]
        simp
    | topt e =>
      simp only [tyDepth] at ht
      have hde : tyDepth e ≤ N := by omega
      simp only [wfTy] at hwf
      simp only [arrOk] at hok
      have hap : 0 < tyAlign e := tyAlign_pos e hwf
      have hmax : max 1 (tyAlign e) = tyAlign e := by omega
      cases v <;> simp [wt] at hwt
      case vnone =>
        constructor
        · simp [resolveTy, tyAlign]
        · simp only [resolveTy, tyAlign, tySize]
          simp only [List.length_append, wAlign_length, List.length_cons,
            List.length_replicate]
          omega
      case vsome x =>
        have hres := ih e hde x (resInner r)
          (wAlign w (max 1 (tyAlign e)) ++
            1 :: List.replicate (alignOffset 1 (tyAlign e) - 1) 0)
          hwf hok hwt
        have h1a := alignOffset_ge 1 (tyAlign e)
        have hlen2 : (wAlign w (max 1 (tyAlign e)) ++
            1 :: List.replicate (alignOffset 1 (tyAlign e) - 1) 0).length =
            alignOffset w.length (tyAlign e) + alignOffset 1 (tyAlign e) := by
          simp only [List.length_append, wAlign_length, List.length_cons,
            List.length_replicate, hmax]
          omega
        have heq : alignOffset (alignOffset w.length (tyAlign e) +
            alignOffset 1 (tyAlign e)) (tyAlign e) =
            alignOffset w.length (tyAlign e) + alignOffset 1 (tyAlign e) :=
          alignOffset_eq_self
            (Nat.dvd_add (dvd_alignOffset hap _) (dvd_alignOffset hap _))
        constructor
        · simp [resolveTy, tyAlign]
        · simp only [resolveTy, tyAlign, tySize]
          rw [hres.2, hlen2, heq, hmax]
          omega
    | tarr e n =>
      simp only [tyDepth] at ht
      have hde : tyDepth e ≤ N := by omega
      simp only [wfTy] at hwf
      simp only [arrOk, Bool.and_eq_true] at hok
      cases v <;> simp [wt] at hwt
      case vlist vs =>
      have hap := tyAlign_pos e hwf
      have hdvd : tyAlign e ∣ tySize e :=
        Nat.dvd_of_mod_eq_zero (by simpa using hok.1)
      have hres : ∀ (x : Val) (q : Res) (z : List Nat), wt e x = true →
          (resolveTy e x q z).1.length =
            alignOffset z.length (tyAlign e) + tySize e :=
        fun x q z hx => (ih e hde x q z hwf hok.2 hx).2
      constructor
      · simp [resolveTy, tyAlign]
      · simp only [resolveTy, tyAlign, tySize]
        rw [arrLoop_length e hres hap hdvd n vs (resElems r) _ hwt.1 hwt.2
          (by simp only [wAlign_length]; exact dvd_alignOffset hap _)]
        rw [alignOffset_eq_self hdvd, wAlign_length]
    | tstruct fs =>
      simp only [tyDepth] at ht
      have hdepth : tyListDepth fs ≤ N := by omega
      simp only [wfTy] at hwf
      simp only [arrOk] at hok
      cases v <;> simp [wt] at hwt
      case vstruct vs =>
      have hres : ∀ (i : Nat) (t : Ty), nthTy fs i = some t →
          ∀ (x : Val) (q : Res) (z : List Nat), wt t x = true →
          (resolveTy t x q z).1.length =
            alignOffset z.length (tyAlign t) + tySize t := by
        intro i t hnth x q z hx
        exact (ih t (le_trans (tyDepth_nth fs i t hnth) hdepth) x q z
          (wfFields_nth fs i t hnth hwf) (arrOkFields_nth fs i t hnth hok) hx).2
      have hmp := maxAlignFields_pos fs
      constructor
      · simp [resolveTy, tyAlign]
      · simp only [resolveTy, tyAlign, tySize, wPadTo_length]
        rw [resolveFields_length fs vs (resElems r)
          (wAlign w (maxAlignFields fs)).length 0 (wAlign w (maxAlignFields fs))
          hres hwf hwt
          (by simp only [wAlign_length]; exact dvd_alignOffset hmp _)
          (by omega)]
        simp only [wAlign_length]
        have := alignOffset_ge (structEndAux fs 0) (maxAlignFields fs)
        omega
    | tenum vs =>
      simp only [tyDepth] at ht
      have hdepth : tyListDepth vs ≤ N := by omega
      simp only [wfTy, Bool.and_eq_true] at hwf
      simp only [arrOk] at hok
      cases v <;> simp [wt] at hwt
      case venum tag p =>
      obtain ⟨t, hnth⟩ := nthTy_lt vs tag hwt.1.2
      have hwft := wfFields_nth vs tag t hnth hwf.2
      have hokt := arrOkFields_nth vs tag t hnth hok
      have hwtp : (if tySize t == 0 then p == Val.vunit else wt t p) = true := by
        rw [← wtNth_eq vs tag t p hnth]
        exact hwt.2
      have hdp : 0 < discSize (lenT vs) := discSize_pos _
      have hdpow := discSize_pow2 (lenT vs)
      have hapow := enumAlignFold_pow2 vs _ hwf.2 hdpow
      have hge := enumAlignFold_ge_acc vs (discSize (lenT vs))
      have hdd : discSize (lenT vs) ∣ enumAlignFold vs (discSize (lenT vs)) :=
        pow2_dvd hdpow hapow hge
      have hEpos : 0 < enumAlignFold vs (discSize (lenT vs)) :=
        lt_of_lt_of_le hdp hge
      have hposd := dvd_alignOffset hEpos w.length
      have hw2 : (wUIntLE (wAlign w (enumAlignFold vs (discSize (lenT vs))))
          (discSize (lenT vs)) tag).length =
          alignOffset w.length (enumAlignFold vs (discSize (lenT vs))) +
            discSize (lenT vs) := by
        simp only [wUIntLE, List.length_append, wAlign_length, natToLE_length]
        rw [alignOffset_eq_self (dvd_trans hdd hposd)]
      have hda := alignOffset_ge (discSize (lenT vs))
        (enumAlignFold vs (discSize (lenT vs)))
      constructor
      · simp [resolveTy, tyAlign]
      · simp only [resolveTy, tyAlign, tySize]
        by_cases hz : tySize t = 0
        · simp only [wPadTo_length]
          rw [resolveNthPayload_length vs tag p (resInner r) _ t _ hnth
            (fun hnz => absurd hz hnz)]
          rw [if_pos (by simpa using hz), hw2]
          simp only [wAlign_length]
          omega
        · have hresT : tySize t ≠ 0 → ∀ u : List Nat,
              (resolveTy t p (resInner r) u).1.length =
                alignOffset u.length (tyAlign t) + tySize t := by
            intro _ u
            have hwtpt : wt t p = true := by
              rw [if_neg (by simpa using hz)] at hwtp
              exact hwtp
            exact (ih t (le_trans (tyDepth_nth vs tag t hnth) hdepth) p
              (resInner r) u hwft hokt hwtpt).2
          simp only [wPadTo_length]
          rw [resolveNthPayload_length vs tag p (resInner r) _ t _ hnth hresT]
          rw [if_neg (by simpa using hz), hw2]
          have hat : 0 < tyAlign t := tyAlign_pos t hwft
          have htd : tyAlign t ∣ enumAlignFold vs (discSize (lenT vs)) :=
            pow2_dvd (tyAlign_pow2 t hwft) hapow
              (enumAlignFold_nth vs tag t _ hnth hz)
          have hgd := alignOffset_ge (discSize (lenT vs)) (tyAlign t)
          have harr : alignOffset w.length (enumAlignFold vs (discSize (lenT vs))) +
              discSize (lenT vs) +
              (alignOffset (discSize (lenT vs)) (tyAlign t) - discSize (lenT vs)) =
              alignOffset w.length (enumAlignFold vs (discSize (lenT vs))) +
                alignOffset (discSize (lenT vs)) (tyAlign t) := by omega
          rw [harr, alignOffset_eq_self
            (Nat.dvd_add (dvd_trans htd hposd) (dvd_alignOffset hat _))]
          simp only [wAlign_length]
          have hle1 : alignOffset (discSize (lenT vs)) (tyAlign t) ≤
              alignOffset (discSize (lenT vs))
                (enumAlignFold vs (discSize (lenT vs))) :=
            alignOffset_le hat
              (dvd_trans htd (dvd_alignOffset hEpos _)) hda
          have hle2 : tySize t ≤ enumSizeFold vs 0 :=
            enumSizeFold_nth vs tag t 0 hnth hz
          omega

/-- C10 counterexample: for `array(taggedEnum({A: tuple(u16,u16,u16), B:
u32}), 2)` — an element codec whose size 10 is not a multiple of its
alignment 4 — `encode` produces 22 bytes while the array codec's size is 24:
`_resolve` advanced the writer by less than `codec.size`, so the root does
not occupy the final `codec.size` bytes of the buffer. -/
theorem C10_counterexample :
    (encodeBytes (.tarr (.tenum (.cons (.tstruct (.cons (.tuint 2)
        (.cons (.tuint 2) (.cons (.tuint 2) .nil)))) (.cons (.tuint 4) .nil)))
        2)
      (.vlist (.cons (.venum 1 (.vnat 7))
        (.cons (.venum 1 (.vnat 8)) .nil)))).length = 22 ∧
    tySize (.tarr (.tenum (.cons (.tstruct (.cons (.tuint 2)
        (.cons (.tuint 2) (.cons (.tuint 2) .nil)))) (.cons (.tuint 4) .nil)))
        2) = 24 ∧
    (encodeBytes (.tarr (.tenum (.cons (.tstruct (.cons (.tuint 2)
        (.cons (.tuint 2) (.cons (.tuint 2) .nil)))) (.cons (.tuint 4) .nil)))
        2)
      (.vlist (.cons (.venum 1 (.vnat 7))
        (.cons (.venum 1 (.vnat 8)) .nil)))).length ≠
      (encodeVal (.tarr (.tenum (.cons (.tstruct (.cons (.tuint 2)
          (.cons (.tuint 2) (.cons (.tuint 2) .nil))))
          (.cons (.tuint 4) .nil))) 2)
        (.vlist (.cons (.venum 1 (.vnat 7))
          (.cons (.venum 1 (.vnat 8)) .nil)))).2 +
      tySize (.tarr (.tenum (.cons (.tstruct (.cons (.tuint 2)
          (.cons (.tuint 2) (.cons (.tuint 2) .nil))))
          (.cons (.tuint 4) .nil))) 2) := by
  refine ⟨by decide, by decide, by decide⟩

/-- C10 amended: for every well-formed codec all of whose embedded fixed
arrays have elements with `size % align == 0` (`arrOk` — the counterexample
shows the accounting fails without it, because the tagged-enum size formula
has no trailing padding), and every value in the codec's domain, `_resolve`
at a writer position aligned to the codec's align returns that position and
leaves the writer's position at exactly `p + codec.size`; consequently the
root value written last occupies the final `codec.size` bytes of the
finished buffer, which is what makes `getRootPosition(rootSize) =
bufferLength - rootSize` find it. -/
theorem C10_resolve_advance_amended :
    (∀ (t : Ty) (v : Val) (r : Res) (w : List Nat),
      wfTy t → arrOk t → wt t v → tyAlign t ∣ w.length →
      (resolveTy t v r w).2 = w.length ∧
      (resolveTy t v r w).1.length = w.length + tySize t) ∧
    (∀ (t : Ty) (v : Val), wfTy t → arrOk t → wt t v →
      getRootPosition (encodeBytes t v).length (tySize t) =
        (encodeVal t v).2) := by
  have main := fun (t : Ty) => resolve_advance_aux (tyDepth t) t (le_refl _)
  constructor
  · intro t v r w hwf hok hwt hdvd
    have h := main t v r w hwf hok hwt
    rw [alignOffset_eq_self hdvd] at h
    exact h
  · intro t v hwf hok hwt
    have h := main t v (archiveTy t v []).2 (archiveTy t v []).1 hwf hok hwt
    show (resolveTy t v (archiveTy t v []).2 (archiveTy t v []).1).1.length -
        tySize t =
      (resolveTy t v (archiveTy t v []).2 (archiveTy t v []).1).2
    rw [h.1, h.2]
    omega

/-- C10 amended, witnessed at `optional(u16)` with value `some 5` on the
empty writer: resolve returns position 0 and writes exactly
`tySize (optional u16) = 4` bytes, and `getRootPosition` recovers the root
position of the finished 4-byte encode. -/
theorem C10_resolve_advance_witness :
    (resolveTy (.topt (.tuint 2)) (.vsome (.vnat 5)) (.rpos 0) []).2 = 0 ∧
    (resolveTy (.topt (.tuint 2)) (.vsome (.vnat 5)) (.rpos 0) []).1.length =
      0 + tySize (.topt (.tuint 2)) ∧
    getRootPosition
      (encodeBytes (.topt (.tuint 2)) (.vsome (.vnat 5))).length
      (tySize (.topt (.tuint 2))) =
      (encodeVal (.topt (.tuint 2)) (.vsome (.vnat 5))).2 :=
  ⟨(C10_resolve_advance_amended.1 (.topt (.tuint 2)) (.vsome (.vnat 5))
      (.rpos 0) [] (by decide) (by decide) (by decide) (by decide)).1,
   (C10_resolve_advance_amended.1 (.topt (.tuint 2)) (.vsome (.vnat 5))
      (.rpos 0) [] (by decide) (by decide) (by decide) (by decide)).2,
   C10_resolve_advance_amended.2 (.topt (.tuint 2)) (.vsome (.vnat 5))
      (by decide) (by decide) (by decide)⟩

/-! ## Claim C1: the encode/decode roundtrip

Supporting read-back lemmas. -/

theorem readBytes_append (pre bs post : List Nat) :
    readBytes (pre ++ bs ++ post) pre.length bs.length = bs := by
  unfold readBytes
  rw [List.append_assoc, List.drop_left, List.take_left]

theorem map_mod_id {bs : List Nat} (h : bs.all (· < 256) = true) :
    bs.map (· % 256) = bs := by
  induction bs with
  | nil => rfl
  | cons b rest ih =>
    simp only [List.all_cons, Bool.and_eq_true, decide_eq_true_eq] at h
    simp only [List.map_cons, Nat.mod_eq_of_lt h.1, ih h.2]

/-- The inline-string scan returns the index of the first 0xFF byte. -/
theorem strScanAux_spec : ∀ (fuel j : Nat) (buf : List Nat) (o len : Nat),
    j ≤ len → len ≤ j + fuel →
    (∀ k, j ≤ k → k < len → readU8 buf (o + k) ≠ 0xff) →
    (len < j + fuel → readU8 buf (o + len) = 0xff) →
    strScanAux buf o j fuel = len := by
  intro fuel
  induction fuel with
  | zero =>
    intro j buf o len h1 h2 _ _
    simp only [strScanAux]
    omega
  | succ f ih =>
    intro j buf o len h1 h2 hne hstop
    simp only [strScanAux]
    by_cases hj : j = len
    · subst hj
      rw [if_pos (by simp [hstop (by omega)])]
    · have hjlt : j < len := by omega
      rw [if_neg (by simp [hne j (le_refl _) hjlt])]
      exact ih (j + 1) buf o len (by omega) (by omega)
        (fun k hk1 hk2 => hne k (by omega) hk2)
        (fun h => hstop (by omega))

/-- `resolveSeqHeader` in explicit append form: the patched pointer bytes
replace the reserved zeros. -/
theorem resolveSeqHeader_eq (r : Res) (w : List Nat) :
    resolveSeqHeader r w =
      (wAlign w 4 ++
        intToLE32 ((((if resLen r > 0 then resPos r else 0) : Nat) : Int) -
          ((wAlign w 4).length : Int)) ++
        natToLE 4 (resLen r), (wAlign w 4).length) := by
  have h4 : (4 : Nat) ∣ (wAlign w 4 ++ [0, 0, 0, 0]).length := by
    simp only [List.length_append, wAlign_length, List.length_cons,
      List.length_nil]
    exact Nat.dvd_add (dvd_alignOffset (by norm_num) _) ⟨1, by norm_num⟩
  unfold resolveSeqHeader wReserveRelPtr32 wUIntLE wRelPtr32At
  dsimp only
  rw [wAlign_eq_self h4]
  have hch := setBytes_chunk (wAlign w 4) [0, 0, 0, 0] (natToLE 4 (resLen r))
    (intToLE32 ((((if resLen r > 0 then resPos r else 0) : Nat) : Int) -
      ((wAlign w 4).length : Int))) (by simp)
  simp only [List.append_assoc] at hch ⊢
  rw [hch]

/-- Appending pair lists (for the `Map.set` fold). -/
def pappend : ValPairList → ValPairList → ValPairList
  | .nil, qs => qs
  | .cons k v ps, qs => .cons k v (pappend ps qs)

theorem pappend_nil : ∀ ps : ValPairList, pappend ps .nil = ps
  | .nil => rfl
  | .cons k v ps => by simp only [pappend, pappend_nil ps]

theorem keysOf_pappend : ∀ ps qs : ValPairList,
    keysOf (pappend ps qs) = keysOf ps ++ keysOf qs
  | .nil, qs => rfl
  | .cons k v ps, qs => by
    simp only [pappend, keysOf, keysOf_pappend ps qs, List.cons_append]

theorem mapInsert_not_mem : ∀ (m : ValPairList) (k v : Val),
    k ∉ keysOf m → mapInsert m k v = pappend m (.cons k v .nil)
  | .nil, k, v, _ => rfl
  | .cons k0 v0 ps, k, v, h => by
    simp only [keysOf, List.mem_cons, not_or] at h
    simp only [mapInsert, pappend]
    rw [if_neg (Ne.symm h.1), mapInsert_not_mem ps k v h.2]

theorem pappend_assoc : ∀ a b c : ValPairList,
    pappend (pappend a b) c = pappend a (pappend b c)
  | .nil, b, c => rfl
  | .cons k v a, b, c => by simp only [pappend, pappend_assoc a b c]

/-- Folding `Map.set` over pairs with fresh, distinct keys appends them in
order. -/
theorem mapSetFold_fresh : ∀ (ps acc : ValPairList),
    (∀ k, k ∈ keysOf ps → k ∉ keysOf acc) → (keysOf ps).Nodup →
    mapSetFold acc ps = pappend acc ps
  | .nil, acc, _, _ => by simp only [mapSetFold, pappend_nil]
  | .cons k v ps, acc, hfresh, hnd => by
    simp only [keysOf, List.nodup_cons] at hnd
    simp only [mapSetFold]
    rw [mapInsert_not_mem acc k v (hfresh k (by simp [keysOf]))]
    rw [mapSetFold_fresh ps (pappend acc (.cons k v .nil))
      (fun k' hk' => by
        rw [keysOf_pappend]
        simp only [List.mem_append, keysOf, List.mem_cons,
          List.not_mem_nil, or_false, not_or]
        refine ⟨hfresh k' (by simp [keysOf, hk']), ?_⟩
        intro hkk
        subst hkk
        exact hnd.1 hk')
      hnd.2]
    rw [pappend_assoc]
    simp only [pappend]

/-- The discriminant always fits the chosen discriminant width. -/
theorem tag_lt_discBound {count tag : Nat} (h1 : tag < count)
    (h2 : count ≤ 2 ^ 32) : tag < 2 ^ (8 * discSize count) := by
  unfold discSize
  split
  · next hc => norm_num; omega
  · split
    · next hc => norm_num; omega
    · norm_num; omega

theorem readU8_ext {w buf : List Nat} (h : Ext w buf) {o : Nat}
    (ho : o < w.length) : readU8 buf o = readU8 w o := by
  obtain ⟨tl, rfl⟩ := h
  exact readU8_append tl ho

/-- Reading back a stored little-endian two's-complement integer of any
positive width. -/
theorem readIntLE_write (pre post : List Nat) (width : Nat) (hw : 0 < width)
    (i : Int) (hlo : -(2 ^ (8 * width - 1)) ≤ i)
    (hhi : i < 2 ^ (8 * width - 1)) :
    readIntLE (pre ++ natToLE width ((i.emod (2 ^ (8 * width))).toNat) ++ post)
      pre.length width = i := by
  have hMA : (2 : Nat) ^ (8 * width) = 2 * 2 ^ (8 * width - 1) := by
    rw [← pow_succ']
    congr 1
    omega
  have hMAi : (2 : Int) ^ (8 * width) = 2 * 2 ^ (8 * width - 1) := by
    rw [← pow_succ']
    congr 1
    omega
  have hMpos : (0 : Int) < 2 ^ (8 * width) := by positivity
  have hmod : (0 : Int) ≤ i.emod (2 ^ (8 * width)) := Int.emod_nonneg i (by omega)
  have hmlt : i.emod (2 ^ (8 * width)) < 2 ^ (8 * width) :=
    Int.emod_lt_of_pos i hMpos
  have hread : readUIntLE
      (pre ++ natToLE width ((i.emod (2 ^ (8 * width))).toNat) ++ post)
      pre.length width = (i.emod (2 ^ (8 * width))).toNat % 2 ^ (8 * width) :=
    readUIntLE_write pre post width _
  have hcastM : ((2 ^ (8 * width) : Nat) : Int) = 2 ^ (8 * width) := by
    push_cast
    rfl
  have hself : (i.emod (2 ^ (8 * width))).toNat % 2 ^ (8 * width) =
      (i.emod (2 ^ (8 * width))).toNat := by
    apply Nat.mod_eq_of_lt
    omega
  have hch : i.emod (2 ^ (8 * width)) = i ∨
      i.emod (2 ^ (8 * width)) = i + 2 ^ (8 * width) := by
    rcases le_or_lt 0 i with hpos | hneg
    · left
      exact Int.emod_eq_of_lt hpos (by omega)
    · right
      have h1 : (0 : Int) ≤ i + 2 ^ (8 * width) := by omega
      have h2 : i + 2 ^ (8 * width) < 2 ^ (8 * width) := by omega
      have h3 := Int.emod_eq_of_lt h1 h2
      have heq : (i + 2 ^ (8 * width) * 1) % (2 ^ (8 * width)) =
          i % (2 ^ (8 * width)) :=
        Int.add_mul_emod_self_left i (2 ^ (8 * width)) 1
      have heq2 : i + 2 ^ (8 * width) * 1 = i + 2 ^ (8 * width) := by ring
      rw [heq2] at heq
      show i % 2 ^ (8 * width) = i + 2 ^ (8 * width)
      rw [← heq, h3]
  simp only [readIntLE, hread, hself]
  have hcast : (((i.emod (2 ^ (8 * width))).toNat : Int)) =
      i.emod (2 ^ (8 * width)) := Int.toNat_of_nonneg hmod
  have hhalf : ((2 : Nat) ^ (8 * width - 1) : Int) = (2 : Int) ^ (8 * width - 1) := by
    push_cast
    rfl
  split
  · next hsmall =>
    have hsi : ((i.emod (2 ^ (8 * width))).toNat : Int) <
        (2 : Int) ^ (8 * width - 1) := by
      rw [← hhalf]
      exact_mod_cast hsmall
    rw [hcast] at hsi ⊢
    rcases hch with hc | hc <;> omega
  · next hbig =>
    have hsi : (2 : Int) ^ (8 * width - 1) ≤
        ((i.emod (2 ^ (8 * width))).toNat : Int) := by
      rw [← hhalf]
      exact_mod_cast Nat.le_of_not_lt hbig
    push_cast
    rw [hcast] at hsi ⊢
    rcases hch with hc | hc <;> omega

/-! The roundtrip invariants. -/

/-- `v` decodes at position `p` from every admissible extension of `w`
(the 2^31 bound keeps every stored relative pointer within `i32`). -/
def DecAt (t : Ty) (v : Val) (w : List Nat) (p : Nat) : Prop :=
  ∀ buf : List Nat, Ext w buf → buf.length ≤ 2 ^ 31 → decodeTy t buf p = some v

theorem decAt_mono {t : Ty} {v : Val} {w w' : List Nat} {p : Nat}
    (h : Ext w w') (hd : DecAt t v w p) : DecAt t v w' p :=
  fun buf hb hlen => hd buf (extTrans h hb) hlen

/-- The resolver produced while archiving `v` against writer state `w1` is
good: resolving from any later writer state appends bytes from which `v`
decodes back at the aligned resolve position. -/
def ResolveOk (t : Ty) (v : Val) (w1 : List Nat) (r : Res) : Prop :=
  ∀ w2 : List Nat, Ext w1 w2 →
    Ext w2 (resolveTy t v r w2).1 ∧
    DecAt t v (resolveTy t v r w2).1 (alignOffset w2.length (tyAlign t))

theorem resolveOk_mono {t : Ty} {v : Val} {w1 w1' : List Nat} {r : Res}
    (h : Ext w1 w1') (hr : ResolveOk t v w1 r) : ResolveOk t v w1' r :=
  fun w2 h2 => hr w2 (extTrans h h2)

/-- Element-wise resolver goodness for a sequence. -/
def ResolveOkList (e : Ty) : ValList → List Nat → ResList → Prop
  | .nil, _, _ => True
  | .cons x xs, w1, rs =>
    ResolveOk e x w1 (headRes rs) ∧ ResolveOkList e xs w1 (tailRes rs)

theorem resolveOkList_mono (e : Ty) : ∀ (vs : ValList) {w1 w1' : List Nat}
    (rs : ResList), Ext w1 w1' → ResolveOkList e vs w1 rs →
    ResolveOkList e vs w1' rs
  | .nil, _, _, _, _, _ => trivial
  | .cons x xs, _, _, rs, h, hr =>
    ⟨resolveOk_mono h hr.1, resolveOkList_mono e xs (tailRes rs) h hr.2⟩

/-- Field-wise resolver goodness for a struct. -/
def ResolveOkFields : TyList → ValList → List Nat → ResList → Prop
  | .nil, _, _, _ => True
  | .cons t ts, vs, w1, rs =>
    ResolveOk t (headVal vs) w1 (headRes rs) ∧
    ResolveOkFields ts (tailVal vs) w1 (tailRes rs)

theorem resolveOkFields_mono : ∀ (fs : TyList) (vs : ValList)
    {w1 w1' : List Nat} (rs : ResList), Ext w1 w1' →
    ResolveOkFields fs vs w1 rs → ResolveOkFields fs vs w1' rs
  | .nil, _, _, _, _, _, _ => trivial
  | .cons t ts, vs, _, _, rs, h, hr =>
    ⟨resolveOk_mono h hr.1, resolveOkFields_mono ts (tailVal vs) (tailRes rs) h hr.2⟩

/-- Pair-wise resolver goodness for a hash map. -/
def ResolveOkPairs (tk tv : Ty) : ValPairList → List Nat → ResList → Prop
  | .nil, _, _ => True
  | .cons a b ps, w1, rs =>
    ResolveOk tk a w1 (resFst (headRes rs)) ∧
    ResolveOk tv b w1 (resSnd (headRes rs)) ∧
    ResolveOkPairs tk tv ps w1 (tailRes rs)

theorem resolveOkPairs_mono (tk tv : Ty) : ∀ (ps : ValPairList)
    {w1 w1' : List Nat} (rs : ResList), Ext w1 w1' →
    ResolveOkPairs tk tv ps w1 rs → ResolveOkPairs tk tv ps w1' rs
  | .nil, _, _, _, _, _ => trivial
  | .cons a b ps, _, _, rs, h, hr =>
    ⟨resolveOk_mono h hr.1, resolveOk_mono h hr.2.1,
     resolveOkPairs_mono tk tv ps (tailRes rs) h hr.2.2⟩

/-- `archiveNth` at an in-range tag in explicit form. -/
theorem archiveNth_eq : ∀ (vs : TyList) (tag : Nat) (p : Val) (w : List Nat)
    (t : Ty), nthTy vs tag = some t →
    archiveNth vs tag p w =
      if tySize t == 0 then (w, .renumUnit w.length)
      else ((archiveTy t p w).1,
        .renumVar (archiveTy t p w).1.length (archiveTy t p w).2)
  | .nil, tag, p, w, t, h => by simp [nthTy] at h
  | .cons t0 ts, 0, p, w, t, h => by
    simp only [nthTy, Option.some.injEq] at h
    subst h
    rfl
  | .cons t0 ts, k + 1, p, w, t, h => by
    simp only [nthTy] at h
    simp only [archiveNth]
    exact archiveNth_eq ts k p w t h

/-- `resolveNthPayload` at an in-range tag in explicit form. -/
theorem resolveNthPayload_eq : ∀ (vs : TyList) (tag : Nat) (p : Val) (r : Res)
    (d : Nat) (w : List Nat) (t : Ty), nthTy vs tag = some t →
    resolveNthPayload vs tag p r d w =
      if tySize t == 0 then w
      else (resolveTy t p r
        (w ++ List.replicate (alignOffset d (tyAlign t) - d) 0)).1
  | .nil, tag, p, r, d, w, t, h => by simp [nthTy] at h
  | .cons t0 ts, 0, p, r, d, w, t, h => by
    simp only [nthTy, Option.some.injEq] at h
    subst h
    rfl
  | .cons t0 ts, k + 1, p, r, d, w, t, h => by
    simp only [nthTy] at h
    simp only [resolveNthPayload]
    exact resolveNthPayload_eq ts k p r d w t h

theorem readU8_chunk (pre bs post : List Nat) {k : Nat} (hk : k < bs.length) :
    readU8 (pre ++ bs ++ post) (pre.length + k) = bs.getD k 0 := by
  simp only [readU8]
  rw [List.append_assoc]
  rw [List.getD_append_right pre (bs ++ post) 0 (pre.length + k)
    (by omega)]
  have hx : pre.length + k - pre.length = k := by omega
  rw [hx]
  exact List.getD_append bs post 0 k hk

theorem all_getD {p : Nat → Bool} {bs : List Nat} {k : Nat}
    (h : bs.all p = true) (hk : k < bs.length) : p (bs.getD k 0) = true := by
  rw [List.all_eq_true] at h
  rw [List.getD_eq_getElem bs 0 hk]
  exact h _ (bs.getElem_mem hk)

/-- `tbox._resolve` in explicit append form. -/
theorem boxResolve_eq (e : Ty) (v : Val) (r : Res) (w : List Nat) :
    resolveTy (.tbox e) v r w =
      (wAlign w 4 ++
        intToLE32 ((resPos r : Int) - ((wAlign w 4).length : Int)),
       (wAlign w 4).length) := by
  simp only [resolveTy, wReserveRelPtr32, wRelPtr32At]
  have hch := setBytes_chunk (wAlign w 4) [0, 0, 0, 0] []
    (intToLE32 ((resPos r : Int) - ((wAlign w 4).length : Int))) (by simp)
  simp only [List.append_nil] at hch
  rw [hch]

/-- The element resolve loop of `vec._archive` against the element decode
walk of `vec.decode`: starting the loop at writer state `w2`, the decode
walk started at cursor `w2.length` recovers the elements. -/
theorem resLoop_ok (e : Ty) (w1 : List Nat)
    (hadv : ∀ (x : Val) (q : Res) (z : List Nat), wt e x = true →
      (resolveTy e x q z).1.length = alignOffset z.length (tyAlign e) + tySize e)
    (hap : 0 < tyAlign e) :
    ∀ (vs : ValList) (rs : ResList) (w2 : List Nat),
    allVals (fun x => wt e x) vs = true →
    ResolveOkList e vs w1 rs → Ext w1 w2 →
    Ext w2 (resLoop (fun x q u => resolveTy e x q u) (tyAlign e) vs rs w2) ∧
    ∀ buf : List Nat,
      Ext (resLoop (fun x q u => resolveTy e x q u) (tyAlign e) vs rs w2) buf →
      buf.length ≤ 2 ^ 31 →
      decodeSeq (fun p => decodeTy e buf p) (tyAlign e) (tySize e)
        w2.length (lenV vs) = some vs
  | .nil, rs, w2, _, _, _ =>
    ⟨extSelf, fun buf _ _ => by simp [decodeSeq, lenV]⟩
  | .cons x xs, rs, w2, hall, hok, hext => by
    simp only [allVals, Bool.and_eq_true] at hall
    have hw2' : Ext w1 (wAlign w2 (tyAlign e)) :=
      extTrans hext (wAlign_ext w2 _)
    obtain ⟨hstepExt, hstepDec⟩ := hok.1 (wAlign w2 (tyAlign e)) hw2'
    have hpos : alignOffset (wAlign w2 (tyAlign e)).length (tyAlign e) =
        alignOffset w2.length (tyAlign e) := by
      rw [wAlign_length]
      exact alignOffset_eq_self (dvd_alignOffset hap _)
    have hlen3 : (resolveTy e x (headRes rs) (wAlign w2 (tyAlign e))).1.length =
        alignOffset w2.length (tyAlign e) + tySize e := by
      rw [hadv x (headRes rs) _ hall.1, hpos]
    obtain ⟨hrecExt, hrecDec⟩ := resLoop_ok e w1 hadv hap xs (tailRes rs)
      (resolveTy e x (headRes rs) (wAlign w2 (tyAlign e))).1 hall.2 hok.2
      (extTrans hw2' hstepExt)
    constructor
    · exact extTrans (wAlign_ext w2 _) (extTrans hstepExt
        (by simpa only [resLoop] using hrecExt))
    · intro buf hbuf hblen
      have hbuf' : Ext (resolveTy e x (headRes rs)
          (wAlign w2 (tyAlign e))).1 buf := by
        refine extTrans hrecExt ?_
        simpa only [resLoop] using hbuf
      simp only [lenV, decodeSeq]
      rw [hpos] at hstepDec
      have hrec := hrecDec buf (by simpa only [resLoop] using hbuf) hblen
      rw [hlen3] at hrec
      rw [hstepDec buf hbuf' hblen, hrec]

/-- The element archive loop of `vec._archive`. -/
theorem archList_ok (e : Ty)
    (hP : ∀ (x : Val) (w : List Nat), wt e x = true →
      Ext w (archiveTy e x w).1 ∧
      ResolveOk e x (archiveTy e x w).1 (archiveTy e x w).2) :
    ∀ (vs : ValList) (w : List Nat), allVals (fun x => wt e x) vs = true →
    Ext w (archList (fun x u => archiveTy e x u) vs w).1 ∧
    ResolveOkList e vs (archList (fun x u => archiveTy e x u) vs w).1
      (archList (fun x u => archiveTy e x u) vs w).2
  | .nil, w, _ => ⟨extSelf, trivial⟩
  | .cons x xs, w, hall => by
    simp only [allVals, Bool.and_eq_true] at hall
    obtain ⟨hx1, hx2⟩ := hP x w hall.1
    obtain ⟨hxs1, hxs2⟩ := archList_ok e hP xs (archiveTy e x w).1 hall.2
    constructor
    · show Ext w (archList (fun x u => archiveTy e x u) xs (archiveTy e x w).1).1
      exact extTrans hx1 hxs1
    · show ResolveOk e x
          (archList (fun x u => archiveTy e x u) xs (archiveTy e x w).1).1
          (archiveTy e x w).2 ∧
        ResolveOkList e xs
          (archList (fun x u => archiveTy e x u) xs (archiveTy e x w).1).1
          (archList (fun x u => archiveTy e x u) xs (archiveTy e x w).1).2
      exact ⟨resolveOk_mono hxs1 hx2, hxs2⟩

/-- The element resolve loop of `array._resolve` against
`array.decode`'s stride walk. -/
theorem arrLoopRT (e : Ty) (w1 : List Nat)
    (hadv : ∀ (x : Val) (q : Res) (z : List Nat), wt e x = true →
      (resolveTy e x q z).1.length = alignOffset z.length (tyAlign e) + tySize e)
    (hap : 0 < tyAlign e) (hdvd : tyAlign e ∣ tySize e) :
    ∀ (k : Nat) (vs : ValList) (rs : ResList) (w2 : List Nat) (base i : Nat),
    lenV vs = k → allVals (fun x => wt e x) vs = true →
    ResolveOkList e vs w1 rs → Ext w1 w2 →
    w2.length = base + i * tySize e → tyAlign e ∣ w2.length →
    Ext w2 (arrLoop (fun x q u => resolveTy e x q u) (tyAlign e) vs rs k w2) ∧
    ∀ buf : List Nat,
      Ext (arrLoop (fun x q u => resolveTy e x q u) (tyAlign e) vs rs k w2)
        buf →
      buf.length ≤ 2 ^ 31 →
      decodeStrideSeq (fun p => decodeTy e buf p) base (tyStride e) i k =
        some vs := by
  intro k
  induction k with
  | zero =>
    intro vs rs w2 base i hlen hall hok hext hbase hdv
    cases vs with
    | nil => exact ⟨extSelf, fun buf _ _ => by simp [decodeStrideSeq]⟩
    | cons x xs => simp [lenV] at hlen
  | succ m ih =>
    intro vs rs w2 base i hlen hall hok hext hbase hdv
    cases vs with
    | nil => simp [lenV] at hlen
    | cons x xs =>
      simp only [lenV] at hlen
      simp only [allVals, Bool.and_eq_true] at hall
      have hal : (wAlign w2 (tyAlign e)).length = w2.length := by
        rw [wAlign_length, alignOffset_eq_self hdv]
      have hw2' : Ext w1 (wAlign w2 (tyAlign e)) :=
        extTrans hext (wAlign_ext w2 _)
      obtain ⟨hstepExt, hstepDec⟩ := hok.1 (wAlign w2 (tyAlign e)) hw2'
      have hpos : alignOffset (wAlign w2 (tyAlign e)).length (tyAlign e) =
          w2.length := by
        rw [hal, alignOffset_eq_self hdv]
      have hlen3 : (resolveTy e x (headRes rs)
          (wAlign w2 (tyAlign e))).1.length = w2.length + tySize e := by
        rw [hadv x (headRes rs) _ hall.1, hal, alignOffset_eq_self hdv]
      obtain ⟨hrecExt, hrecDec⟩ := ih xs (tailRes rs)
        (resolveTy e x (headRes rs) (wAlign w2 (tyAlign e))).1 base (i + 1)
        (by omega) hall.2 hok.2 (extTrans hw2' hstepExt)
        (by rw [hlen3, hbase]; ring)
        (by rw [hlen3]; exact Nat.dvd_add hdv hdvd)
      constructor
      · exact extTrans (wAlign_ext w2 _) (extTrans hstepExt
          (by simpa only [arrLoop, headVal, tailVal] using hrecExt))
      · intro buf hbuf hblen
        have hbufA : Ext (arrLoop (fun x q u => resolveTy e x q u) (tyAlign e)
            xs (tailRes rs) m (resolveTy e x (headRes rs)
              (wAlign w2 (tyAlign e))).1) buf := by
          simpa only [arrLoop, headVal, tailVal] using hbuf
        have hbuf' : Ext (resolveTy e x (headRes rs)
            (wAlign w2 (tyAlign e))).1 buf := extTrans hrecExt hbufA
        simp only [decodeStrideSeq]
        rw [hpos] at hstepDec
        have hio : base + i * tyStride e = w2.length := by
          unfold tyStride
          rw [alignOffset_eq_self hdvd]
          omega
        rw [hio, hstepDec buf hbuf' hblen, hrecDec buf hbufA hblen]

/-- The field archive loop of `object._archive`. -/
theorem archiveFields_ok : ∀ (fs : TyList) (vs : ValList) (w : List Nat),
    (∀ (i : Nat) (t : Ty), nthTy fs i = some t → ∀ (x : Val) (w' : List Nat),
      wt t x = true → Ext w' (archiveTy t x w').1 ∧
        ResolveOk t x (archiveTy t x w').1 (archiveTy t x w').2) →
    wtFields fs vs = true →
    Ext w (archiveFields fs vs w).1 ∧
    ResolveOkFields fs vs (archiveFields fs vs w).1 (archiveFields fs vs w).2
  | .nil, vs, w, _, _ => ⟨extSelf, trivial⟩
  | .cons t ts, .nil, w, _, hwt => by simp [wtFields] at hwt
  | .cons t ts, .cons x xs, w, hP, hwt => by
    simp only [wtFields, Bool.and_eq_true] at hwt
    obtain ⟨hx1, hx2⟩ := hP 0 t rfl x w hwt.1
    obtain ⟨hxs1, hxs2⟩ := archiveFields_ok ts xs (archiveTy t x w).1
      (fun i t' h => hP (i + 1) t' h) hwt.2
    constructor
    · show Ext w (archiveFields ts xs (archiveTy t x w).1).1
      exact extTrans hx1 hxs1
    · show ResolveOk t x (archiveFields ts xs (archiveTy t x w).1).1
          (archiveTy t x w).2 ∧
        ResolveOkFields ts xs (archiveFields ts xs (archiveTy t x w).1).1
          (archiveFields ts xs (archiveTy t x w).1).2
      exact ⟨resolveOk_mono hxs1 hx2, hxs2⟩

/-- The field resolve loop of `object._resolve` against
`object.decode`'s field walk. -/
theorem resolveFieldsRT : ∀ (fs : TyList) (vs : ValList) (rs : ResList)
    (pos cur : Nat) (u w1 : List Nat),
    (∀ (i : Nat) (t : Ty), nthTy fs i = some t →
      ∀ (x : Val) (q : Res) (z : List Nat), wt t x = true →
        (resolveTy t x q z).1.length =
          alignOffset z.length (tyAlign t) + tySize t) →
    wfFields fs → wtFields fs vs → ResolveOkFields fs vs w1 rs → Ext w1 u →
    maxAlignFields fs ∣ pos → u.length = pos + cur →
    Ext u (resolveFields fs vs rs pos cur u) ∧
    ∀ buf : List Nat, Ext (resolveFields fs vs rs pos cur u) buf →
      buf.length ≤ 2 ^ 31 →
      decodeFields fs buf pos cur = some vs
  | .nil, .nil, rs, pos, cur, u, w1, _, _, _, _, _, _, _ =>
    ⟨extSelf, fun buf _ _ => by simp [decodeFields]⟩
  | .nil, .cons x xs, rs, pos, cur, u, w1, _, _, hwt, _, _, _, _ => by
    simp [wtFields] at hwt
  | .cons t ts, .nil, rs, pos, cur, u, w1, _, _, hwt, _, _, _, _ => by
    simp [wtFields] at hwt
  | .cons t ts, .cons x xs, rs, pos, cur, u, w1, hadv, hwf, hwt, hok, hext,
      hpos, hu => by
    simp only [wfFields, Bool.and_eq_true] at hwf
    simp only [wtFields, Bool.and_eq_true] at hwt
    have hat : 0 < tyAlign t := tyAlign_pos t hwf.1
    have hgecur := alignOffset_ge cur (tyAlign t)
    have hw1' : Ext w1 (wPadTo u (pos + alignOffset cur (tyAlign t))) :=
      extTrans hext (wPadTo_ext u _)
    obtain ⟨hstepExt, hstepDec⟩ :=
      hok.1 (wPadTo u (pos + alignOffset cur (tyAlign t))) hw1'
    have hlenPad : (wPadTo u (pos + alignOffset cur (tyAlign t))).length =
        pos + alignOffset cur (tyAlign t) := by
      rw [wPadTo_length, hu]
      omega
    have hdt : tyAlign t ∣ pos :=
      dvd_trans
        (pow2_dvd (tyAlign_pow2 t hwf.1)
          (maxAlignFields_pow2 (.cons t ts) (by simp [wfFields, hwf.1, hwf.2]))
          (by simp only [maxAlignFields]; exact le_max_left _ _))
        hpos
    have hposEq : alignOffset
        (wPadTo u (pos + alignOffset cur (tyAlign t))).length (tyAlign t) =
        pos + alignOffset cur (tyAlign t) := by
      rw [hlenPad]
      exact alignOffset_eq_self (Nat.dvd_add hdt (dvd_alignOffset hat _))
    have hstep3 : (resolveTy t x (headRes rs)
        (wPadTo u (pos + alignOffset cur (tyAlign t)))).1.length =
        pos + alignOffset cur (tyAlign t) + tySize t := by
      rw [hadv 0 t rfl x (headRes rs) _ hwt.1, hposEq]
    obtain ⟨hrecExt, hrecDec⟩ := resolveFieldsRT ts xs (tailRes rs) pos
      (alignOffset cur (tyAlign t) + tySize t)
      (resolveTy t x (headRes rs)
        (wPadTo u (pos + alignOffset cur (tyAlign t)))).1 w1
      (fun i t' h => hadv (i + 1) t' h) hwf.2 hwt.2 hok.2
      (extTrans hw1' hstepExt)
      (dvd_trans
        (pow2_dvd (maxAlignFields_pow2 ts hwf.2)
          (maxAlignFields_pow2 (.cons t ts) (by simp [wfFields, hwf.1, hwf.2]))
          (by simp only [maxAlignFields]; exact le_max_right _ _))
        hpos)
      (by rw [hstep3]; ring)
    constructor
    · show Ext u (resolveFields ts xs (tailRes rs) pos
        (alignOffset cur (tyAlign t) + tySize t)
        (resolveTy t x (headRes rs)
          (wPadTo u (pos + alignOffset cur (tyAlign t)))).1)
      exact extTrans (wPadTo_ext u _) (extTrans hstepExt hrecExt)
    · intro buf hbuf hblen
      have hbufR : Ext (resolveFields ts xs (tailRes rs) pos
          (alignOffset cur (tyAlign t) + tySize t)
          (resolveTy t x (headRes rs)
            (wPadTo u (pos + alignOffset cur (tyAlign t)))).1) buf := by
        simpa only [resolveFields, headVal, tailVal] using hbuf
      have hbuf' : Ext (resolveTy t x (headRes rs)
          (wPadTo u (pos + alignOffset cur (tyAlign t)))).1 buf :=
        extTrans hrecExt hbufR
      simp only [decodeFields]
      rw [hposEq] at hstepDec
      rw [hstepDec buf hbuf' hblen, hrecDec buf hbufR hblen]
      rfl

/-- The entry archive loop of `hashMap._archive`. -/
theorem archPairs_ok (tk tv : Ty)
    (hPk : ∀ (x : Val) (w : List Nat), wt tk x = true →
      Ext w (archiveTy tk x w).1 ∧
      ResolveOk tk x (archiveTy tk x w).1 (archiveTy tk x w).2)
    (hPv : ∀ (x : Val) (w : List Nat), wt tv x = true →
      Ext w (archiveTy tv x w).1 ∧
      ResolveOk tv x (archiveTy tv x w).1 (archiveTy tv x w).2) :
    ∀ (ps : ValPairList) (w : List Nat),
    allPairs (fun x => wt tk x) (fun x => wt tv x) ps = true →
    Ext w (archPairs (fun x u => archiveTy tk x u)
      (fun x u => archiveTy tv x u) ps w).1 ∧
    ResolveOkPairs tk tv ps
      (archPairs (fun x u => archiveTy tk x u)
        (fun x u => archiveTy tv x u) ps w).1
      (archPairs (fun x u => archiveTy tk x u)
        (fun x u => archiveTy tv x u) ps w).2
  | .nil, w, _ => ⟨extSelf, trivial⟩
  | .cons a b ps, w, hall => by
    simp only [allPairs, Bool.and_eq_true] at hall
    obtain ⟨ha1, ha2⟩ := hPk a w hall.1.1
    obtain ⟨hb1, hb2⟩ := hPv b (archiveTy tk a w).1 hall.1.2
    obtain ⟨hps1, hps2⟩ := archPairs_ok tk tv hPk hPv ps
      (archiveTy tv b (archiveTy tk a w).1).1 hall.2
    constructor
    · show Ext w (archPairs (fun x u => archiveTy tk x u)
        (fun x u => archiveTy tv x u) ps
        (archiveTy tv b (archiveTy tk a w).1).1).1
      exact extTrans ha1 (extTrans hb1 hps1)
    · show ResolveOk tk a
          (archPairs (fun x u => archiveTy tk x u)
            (fun x u => archiveTy tv x u) ps
            (archiveTy tv b (archiveTy tk a w).1).1).1
          (archiveTy tk a w).2 ∧
        ResolveOk tv b
          (archPairs (fun x u => archiveTy tk x u)
            (fun x u => archiveTy tv x u) ps
            (archiveTy tv b (archiveTy tk a w).1).1).1
          (archiveTy tv b (archiveTy tk a w).1).2 ∧
        ResolveOkPairs tk tv ps
          (archPairs (fun x u => archiveTy tk x u)
            (fun x u => archiveTy tv x u) ps
            (archiveTy tv b (archiveTy tk a w).1).1).1
          (archPairs (fun x u => archiveTy tk x u)
            (fun x u => archiveTy tv x u) ps
            (archiveTy tv b (archiveTy tk a w).1).1).2
      exact ⟨resolveOk_mono (extTrans hb1 hps1) ha2,
        resolveOk_mono hps1 hb2, hps2⟩

/-- The entry resolve loop of `hashMap._archive` against
`hashMap.decode`'s entry walk. -/
theorem resPairsRT (tk tv : Ty) (w1 : List Nat)
    (hadvK : ∀ (x : Val) (q : Res) (z : List Nat), wt tk x = true →
      (resolveTy tk x q z).1.length =
        alignOffset z.length (tyAlign tk) + tySize tk)
    (hadvV : ∀ (x : Val) (q : Res) (z : List Nat), wt tv x = true →
      (resolveTy tv x q z).1.length =
        alignOffset z.length (tyAlign tv) + tySize tv)
    (hakp : 0 < tyAlign tk) (havp : 0 < tyAlign tv)
    (hkpow : Pow2 (tyAlign tk)) (hvpow : Pow2 (tyAlign tv)) :
    ∀ (ps : ValPairList) (rs : ResList) (w2 : List Nat),
    allPairs (fun x => wt tk x) (fun x => wt tv x) ps = true →
    ResolveOkPairs tk tv ps w1 rs → Ext w1 w2 →
    Ext w2 (resPairs (fun x r u => resolveTy tk x r u)
      (fun x r u => resolveTy tv x r u) (entryAlign tk tv) (tySize tk)
      (entryValueOff tk tv) (entrySize tk tv) (tySize tv) ps rs w2) ∧
    ∀ buf : List Nat,
      Ext (resPairs (fun x r u => resolveTy tk x r u)
        (fun x r u => resolveTy tv x r u) (entryAlign tk tv) (tySize tk)
        (entryValueOff tk tv) (entrySize tk tv) (tySize tv) ps rs w2) buf →
      buf.length ≤ 2 ^ 31 →
      decodePairsSeq (fun p => decodeTy tk buf p) (fun p => decodeTy tv buf p)
        (entryAlign tk tv) (entryValueOff tk tv) (entrySize tk tv)
        w2.length (lenP ps) = some ps
  | .nil, rs, w2, _, _, _ =>
    ⟨extSelf, fun buf _ _ => by simp [decodePairsSeq, lenP]⟩
  | .cons a b ps, rs, w2, hall, hok, hext => by
    simp only [allPairs, Bool.and_eq_true] at hall
    have hea : 0 < entryAlign tk tv := lt_of_lt_of_le hakp (le_max_left _ _)
    have hko : tyAlign tk ∣ alignOffset w2.length (entryAlign tk tv) :=
      dvd_trans (pow2_dvd hkpow (pow2_max hkpow hvpow) (le_max_left _ _))
        (dvd_alignOffset hea _)
    have hvo : tyAlign tv ∣ alignOffset w2.length (entryAlign tk tv) :=
      dvd_trans (pow2_dvd hvpow (pow2_max hkpow hvpow) (le_max_right _ _))
        (dvd_alignOffset hea _)
    have hw2a : Ext w1 (wAlign w2 (entryAlign tk tv)) :=
      extTrans hext (wAlign_ext w2 _)
    obtain ⟨hkExt, hkDec⟩ := hok.1 (wAlign w2 (entryAlign tk tv)) hw2a
    have hkpos : alignOffset (wAlign w2 (entryAlign tk tv)).length
        (tyAlign tk) = alignOffset w2.length (entryAlign tk tv) := by
      rw [wAlign_length]
      exact alignOffset_eq_self hko
    have hklen : (resolveTy tk a (resFst (headRes rs))
        (wAlign w2 (entryAlign tk tv))).1.length =
        alignOffset w2.length (entryAlign tk tv) + tySize tk := by
      rw [hadvK a _ _ hall.1.1, hkpos]
    have hvger := alignOffset_ge (tySize tk) (tyAlign tv)
    have hpadlen : (wPadTo (resolveTy tk a (resFst (headRes rs))
        (wAlign w2 (entryAlign tk tv))).1
        ((resolveTy tk a (resFst (headRes rs))
          (wAlign w2 (entryAlign tk tv))).1.length +
          (entryValueOff tk tv - tySize tk))).length =
        alignOffset w2.length (entryAlign tk tv) + entryValueOff tk tv := by
      rw [wPadTo_length, hklen]
      unfold entryValueOff
      omega
    have hw3 : Ext w1 (wPadTo (resolveTy tk a (resFst (headRes rs))
        (wAlign w2 (entryAlign tk tv))).1
        ((resolveTy tk a (resFst (headRes rs))
          (wAlign w2 (entryAlign tk tv))).1.length +
          (entryValueOff tk tv - tySize tk))) :=
      extTrans hw2a (extTrans hkExt (wPadTo_ext _ _))
    obtain ⟨hvExt, hvDec⟩ := hok.2.1 _ hw3
    have hvpos : alignOffset (wPadTo (resolveTy tk a (resFst (headRes rs))
        (wAlign w2 (entryAlign tk tv))).1
        ((resolveTy tk a (resFst (headRes rs))
          (wAlign w2 (entryAlign tk tv))).1.length +
          (entryValueOff tk tv - tySize tk))).length (tyAlign tv) =
        alignOffset w2.length (entryAlign tk tv) + entryValueOff tk tv := by
      rw [hpadlen]
      exact alignOffset_eq_self
        (Nat.dvd_add hvo (dvd_alignOffset havp _))
    have hvlen : (resolveTy tv b (resSnd (headRes rs))
        (wPadTo (resolveTy tk a (resFst (headRes rs))
          (wAlign w2 (entryAlign tk tv))).1
          ((resolveTy tk a (resFst (headRes rs))
            (wAlign w2 (entryAlign tk tv))).1.length +
            (entryValueOff tk tv - tySize tk)))).1.length =
        alignOffset w2.length (entryAlign tk tv) + entryValueOff tk tv +
          tySize tv := by
      rw [hadvV b _ _ hall.1.2, hvpos]
    have hentry := alignOffset_ge (entryValueOff tk tv + tySize tv)
      (entryAlign tk tv)
    have hfinlen : (wPadTo (resolveTy tv b (resSnd (headRes rs))
        (wPadTo (resolveTy tk a (resFst (headRes rs))
          (wAlign w2 (entryAlign tk tv))).1
          ((resolveTy tk a (resFst (headRes rs))
            (wAlign w2 (entryAlign tk tv))).1.length +
            (entryValueOff tk tv - tySize tk)))).1
        ((resolveTy tv b (resSnd (headRes rs))
          (wPadTo (resolveTy tk a (resFst (headRes rs))
            (wAlign w2 (entryAlign tk tv))).1
            ((resolveTy tk a (resFst (headRes rs))
              (wAlign w2 (entryAlign tk tv))).1.length +
              (entryValueOff tk tv - tySize tk)))).1.length +
          (entrySize tk tv - entryValueOff tk tv - tySize tv))).length =
        alignOffset w2.length (entryAlign tk tv) + entrySize tk tv := by
      rw [wPadTo_length, hvlen]
      unfold entrySize
      omega
    obtain ⟨hrecExt, hrecDec⟩ := resPairsRT tk tv w1 hadvK hadvV hakp havp
      hkpow hvpow ps (tailRes rs) _ hall.2 hok.2.2
      (extTrans hw3 (extTrans hvExt (wPadTo_ext _ _)))
    constructor
    · show Ext w2 (resPairs (fun x r u => resolveTy tk x r u)
        (fun x r u => resolveTy tv x r u) (entryAlign tk tv) (tySize tk)
        (entryValueOff tk tv) (entrySize tk tv) (tySize tv) ps (tailRes rs) _)
      exact extTrans (wAlign_ext w2 _) (extTrans hkExt (extTrans
        (wPadTo_ext _ _) (extTrans hvExt (extTrans (wPadTo_ext _ _) hrecExt))))
    · intro buf hbuf hblen
      have hbufR : Ext (resPairs (fun x r u => resolveTy tk x r u)
          (fun x r u => resolveTy tv x r u) (entryAlign tk tv) (tySize tk)
          (entryValueOff tk tv) (entrySize tk tv) (tySize tv) ps
          (tailRes rs) (wPadTo (resolveTy tv b (resSnd (headRes rs))
            (wPadTo (resolveTy tk a (resFst (headRes rs))
              (wAlign w2 (entryAlign tk tv))).1
              ((resolveTy tk a (resFst (headRes rs))
                (wAlign w2 (entryAlign tk tv))).1.length +
                (entryValueOff tk tv - tySize tk)))).1
            ((resolveTy tv b (resSnd (headRes rs))
              (wPadTo (resolveTy tk a (resFst (headRes rs))
                (wAlign w2 (entryAlign tk tv))).1
                ((resolveTy tk a (resFst (headRes rs))
                  (wAlign w2 (entryAlign tk tv))).1.length +
                  (entryValueOff tk tv - tySize tk)))).1.length +
              (entrySize tk tv - entryValueOff tk tv - tySize tv)))) buf := by
        simpa only [resPairs] using hbuf
      have hbufV : Ext (resolveTy tv b (resSnd (headRes rs))
          (wPadTo (resolveTy tk a (resFst (headRes rs))
            (wAlign w2 (entryAlign tk tv))).1
            ((resolveTy tk a (resFst (headRes rs))
              (wAlign w2 (entryAlign tk tv))).1.length +
              (entryValueOff tk tv - tySize tk)))).1 buf :=
        extTrans (wPadTo_ext _ _) (extTrans hrecExt hbufR)
      have hbufK : Ext (resolveTy tk a (resFst (headRes rs))
          (wAlign w2 (entryAlign tk tv))).1 buf :=
        extTrans (wPadTo_ext _ _) (extTrans hvExt hbufV)
      simp only [decodePairsSeq, lenP]
      rw [hkpos] at hkDec
      rw [hvpos] at hvDec
      have hrec := hrecDec buf hbufR hblen
      rw [hfinlen] at hrec
      rw [hkDec buf hbufK hblen, hvDec buf hbufV hblen, hrec]

/-! Per-shape `ResolveOk` facts for the leaf codecs. -/

theorem resolveOk_tuint {width n : Nat} (hn : n < 2 ^ (8 * width))
    (w1 : List Nat) (r : Res) : ResolveOk (.tuint width) (.vnat n) w1 r := by
  intro w2 _
  simp only [resolveTy, tyAlign]
  constructor
  · exact extTrans (wAlign_ext w2 width) (extAppend _ _)
  · intro buf hbuf _
    obtain ⟨tl, rfl⟩ := hbuf
    simp only [decodeTy, Option.some.injEq, Val.vnat.injEq]
    rw [← wAlign_length w2 width, readUIntLE_write]
    exact Nat.mod_eq_of_lt hn

theorem resolveOk_tint {width : Nat} {i : Int} (hw : 0 < width)
    (hlo : -(2 ^ (8 * width - 1)) ≤ i) (hhi : i < 2 ^ (8 * width - 1))
    (w1 : List Nat) (r : Res) : ResolveOk (.tint width) (.vint i) w1 r := by
  intro w2 _
  simp only [resolveTy, tyAlign]
  constructor
  · exact extTrans (wAlign_ext w2 width) (extAppend _ _)
  · intro buf hbuf _
    obtain ⟨tl, rfl⟩ := hbuf
    simp only [decodeTy, Option.some.injEq, Val.vint.injEq]
    rw [← wAlign_length w2 width]
    exact readIntLE_write _ _ _ hw i hlo hhi

theorem resolveOk_tbool {b : Bool} (w1 : List Nat) (r : Res) :
    ResolveOk .tbool (.vbool b) w1 r := by
  intro w2 _
  simp only [resolveTy, tyAlign, alignOffset_one]
  constructor
  · exact extAppend _ _
  · intro buf hbuf _
    obtain ⟨tl, rfl⟩ := hbuf
    simp only [decodeTy, Option.some.injEq, Val.vbool.injEq]
    have hcons : w2 ++ [if b then 1 else 0] ++ tl =
        w2 ++ (if b then 1 else 0) :: tl := by simp
    rw [hcons, readU8_append_cons]
    cases b <;> simp

theorem resolveOk_tunit (w1 : List Nat) (r : Res) :
    ResolveOk .tunit .vunit w1 r := by
  intro w2 _
  simp only [resolveTy, tyAlign, alignOffset_one]
  exact ⟨extSelf, fun buf _ _ => by simp [decodeTy]⟩

theorem resolveOk_tchar {n : Nat} (hn : n < 0x110000) (w1 : List Nat)
    (r : Res) : ResolveOk .tchar (.vnat n) w1 r := by
  intro w2 _
  simp only [resolveTy, tyAlign]
  constructor
  · exact extTrans (wAlign_ext w2 4) (extAppend _ _)
  · intro buf hbuf _
    obtain ⟨tl, rfl⟩ := hbuf
    simp only [decodeTy, readU32, Option.some.injEq, Val.vnat.injEq]
    rw [← wAlign_length w2 4, readUIntLE_write]
    exact Nat.mod_eq_of_lt (by norm_num; omega)

theorem encodedLen_recover {len : Nat} (h : len < 2 ^ 30) :
    (encodedLen len &&& 0x3f) ||| ((encodedLen len >>> 8) <<< 6) = len := by
  rw [encodedLen_eq]
  have h1 : ((len % 64 + 128) + 256 * (len / 64)) &&& 63 = len % 64 := by
    rw [and63_eq_mod]
    omega
  have h2 : ((len % 64 + 128) + 256 * (len / 64)) >>> 8 = len / 64 := by
    rw [Nat.shiftRight_eq_div_pow]
    norm_num
    omega
  rw [h1, h2, Nat.shiftLeft_eq]
  have h3 : len / 64 * 2 ^ 6 = 2 ^ 6 * (len / 64) := by ring
  rw [h3, lor_high_low (len % 64) (len / 64) 6 (by omega)]
  have := Nat.div_add_mod len 64
  norm_num
  omega

theorem encodedLen_lt {len : Nat} (h : len < 2 ^ 30) :
    encodedLen len < 2 ^ 32 := by
  rw [encodedLen_eq]
  have hdiv : len / 64 < 2 ^ 24 := by omega
  norm_num at hdiv ⊢
  omega

/-- Inline strings resolve to their bytes plus 0xFF padding and decode
back. -/
theorem resolveOk_tstr_inline {bs : List Nat} (h256 : bs.all (· < 256) = true)
    (hff : bs.all (· != 0xff) = true)
    (hmark : ∀ b bs', bs = b :: bs' → (b &&& 0xC0) ≠ 0x80)
    (hle : bs.length ≤ 8) (w1 : List Nat) (r : Res) :
    ResolveOk .tstr (.vstr bs) w1 r := by
  intro w2 _
  simp only [resolveTy, tyAlign, if_pos hle, map_mod_id h256]
  rw [← wAlign_length w2 4]
  constructor
  · rw [List.append_assoc]
    exact extTrans (wAlign_ext w2 4) (extAppend _ _)
  · intro buf hbuf _
    obtain ⟨tl, rfl⟩ := hbuf
    simp only [decodeTy, Option.some.injEq, Val.vstr.injEq]
    rw [List.append_assoc (wAlign w2 4) bs
      (List.replicate (8 - bs.length) 0xff)]
    have hread : ∀ k, k < 8 →
        readU8 (wAlign w2 4 ++
          (bs ++ List.replicate (8 - bs.length) 0xff) ++ tl)
          ((wAlign w2 4).length + k) =
        (bs ++ List.replicate (8 - bs.length) 0xff).getD k 0 := by
      intro k hk
      exact readU8_chunk _ _ _ (by simp; omega)
    have hgetIn : ∀ k, k < bs.length →
        (bs ++ List.replicate (8 - bs.length) 0xff).getD k 0 = bs.getD k 0 :=
      fun k hk => List.getD_append _ _ _ _ hk
    have hgetPad : ∀ k, bs.length ≤ k → k < 8 →
        (bs ++ List.replicate (8 - bs.length) 0xff).getD k 0 = 0xff := by
      intro k h1 h2
      rw [List.getD_append_right _ _ _ _ h1]
      rw [List.getD_eq_getElem _ _ (by simp; omega)]
      simp
    have hscan : strScanAux (wAlign w2 4 ++
        (bs ++ List.replicate (8 - bs.length) 0xff) ++ tl)
        (wAlign w2 4).length 0 8 = bs.length := by
      refine strScanAux_spec 8 0 _ _ bs.length (by omega) (by omega) ?_ ?_
      · intro k _ hklen
        rw [hread k (by omega), hgetIn k hklen]
        simpa using all_getD hff hklen
      · intro h8
        rw [hread bs.length (by omega),
          hgetPad bs.length (le_refl _) (by omega)]
    have hfb := hread 0 (by norm_num)
    rw [Nat.add_zero] at hfb
    have hbytes : readBytes (wAlign w2 4 ++
        (bs ++ List.replicate (8 - bs.length) 0xff) ++ tl)
        (wAlign w2 4).length bs.length = bs := by
      unfold readBytes
      rw [List.append_assoc (wAlign w2 4)
        (bs ++ List.replicate (8 - bs.length) 0xff) tl, List.drop_left,
        List.append_assoc bs (List.replicate (8 - bs.length) 0xff) tl,
        List.take_left]
    unfold decodeStr
    dsimp only
    cases bs with
    | nil =>
      rw [hfb, hgetPad 0 (by simp) (by norm_num)]
      rw [if_pos (by decide)]
      rw [hscan]
      exact hbytes
    | cons b bs' =>
      rw [hfb, hgetIn 0 (by simp)]
      have hb0 : (b :: bs').getD 0 0 = b := rfl
      rw [hb0]
      rw [if_pos (by simpa using hmark b bs' rfl)]
      rw [hscan]
      exact hbytes

/-- Out-of-line strings resolve to marker + pointer and decode back to the
archived bytes. -/
theorem resolveOk_tstr_outline {bs : List Nat}
    (h256 : bs.all (· < 256) = true) (hgt : ¬ bs.length ≤ 8)
    (hlen : bs.length < 2 ^ 30) (wpre w1 : List Nat)
    (hext0 : Ext (wpre ++ bs) w1) :
    ResolveOk .tstr (.vstr bs) w1 (.rstr wpre.length bs.length) := by
  intro w2 hext
  simp only [resolveTy, tyAlign, if_neg hgt, resPos]
  rw [← wAlign_length w2 4]
  have hwpre : wpre.length + bs.length ≤ (wAlign w2 4).length := by
    have h1 : (wpre ++ bs).length ≤ w1.length := extLengthLe hext0
    have h2 : w1.length ≤ (wAlign w2 4).length :=
      extLengthLe (extTrans hext (wAlign_ext w2 4))
    simp only [List.length_append] at h1
    omega
  constructor
  · rw [List.append_assoc]
    exact extTrans (wAlign_ext w2 4) (extAppend _ _)
  · intro buf hbuf hblen
    obtain ⟨tl, rfl⟩ := hbuf
    have hblen' : (wAlign w2 4).length + 4 + 4 + tl.length ≤ 2 ^ 31 := by
      have := hblen
      simp only [List.length_append, natToLE_length, intToLE32_length]
        at this
      omega
    simp only [decodeTy, Option.some.injEq, Val.vstr.injEq]
    unfold decodeStr
    dsimp only
    have hfb : readU8 (wAlign w2 4 ++ natToLE 4 (encodedLen bs.length) ++
        intToLE32 ((wpre.length : Int) - ((wAlign w2 4).length : Int)) ++ tl)
        (wAlign w2 4).length = bs.length % 64 + 128 := by
      have hm : natToLE 4 (encodedLen bs.length) =
          encodedLen bs.length % 256 ::
            natToLE 3 (encodedLen bs.length / 256) := rfl
      have hre : wAlign w2 4 ++ natToLE 4 (encodedLen bs.length) ++
          intToLE32 ((wpre.length : Int) - ((wAlign w2 4).length : Int)) ++
          tl = wAlign w2 4 ++ (encodedLen bs.length % 256 ::
            (natToLE 3 (encodedLen bs.length / 256) ++
              (intToLE32 ((wpre.length : Int) -
                ((wAlign w2 4).length : Int)) ++ tl))) := by
        rw [hm]
        simp
      rw [hre, readU8_append_cons, encodedLen_mod256]
    rw [hfb]
    have hmark : (bs.length % 64 + 128) &&& 0xC0 = 0x80 :=
      and192_of_range _ (by omega) (by omega)
    rw [if_neg (by simp [hmark])]
    have hm32 : readU32 (wAlign w2 4 ++ natToLE 4 (encodedLen bs.length) ++
        intToLE32 ((wpre.length : Int) - ((wAlign w2 4).length : Int)) ++ tl)
        (wAlign w2 4).length = encodedLen bs.length := by
      have hre : wAlign w2 4 ++ natToLE 4 (encodedLen bs.length) ++
          intToLE32 ((wpre.length : Int) - ((wAlign w2 4).length : Int)) ++
          tl = wAlign w2 4 ++ natToLE 4 (encodedLen bs.length) ++
          (intToLE32 ((wpre.length : Int) - ((wAlign w2 4).length : Int)) ++
            tl) := by simp
      rw [hre]
      unfold readU32
      rw [readUIntLE_write]
      refine Nat.mod_eq_of_lt ?_
      have := encodedLen_lt hlen
      norm_num at this ⊢
      omega
    rw [hm32, encodedLen_recover hlen]
    have hptr : readI32 (wAlign w2 4 ++ natToLE 4 (encodedLen bs.length) ++
        intToLE32 ((wpre.length : Int) - ((wAlign w2 4).length : Int)) ++ tl)
        ((wAlign w2 4).length + 4) =
        (wpre.length : Int) - ((wAlign w2 4).length : Int) := by
      have hre : wAlign w2 4 ++ natToLE 4 (encodedLen bs.length) ++
          intToLE32 ((wpre.length : Int) - ((wAlign w2 4).length : Int)) ++
          tl = (wAlign w2 4 ++ natToLE 4 (encodedLen bs.length)) ++
          intToLE32 ((wpre.length : Int) - ((wAlign w2 4).length : Int)) ++
          tl := by simp
      have hre2 : (wAlign w2 4).length + 4 =
          (wAlign w2 4 ++ natToLE 4 (encodedLen bs.length)).length := by simp
      rw [hre, hre2]
      refine readI32_intToLE32 _ _ _ ?_ ?_
      · have h1 : ((wAlign w2 4).length : Int) ≤ 2 ^ 31 := by
          exact_mod_cast (by omega : (wAlign w2 4).length ≤ 2 ^ 31)
        have h0 : (0 : Int) ≤ (wpre.length : Int) := by positivity
        omega
      · have h1 : (wpre.length : Int) ≤ ((wAlign w2 4).length : Int) := by
          exact_mod_cast (by omega : wpre.length ≤ (wAlign w2 4).length)
        have h2 : ((wAlign w2 4).length : Int) < 2 ^ 31 := by
          exact_mod_cast (by omega : (wAlign w2 4).length < 2 ^ 31)
        omega
    rw [hptr]
    have htgt : (((wAlign w2 4).length : Int) +
        ((wpre.length : Int) - ((wAlign w2 4).length : Int))).toNat =
        wpre.length := by omega
    rw [htgt]
    have hbb : wAlign w2 4 ++ natToLE 4 (encodedLen bs.length) ++
        intToLE32 ((wpre.length : Int) - ((wAlign w2 4).length : Int)) ++ tl =
        wpre ++ bs ++ (((wAlign w2 4).drop (wpre.length + bs.length)) ++
          (natToLE 4 (encodedLen bs.length) ++
            (intToLE32 ((wpre.length : Int) -
              ((wAlign w2 4).length : Int)) ++ tl))) := by
      have hw2' : Ext (wpre ++ bs) (wAlign w2 4) :=
        extTrans hext0 (extTrans hext (wAlign_ext w2 4))
      obtain ⟨t2, ht2⟩ := hw2'
      conv_lhs => rw [ht2]
      rw [ht2]
      have hdrop : (wpre ++ bs ++ t2).drop (wpre.length + bs.length) =
          t2 := by
        have hlen2 : wpre.length + bs.length = (wpre ++ bs).length := by simp
        rw [hlen2, List.drop_left]
      rw [hdrop]
      simp
    rw [hbb]
    exact readBytes_append wpre bs _

/-- The reads of `vec.decode` / `hashMap.decode` from a resolved 8-byte
header. -/
theorem seqHeader_reads (r : Res) (w2 buf : List Nat)
    (hbuf : Ext (resolveSeqHeader r w2).1 buf) (hblen : buf.length ≤ 2 ^ 31)
    (htgt : (if resLen r > 0 then resPos r else 0) ≤ (wAlign w2 4).length) :
    readRelPtr32 buf (resolveSeqHeader r w2).2 =
      (if resLen r > 0 then resPos r else 0) ∧
    readU32 buf ((resolveSeqHeader r w2).2 + 4) = resLen r % 2 ^ 32 := by
  rw [resolveSeqHeader_eq] at hbuf ⊢
  obtain ⟨tl, rfl⟩ := hbuf
  have hblen' : (wAlign w2 4 ++
      intToLE32 ((((if resLen r > 0 then resPos r else 0) : Nat) : Int) -
        ((wAlign w2 4).length : Int)) ++ natToLE 4 (resLen r) ++ tl).length ≤
      2 ^ 31 := hblen
  simp only [List.length_append, intToLE32_length, natToLE_length] at hblen'
  have hwa : (wAlign w2 4).length + 8 ≤ 2 ^ 31 := by omega
  have hptr : readI32 (wAlign w2 4 ++
      intToLE32 ((((if resLen r > 0 then resPos r else 0) : Nat) : Int) -
        ((wAlign w2 4).length : Int)) ++ natToLE 4 (resLen r) ++ tl)
      (wAlign w2 4).length =
      (((if resLen r > 0 then resPos r else 0) : Nat) : Int) -
        ((wAlign w2 4).length : Int) := by
    have hre : wAlign w2 4 ++
        intToLE32 ((((if resLen r > 0 then resPos r else 0) : Nat) : Int) -
          ((wAlign w2 4).length : Int)) ++ natToLE 4 (resLen r) ++ tl =
        wAlign w2 4 ++
        intToLE32 ((((if resLen r > 0 then resPos r else 0) : Nat) : Int) -
          ((wAlign w2 4).length : Int)) ++ (natToLE 4 (resLen r) ++ tl) := by
      simp
    rw [hre]
    refine readI32_intToLE32 _ _ _ ?_ ?_
    · have h1 : ((wAlign w2 4).length : Int) ≤ 2 ^ 31 := by
        exact_mod_cast (by omega : (wAlign w2 4).length ≤ 2 ^ 31)
      have h0 : (0 : Int) ≤
          (((if resLen r > 0 then resPos r else 0) : Nat) : Int) := by
        positivity
      omega
    · have h1 : (((if resLen r > 0 then resPos r else 0) : Nat) : Int) ≤
          ((wAlign w2 4).length : Int) := by exact_mod_cast htgt
      have h2 : ((wAlign w2 4).length : Int) < 2 ^ 31 := by
        exact_mod_cast (by omega : (wAlign w2 4).length < 2 ^ 31)
      omega
  constructor
  · unfold readRelPtr32
    rw [hptr]
    omega
  · have hre2 : wAlign w2 4 ++
        intToLE32 ((((if resLen r > 0 then resPos r else 0) : Nat) : Int) -
          ((wAlign w2 4).length : Int)) ++ natToLE 4 (resLen r) ++ tl =
        (wAlign w2 4 ++
          intToLE32 ((((if resLen r > 0 then resPos r else 0) : Nat) : Int) -
            ((wAlign w2 4).length : Int))) ++ natToLE 4 (resLen r) ++ tl := by
      simp
    have hre3 : (wAlign w2 4).length + 4 =
        (wAlign w2 4 ++
          intToLE32 ((((if resLen r > 0 then resPos r else 0) : Nat) : Int) -
            ((wAlign w2 4).length : Int))).length := by simp
    rw [hre2, hre3]
    unfold readU32
    rw [readUIntLE_write]

/-- Roundtrip for `vec`, given the element roundtrip. -/
theorem rt_tvec (e : Ty) (hwf : wfTy e = true) (hok : arrOk e = true)
    (hP : ∀ (x : Val) (w : List Nat), wt e x = true →
      Ext w (archiveTy e x w).1 ∧
      ResolveOk e x (archiveTy e x w).1 (archiveTy e x w).2)
    (vs : ValList) (w : List Nat)
    (hall : allVals (fun x => wt e x) vs = true) (hlen : lenV vs < 2 ^ 32) :
    Ext w (archiveTy (.tvec e) (.vlist vs) w).1 ∧
    ResolveOk (.tvec e) (.vlist vs) (archiveTy (.tvec e) (.vlist vs) w).1
      (archiveTy (.tvec e) (.vlist vs) w).2 := by
  have hadv : ∀ (x : Val) (q : Res) (z : List Nat), wt e x = true →
      (resolveTy e x q z).1.length =
        alignOffset z.length (tyAlign e) + tySize e :=
    fun x q z hx =>
      (resolve_advance_aux (tyDepth e) e (le_refl _) x q z hwf hok hx).2
  cases vs with
  | nil =>
    simp only [archiveTy]
    refine ⟨extSelf, ?_⟩
    intro w2 _
    simp only [resolveTy, tyAlign]
    constructor
    · rw [resolveSeqHeader_eq, List.append_assoc]
      exact extTrans (wAlign_ext w2 4) (extAppend _ _)
    · intro buf hbuf hblen
      have hreads := seqHeader_reads (.rseq w.length 0 .nil) w2 buf hbuf hblen
        (by simp [resLen])
      have hr2 := hreads.2
      simp only [resolveSeqHeader_eq, wAlign_length, resLen] at hr2
      simp only [decodeTy, tyAlign]
      rw [hr2]
      simp [decodeSeq]
  | cons x xs =>
    obtain ⟨harch, hlist⟩ := archList_ok e hP (.cons x xs) w hall
    rcases hA : archList (fun x u => archiveTy e x u) (ValList.cons x xs) w
      with ⟨w1, rs⟩
    rw [hA] at harch hlist
    simp only at harch hlist
    obtain ⟨hresExt, hseqDec⟩ := resLoop_ok e w1 hadv (tyAlign_pos e hwf)
      (.cons x xs) rs (wAlign w1 (tyAlign e)) hall hlist (wAlign_ext w1 _)
    constructor
    · simp only [archiveTy, hA]
      exact extTrans harch (extTrans (wAlign_ext w1 _) hresExt)
    · simp only [archiveTy, hA]
      intro w4 hext4
      have hsh : Ext w4 (resolveSeqHeader
          (.rseq (wAlign w1 (tyAlign e)).length (lenV (.cons x xs)) rs)
          w4).1 := by
        rw [resolveSeqHeader_eq, List.append_assoc]
        exact extTrans (wAlign_ext w4 4) (extAppend _ _)
      constructor
      · exact hsh
      · intro buf hbuf hblen
        have hstartle : (wAlign w1 (tyAlign e)).length ≤
            (wAlign w4 4).length := by
          have h1 := extLengthLe hresExt
          have h2 := extLengthLe hext4
          have h3 := extLengthLe (wAlign_ext w4 4)
          omega
        have hreads := seqHeader_reads
          (.rseq (wAlign w1 (tyAlign e)).length (lenV (.cons x xs)) rs)
          w4 buf hbuf hblen
          (by
            simp only [resLen, resPos, lenV]
            rw [if_pos (by omega)]
            exact hstartle)
        have hr1 := hreads.1
        have hr2 := hreads.2
        simp only [resolveSeqHeader_eq, wAlign_length, resLen, resPos, lenV]
          at hr1 hr2
        rw [if_pos (by omega)] at hr1
        have hbufw3 : Ext (resLoop (fun x q u => resolveTy e x q u)
            (tyAlign e) (.cons x xs) rs (wAlign w1 (tyAlign e))) buf :=
          extTrans hext4 (extTrans hsh hbuf)
        have hseq := hseqDec buf hbufw3 hblen
        simp only [lenV, wAlign_length] at hseq
        simp only [decodeTy, tyAlign]
        rw [hr1, hr2, Nat.mod_eq_of_lt (by simpa [lenV] using hlen), hseq]
        rfl

/-- Roundtrip for `array`, given the element roundtrip. -/
theorem rt_tarr (e : Ty) (n : Nat) (hwf : wfTy e = true)
    (hok : arrOk e = true) (hdvd : tyAlign e ∣ tySize e)
    (hP : ∀ (x : Val) (w : List Nat), wt e x = true →
      Ext w (archiveTy e x w).1 ∧
      ResolveOk e x (archiveTy e x w).1 (archiveTy e x w).2)
    (vs : ValList) (w : List Nat)
    (hall : allVals (fun x => wt e x) vs = true) (hlvs : lenV vs = n) :
    Ext w (archiveTy (.tarr e n) (.vlist vs) w).1 ∧
    ResolveOk (.tarr e n) (.vlist vs) (archiveTy (.tarr e n) (.vlist vs) w).1
      (archiveTy (.tarr e n) (.vlist vs) w).2 := by
  have hadv : ∀ (x : Val) (q : Res) (z : List Nat), wt e x = true →
      (resolveTy e x q z).1.length =
        alignOffset z.length (tyAlign e) + tySize e :=
    fun x q z hx =>
      (resolve_advance_aux (tyDepth e) e (le_refl _) x q z hwf hok hx).2
  have hap := tyAlign_pos e hwf
  obtain ⟨harch, hlist⟩ := archList_ok e hP vs w hall
  rcases hA : archList (fun x u => archiveTy e x u) vs w with ⟨w1, rs⟩
  rw [hA] at harch hlist
  simp only at harch hlist
  constructor
  · simp only [archiveTy, hA]
    exact harch
  · simp only [archiveTy, hA]
    intro w2 hext2
    obtain ⟨hloopExt, hloopDec⟩ := arrLoopRT e w1 hadv hap hdvd n vs
      (resElems (.rlist w1.length rs)) (wAlign w2 (tyAlign e))
      (alignOffset w2.length (tyAlign e)) 0 hlvs hall
      (by simpa only [resElems] using hlist)
      (extTrans hext2 (wAlign_ext w2 _))
      (by simp [wAlign_length])
      (by rw [wAlign_length]; exact dvd_alignOffset hap _)
    constructor
    · show Ext w2 (arrLoop (fun x q u => resolveTy e x q u) (tyAlign e) vs
        (resElems (.rlist w1.length rs)) n (wAlign w2 (tyAlign e)))
      exact extTrans (wAlign_ext w2 _) hloopExt
    · intro buf hbuf hblen
      have hbuf' : Ext (arrLoop (fun x q u => resolveTy e x q u) (tyAlign e)
          vs (resElems (.rlist w1.length rs)) n (wAlign w2 (tyAlign e)))
          buf := hbuf
      simp only [decodeTy, tyAlign]
      rw [hloopDec buf hbuf' hblen]
      rfl

/-- Roundtrip for `struct`/`tuple`, given the field roundtrips. -/
theorem rt_tstruct (fs : TyList) (hwf : wfFields fs = true)
    (hok : arrOkFields fs = true)
    (hPf : ∀ (i : Nat) (t : Ty), nthTy fs i = some t →
      ∀ (x : Val) (w' : List Nat), wt t x = true →
        Ext w' (archiveTy t x w').1 ∧
        ResolveOk t x (archiveTy t x w').1 (archiveTy t x w').2)
    (vs : ValList) (w : List Nat) (hwt : wtFields fs vs = true) :
    Ext w (archiveTy (.tstruct fs) (.vstruct vs) w).1 ∧
    ResolveOk (.tstruct fs) (.vstruct vs)
      (archiveTy (.tstruct fs) (.vstruct vs) w).1
      (archiveTy (.tstruct fs) (.vstruct vs) w).2 := by
  have hadv : ∀ (i : Nat) (t : Ty), nthTy fs i = some t →
      ∀ (x : Val) (q : Res) (z : List Nat), wt t x = true →
        (resolveTy t x q z).1.length =
          alignOffset z.length (tyAlign t) + tySize t :=
    fun i t hn x q z hx =>
      (resolve_advance_aux (tyDepth t) t (le_refl _) x q z
        (wfFields_nth fs i t hn hwf) (arrOkFields_nth fs i t hn hok) hx).2
  have hmp := maxAlignFields_pos fs
  obtain ⟨harch, hflds⟩ := archiveFields_ok fs vs w hPf hwt
  rcases hA : archiveFields fs vs w with ⟨w1, rs⟩
  rw [hA] at harch hflds
  simp only at harch hflds
  constructor
  · simp only [archiveTy, hA]
    exact harch
  · simp only [archiveTy, hA]
    intro w2 hext2
    obtain ⟨hfExt, hfDec⟩ := resolveFieldsRT fs vs
      (resElems (.rlist w1.length rs)) (wAlign w2 (maxAlignFields fs)).length
      0 (wAlign w2 (maxAlignFields fs)) w1 hadv hwf hwt
      (by simpa only [resElems] using hflds)
      (extTrans hext2 (wAlign_ext w2 _))
      (by rw [wAlign_length]; exact dvd_alignOffset hmp _)
      (by omega)
    constructor
    · show Ext w2 (wPadTo (resolveFields fs vs (resElems (.rlist w1.length rs))
        (wAlign w2 (maxAlignFields fs)).length 0
        (wAlign w2 (maxAlignFields fs)))
        ((wAlign w2 (maxAlignFields fs)).length + tySize (.tstruct fs)))
      exact extTrans (wAlign_ext w2 _) (extTrans hfExt (wPadTo_ext _ _))
    · intro buf hbuf hblen
      have hbufF : Ext (resolveFields fs vs (resElems (.rlist w1.length rs))
          (wAlign w2 (maxAlignFields fs)).length 0
          (wAlign w2 (maxAlignFields fs))) buf :=
        extTrans (wPadTo_ext _ _) hbuf
      have hdec := hfDec buf hbufF hblen
      rw [wAlign_length] at hdec
      simp only [decodeTy, tyAlign]
      rw [hdec]
      rfl

/-- Roundtrip for `hashMap`-shaped maps, given the key and value
roundtrips. -/
theorem rt_tmap (tk tv : Ty) (hwfk : wfTy tk = true) (hwfv : wfTy tv = true)
    (hokk : arrOk tk = true) (hokv : arrOk tv = true)
    (hPk : ∀ (x : Val) (w : List Nat), wt tk x = true →
      Ext w (archiveTy tk x w).1 ∧
      ResolveOk tk x (archiveTy tk x w).1 (archiveTy tk x w).2)
    (hPv : ∀ (x : Val) (w : List Nat), wt tv x = true →
      Ext w (archiveTy tv x w).1 ∧
      ResolveOk tv x (archiveTy tv x w).1 (archiveTy tv x w).2)
    (ps : ValPairList) (w : List Nat)
    (hall : allPairs (fun x => wt tk x) (fun x => wt tv x) ps = true)
    (hnd : (keysOf ps).Nodup) (hlen : lenP ps < 2 ^ 32) :
    Ext w (archiveTy (.tmap tk tv) (.vmap ps) w).1 ∧
    ResolveOk (.tmap tk tv) (.vmap ps)
      (archiveTy (.tmap tk tv) (.vmap ps) w).1
      (archiveTy (.tmap tk tv) (.vmap ps) w).2 := by
  have hadvK : ∀ (x : Val) (q : Res) (z : List Nat), wt tk x = true →
      (resolveTy tk x q z).1.length =
        alignOffset z.length (tyAlign tk) + tySize tk :=
    fun x q z hx =>
      (resolve_advance_aux (tyDepth tk) tk (le_refl _) x q z hwfk hokk hx).2
  have hadvV : ∀ (x : Val) (q : Res) (z : List Nat), wt tv x = true →
      (resolveTy tv x q z).1.length =
        alignOffset z.length (tyAlign tv) + tySize tv :=
    fun x q z hx =>
      (resolve_advance_aux (tyDepth tv) tv (le_refl _) x q z hwfv hokv hx).2
  cases ps with
  | nil =>
    simp only [archiveTy]
    refine ⟨extSelf, ?_⟩
    intro w2 _
    simp only [resolveTy]
    constructor
    · rw [resolveSeqHeader_eq, List.append_assoc]
      exact extTrans (wAlign_ext w2 4) (extAppend _ _)
    · intro buf hbuf hblen
      have hreads := seqHeader_reads (.rseq w.length 0 .nil) w2 buf hbuf hblen
        (by simp [resLen])
      have hr2 := hreads.2
      simp only [resolveSeqHeader_eq, wAlign_length, resLen] at hr2
      simp only [decodeTy, tyAlign]
      rw [hr2]
      simp [decodePairsSeq, mapSetFold]
  | cons a b ps' =>
    obtain ⟨harch, hpairs⟩ := archPairs_ok tk tv hPk hPv (.cons a b ps') w hall
    rcases hA : archPairs (fun x u => archiveTy tk x u)
        (fun x u => archiveTy tv x u) (ValPairList.cons a b ps') w
      with ⟨w1, rs⟩
    rw [hA] at harch hpairs
    simp only at harch hpairs
    obtain ⟨hresExt, hseqDec⟩ := resPairsRT tk tv w1 hadvK hadvV
      (tyAlign_pos tk hwfk) (tyAlign_pos tv hwfv)
      (tyAlign_pow2 tk hwfk) (tyAlign_pow2 tv hwfv)
      (.cons a b ps') rs (wAlign w1 (entryAlign tk tv)) hall hpairs
      (wAlign_ext w1 _)
    constructor
    · simp only [archiveTy, hA]
      exact extTrans harch (extTrans (wAlign_ext w1 _) hresExt)
    · simp only [archiveTy, hA]
      intro w4 hext4
      have hsh : Ext w4 (resolveSeqHeader
          (.rseq (wAlign w1 (entryAlign tk tv)).length
            (lenP (.cons a b ps')) rs) w4).1 := by
        rw [resolveSeqHeader_eq, List.append_assoc]
        exact extTrans (wAlign_ext w4 4) (extAppend _ _)
      constructor
      · exact hsh
      · intro buf hbuf hblen
        have hstartle : (wAlign w1 (entryAlign tk tv)).length ≤
            (wAlign w4 4).length := by
          have h1 := extLengthLe hresExt
          have h2 := extLengthLe hext4
          have h3 := extLengthLe (wAlign_ext w4 4)
          omega
        have hreads := seqHeader_reads
          (.rseq (wAlign w1 (entryAlign tk tv)).length
            (lenP (.cons a b ps')) rs)
          w4 buf hbuf hblen
          (by
            simp only [resLen, resPos, lenP]
            rw [if_pos (by omega)]
            exact hstartle)
        have hr1 := hreads.1
        have hr2 := hreads.2
        simp only [resolveSeqHeader_eq, wAlign_length, resLen, resPos, lenP]
          at hr1 hr2
        rw [if_pos (by omega)] at hr1
        have hbufw3 : Ext (resPairs (fun x r u => resolveTy tk x r u)
            (fun x r u => resolveTy tv x r u) (entryAlign tk tv) (tySize tk)
            (entryValueOff tk tv) (entrySize tk tv) (tySize tv)
            (.cons a b ps') rs (wAlign w1 (entryAlign tk tv))) buf :=
          extTrans hext4 (extTrans hsh hbuf)
        have hseq := hseqDec buf hbufw3 hblen
        simp only [lenP, wAlign_length] at hseq
        simp only [decodeTy, tyAlign]
        rw [hr1, hr2, Nat.mod_eq_of_lt (by simpa [lenP] using hlen), hseq]
        simp only [Option.map_some']
        rw [mapSetFold_fresh (.cons a b ps') .nil
          (fun k hk => by simp [keysOf]) hnd]
        rfl

/-- Roundtrip for the `None` case of `optional`. -/
theorem rt_topt_none (e : Ty) (w : List Nat) :
    Ext w (archiveTy (.topt e) .vnone w).1 ∧
    ResolveOk (.topt e) .vnone (archiveTy (.topt e) .vnone w).1
      (archiveTy (.topt e) .vnone w).2 := by
  simp only [archiveTy]
  refine ⟨extSelf, ?_⟩
  intro w2 _
  simp only [resolveTy]
  constructor
  · exact extTrans (wAlign_ext w2 _) (extAppend _ _)
  · intro buf hbuf hblen
    obtain ⟨tl, rfl⟩ := hbuf
    simp only [decodeTy, tyAlign]
    have h0 := @readU8_chunk (wAlign w2 (max 1 (tyAlign e)))
      (0 :: List.replicate ((alignOffset 1 (tyAlign e) - 1) + tySize e) 0) tl
      0 (by simp)
    simp only [Nat.add_zero, wAlign_length, List.getD_cons_zero] at h0
    rw [h0]
    rfl

/-- Roundtrip for the `Some` case of `optional`, given the payload
roundtrip. -/
theorem rt_topt_some (e : Ty) (hwf : wfTy e = true)
    (hP : ∀ (y : Val) (w' : List Nat), wt e y = true →
      Ext w' (archiveTy e y w').1 ∧
      ResolveOk e y (archiveTy e y w').1 (archiveTy e y w').2)
    (x : Val) (w : List Nat) (hx : wt e x = true) :
    Ext w (archiveTy (.topt e) (.vsome x) w).1 ∧
    ResolveOk (.topt e) (.vsome x) (archiveTy (.topt e) (.vsome x) w).1
      (archiveTy (.topt e) (.vsome x) w).2 := by
  have hap := tyAlign_pos e hwf
  have hmax : max 1 (tyAlign e) = tyAlign e := by omega
  have hge := alignOffset_ge 1 (tyAlign e)
  obtain ⟨ha1, ha2⟩ := hP x w hx
  rcases hA : archiveTy e x w with ⟨w1, rx⟩
  rw [hA] at ha1 ha2
  simp only at ha1 ha2
  constructor
  · simp only [archiveTy, hA]
    exact ha1
  · simp only [archiveTy, hA]
    intro w2 hext2
    obtain ⟨h3ext, h3dec⟩ := ha2
      (wAlign w2 (max 1 (tyAlign e)) ++
        1 :: List.replicate (alignOffset 1 (tyAlign e) - 1) 0)
      (extTrans hext2 (extTrans (wAlign_ext w2 _) (extAppend _ _)))
    have hlen2 : (wAlign w2 (max 1 (tyAlign e)) ++
        1 :: List.replicate (alignOffset 1 (tyAlign e) - 1) 0).length =
        alignOffset w2.length (tyAlign e) + alignOffset 1 (tyAlign e) := by
      simp only [List.length_append, wAlign_length, List.length_cons,
        List.length_replicate, hmax]
      omega
    have haoeq : alignOffset (wAlign w2 (max 1 (tyAlign e)) ++
        1 :: List.replicate (alignOffset 1 (tyAlign e) - 1) 0).length
        (tyAlign e) =
        alignOffset w2.length (tyAlign e) + alignOffset 1 (tyAlign e) := by
      rw [hlen2]
      exact alignOffset_eq_self
        (Nat.dvd_add (dvd_alignOffset hap _) (dvd_alignOffset hap _))
    rw [haoeq] at h3dec
    constructor
    · show Ext w2 (resolveTy e x (resInner (.ropt rx))
        (wAlign w2 (max 1 (tyAlign e)) ++
          1 :: List.replicate (alignOffset 1 (tyAlign e) - 1) 0)).1
      exact extTrans (extTrans (wAlign_ext w2 _) (extAppend _ _)) h3ext
    · intro buf hbuf hblen
      have hbuf' : Ext (resolveTy e x (resInner (.ropt rx))
          (wAlign w2 (max 1 (tyAlign e)) ++
            1 :: List.replicate (alignOffset 1 (tyAlign e) - 1) 0)).1 buf :=
        hbuf
      obtain ⟨tl, htl⟩ := extTrans h3ext hbuf'
      simp only [decodeTy, tyAlign]
      have h1 := @readU8_chunk (wAlign w2 (max 1 (tyAlign e)))
        (1 :: List.replicate (alignOffset 1 (tyAlign e) - 1) 0) tl
        0 (by simp)
      simp only [Nat.add_zero, wAlign_length, List.getD_cons_zero] at h1
      rw [← htl] at h1
      rw [h1]
      rw [if_neg (by decide)]
      have hposeq : alignOffset w2.length (max 1 (tyAlign e)) + 1 +
          (alignOffset 1 (tyAlign e) - 1) =
          alignOffset w2.length (tyAlign e) + alignOffset 1 (tyAlign e) := by
        rw [hmax]
        omega
      rw [hposeq, h3dec buf hbuf' hblen]
      rfl

/-- Roundtrip for `box`, given the payload roundtrip. -/
theorem rt_tbox (e : Ty) (hwf : wfTy e = true) (hok : arrOk e = true)
    (hP : ∀ (y : Val) (w' : List Nat), wt e y = true →
      Ext w' (archiveTy e y w').1 ∧
      ResolveOk e y (archiveTy e y w').1 (archiveTy e y w').2)
    (x : Val) (w : List Nat) (hx : wt e x = true) :
    Ext w (archiveTy (.tbox e) x w).1 ∧
    ResolveOk (.tbox e) x (archiveTy (.tbox e) x w).1
      (archiveTy (.tbox e) x w).2 := by
  have hap := tyAlign_pos e hwf
  have hadv : (resolveTy e x
      (archiveTy e x w).2 (wAlign (archiveTy e x w).1 (tyAlign e))).1.length =
      alignOffset (wAlign (archiveTy e x w).1 (tyAlign e)).length (tyAlign e) +
        tySize e :=
    (resolve_advance_aux (tyDepth e) e (le_refl _) x _ _ hwf hok hx).2
  obtain ⟨ha1, ha2⟩ := hP x w hx
  rcases hA : archiveTy e x w with ⟨w1, rx⟩
  rw [hA] at ha1 ha2 hadv
  simp only at ha1 ha2 hadv
  obtain ⟨h3ext, h3dec⟩ := ha2 (wAlign w1 (tyAlign e)) (wAlign_ext w1 _)
  rcases hB : resolveTy e x rx (wAlign w1 (tyAlign e)) with ⟨w3, p3⟩
  rw [hB] at h3ext h3dec hadv
  simp only at h3ext h3dec hadv
  have hmdvd : (tyAlign e) ∣ (wAlign w1 (tyAlign e)).length := by
    rw [wAlign_length]
    exact dvd_alignOffset hap _
  have hmself : alignOffset (wAlign w1 (tyAlign e)).length (tyAlign e) =
      (wAlign w1 (tyAlign e)).length := alignOffset_eq_self hmdvd
  rw [hmself] at h3dec hadv
  have hres : w3.length - tySize e = (wAlign w1 (tyAlign e)).length := by
    omega
  constructor
  · simp only [archiveTy, hA, hB]
    exact extTrans ha1 (extTrans (wAlign_ext w1 _) h3ext)
  · simp only [archiveTy, hA, hB]
    intro w4 hext4
    rw [boxResolve_eq]
    simp only [resPos, hres]
    constructor
    · exact extTrans (wAlign_ext w4 4) (extAppend _ _)
    · intro buf hbuf hblen
      obtain ⟨tl, rfl⟩ := hbuf
      have hblen' : (wAlign w4 4 ++
          intToLE32 (((wAlign w1 (tyAlign e)).length : Int) -
            ((wAlign w4 4).length : Int)) ++ tl).length ≤ 2 ^ 31 := hblen
      simp only [List.length_append, intToLE32_length] at hblen'
      have hmle : (wAlign w1 (tyAlign e)).length ≤ (wAlign w4 4).length := by
        have h1 := extLengthLe h3ext
        have h2 := extLengthLe hext4
        have h3 := extLengthLe (wAlign_ext w4 4)
        omega
      simp only [decodeTy, tyAlign]
      have hptr : readI32 (wAlign w4 4 ++
          intToLE32 (((wAlign w1 (tyAlign e)).length : Int) -
            ((wAlign w4 4).length : Int)) ++ tl)
          (wAlign w4 4).length =
          ((wAlign w1 (tyAlign e)).length : Int) -
            ((wAlign w4 4).length : Int) := by
        refine readI32_intToLE32 _ _ _ ?_ ?_
        · have h1 : ((wAlign w4 4).length : Int) ≤ 2 ^ 31 := by
            exact_mod_cast (by omega : (wAlign w4 4).length ≤ 2 ^ 31)
          have h0 : (0 : Int) ≤
              ((wAlign w1 (tyAlign e)).length : Int) := by positivity
          omega
        · have h1 : ((wAlign w1 (tyAlign e)).length : Int) ≤
              ((wAlign w4 4).length : Int) := by exact_mod_cast hmle
          have h2 : ((wAlign w4 4).length : Int) < 2 ^ 31 := by
            exact_mod_cast (by omega : (wAlign w4 4).length < 2 ^ 31)
          omega
      have hwa4 : alignOffset w4.length 4 = (wAlign w4 4).length :=
        (wAlign_length w4 4).symm
      rw [hwa4]
      unfold readRelPtr32
      rw [hptr]
      have htgt : (((wAlign w4 4).length : Int) +
          (((wAlign w1 (tyAlign e)).length : Int) -
            ((wAlign w4 4).length : Int))).toNat =
          (wAlign w1 (tyAlign e)).length := by omega
      rw [htgt]
      exact h3dec _ (extTrans hext4 (extTrans (wAlign_ext w4 4)
        (extTrans (extAppend _ _) (extAppend _ _)))) hblen

/-- Roundtrip for `taggedEnum`, given the variant payload roundtrips. -/
theorem rt_tenum (vs : TyList) (hwfF : wfFields vs = true)
    (hcnt : lenT vs ≤ 2 ^ 32) (hok : arrOkFields vs = true)
    (hPf : ∀ (i : Nat) (t : Ty), nthTy vs i = some t →
      ∀ (x : Val) (w' : List Nat), wt t x = true →
        Ext w' (archiveTy t x w').1 ∧
        ResolveOk t x (archiveTy t x w').1 (archiveTy t x w').2)
    (tag : Nat) (p : Val) (w : List Nat)
    (htag : tag < lenT vs) (hwtN : wtNth vs tag p = true) :
    Ext w (archiveTy (.tenum vs) (.venum tag p) w).1 ∧
    ResolveOk (.tenum vs) (.venum tag p)
      (archiveTy (.tenum vs) (.venum tag p) w).1
      (archiveTy (.tenum vs) (.venum tag p) w).2 := by
  obtain ⟨t, hnth⟩ := nthTy_lt vs tag htag
  have hwft := wfFields_nth vs tag t hnth hwfF
  have hokt := arrOkFields_nth vs tag t hnth hok
  have hwtp : (if tySize t == 0 then p == Val.vunit else wt t p) = true := by
    rw [← wtNth_eq vs tag t p hnth]
    exact hwtN
  have hdp : 0 < discSize (lenT vs) := discSize_pos _
  have hdpow := discSize_pow2 (lenT vs)
  have hapow := enumAlignFold_pow2 vs _ hwfF hdpow
  have hge := enumAlignFold_ge_acc vs (discSize (lenT vs))
  have hdd : discSize (lenT vs) ∣ enumAlignFold vs (discSize (lenT vs)) :=
    pow2_dvd hdpow hapow hge
  have hEpos : 0 < enumAlignFold vs (discSize (lenT vs)) :=
    lt_of_lt_of_le hdp hge
  have htagd : tag < 2 ^ (8 * discSize (lenT vs)) := tag_lt_discBound htag hcnt
  simp only [archiveTy]
  rw [archiveNth_eq vs tag p w t hnth]
  by_cases hz : tySize t = 0
  · rw [if_pos (by simpa using hz)]
    have hpu : p = Val.vunit := by
      have h := hwtp
      rw [if_pos (by simpa using hz)] at h
      simpa using h
    subst hpu
    refine ⟨extSelf, ?_⟩
    intro w2 _
    have hws : wAlign (wAlign w2 (enumAlignFold vs (discSize (lenT vs))))
        (discSize (lenT vs)) =
        wAlign w2 (enumAlignFold vs (discSize (lenT vs))) :=
      wAlign_eq_self (by
        rw [wAlign_length]
        exact dvd_trans hdd (dvd_alignOffset hEpos _))
    have hwu : wUIntLE (wAlign w2 (enumAlignFold vs (discSize (lenT vs))))
        (discSize (lenT vs)) tag =
        wAlign w2 (enumAlignFold vs (discSize (lenT vs))) ++
          natToLE (discSize (lenT vs)) tag := by
      simp only [wUIntLE, hws]
    constructor
    · show Ext w2 (wPadTo (resolveNthPayload vs tag .vunit
          (resInner (.renumUnit w.length)) (discSize (lenT vs))
          (wUIntLE (wAlign w2 (enumAlignFold vs (discSize (lenT vs))))
            (discSize (lenT vs)) tag))
        ((wAlign w2 (enumAlignFold vs (discSize (lenT vs)))).length +
          tySize (.tenum vs)))
      rw [resolveNthPayload_eq vs tag .vunit _ _ _ t hnth,
        if_pos (by simpa using hz), hwu]
      exact extTrans (wAlign_ext w2 _)
        (extTrans (extAppend _ _) (wPadTo_ext _ _))
    · intro buf hbuf hblen
      have hbuf' : Ext (wPadTo (resolveNthPayload vs tag .vunit
          (resInner (.renumUnit w.length)) (discSize (lenT vs))
          (wUIntLE (wAlign w2 (enumAlignFold vs (discSize (lenT vs))))
            (discSize (lenT vs)) tag))
        ((wAlign w2 (enumAlignFold vs (discSize (lenT vs)))).length +
          tySize (.tenum vs))) buf := hbuf
      rw [resolveNthPayload_eq vs tag .vunit _ _ _ t hnth,
        if_pos (by simpa using hz)] at hbuf'
      obtain ⟨tl, htl⟩ := extTrans (wPadTo_ext _ _) hbuf'
      subst htl
      have hrd : readUIntLE
          (wUIntLE (wAlign w2 (enumAlignFold vs (discSize (lenT vs))))
            (discSize (lenT vs)) tag ++ tl)
          (alignOffset w2.length (enumAlignFold vs (discSize (lenT vs))))
          (discSize (lenT vs)) = tag := by
        rw [hwu]
        have h := readUIntLE_write
          (wAlign w2 (enumAlignFold vs (discSize (lenT vs)))) tl
          (discSize (lenT vs)) tag
        rw [wAlign_length] at h
        rw [h]
        exact Nat.mod_eq_of_lt htagd
      simp only [decodeTy, tyAlign]
      rw [hrd, decodeNth_eq vs tag _ _ _ t hnth, if_pos (by simpa using hz)]
      rfl
  · rw [if_neg (by simpa using hz)]
    have hwtpt : wt t p = true := by
      have h := hwtp
      rw [if_neg (by simpa using hz)] at h
      exact h
    obtain ⟨ha1, ha2⟩ := hPf tag t hnth p w hwtpt
    rcases hA : archiveTy t p w with ⟨w1, rx⟩
    rw [hA] at ha1 ha2
    simp only [hA]
    simp only at ha1 ha2
    refine ⟨ha1, ?_⟩
    intro w2 hext2
    have hat : 0 < tyAlign t := tyAlign_pos t hwft
    have htd : tyAlign t ∣ enumAlignFold vs (discSize (lenT vs)) :=
      pow2_dvd (tyAlign_pow2 t hwft) hapow
        (enumAlignFold_nth vs tag t _ hnth hz)
    have hgd := alignOffset_ge (discSize (lenT vs)) (tyAlign t)
    have hws : wAlign (wAlign w2 (enumAlignFold vs (discSize (lenT vs))))
        (discSize (lenT vs)) =
        wAlign w2 (enumAlignFold vs (discSize (lenT vs))) :=
      wAlign_eq_self (by
        rw [wAlign_length]
        exact dvd_trans hdd (dvd_alignOffset hEpos _))
    have hwu : wUIntLE (wAlign w2 (enumAlignFold vs (discSize (lenT vs))))
        (discSize (lenT vs)) tag =
        wAlign w2 (enumAlignFold vs (discSize (lenT vs))) ++
          natToLE (discSize (lenT vs)) tag := by
      simp only [wUIntLE, hws]
    obtain ⟨h3ext, h3dec⟩ := ha2
      (wUIntLE (wAlign w2 (enumAlignFold vs (discSize (lenT vs))))
        (discSize (lenT vs)) tag ++
        List.replicate (alignOffset (discSize (lenT vs)) (tyAlign t) -
          discSize (lenT vs)) 0)
      (extTrans hext2 (extTrans (wAlign_ext w2 _)
        (extTrans (wAlign_ext _ _)
          (extTrans (extAppend _ _) (extAppend _ _)))))
    have hlenu : (wUIntLE (wAlign w2 (enumAlignFold vs (discSize (lenT vs))))
        (discSize (lenT vs)) tag ++
        List.replicate (alignOffset (discSize (lenT vs)) (tyAlign t) -
          discSize (lenT vs)) 0).length =
        alignOffset w2.length (enumAlignFold vs (discSize (lenT vs))) +
          alignOffset (discSize (lenT vs)) (tyAlign t) := by
      simp only [List.length_append, wUIntLE, wAlign_length, natToLE_length,
        List.length_replicate]
      rw [alignOffset_eq_self (dvd_trans hdd (dvd_alignOffset hEpos _))]
      omega
    have haou : alignOffset
        (wUIntLE (wAlign w2 (enumAlignFold vs (discSize (lenT vs))))
          (discSize (lenT vs)) tag ++
          List.replicate (alignOffset (discSize (lenT vs)) (tyAlign t) -
            discSize (lenT vs)) 0).length (tyAlign t) =
        alignOffset w2.length (enumAlignFold vs (discSize (lenT vs))) +
          alignOffset (discSize (lenT vs)) (tyAlign t) := by
      rw [hlenu]
      exact alignOffset_eq_self
        (Nat.dvd_add (dvd_trans htd (dvd_alignOffset hEpos _))
          (dvd_alignOffset hat _))
    rw [haou] at h3dec
    constructor
    · show Ext w2 (wPadTo (resolveNthPayload vs tag p
          (resInner (.renumVar w1.length rx)) (discSize (lenT vs))
          (wUIntLE (wAlign w2 (enumAlignFold vs (discSize (lenT vs))))
            (discSize (lenT vs)) tag))
        ((wAlign w2 (enumAlignFold vs (discSize (lenT vs)))).length +
          tySize (.tenum vs)))
      rw [resolveNthPayload_eq vs tag p _ _ _ t hnth,
        if_neg (by simpa using hz)]
      exact extTrans (extTrans (wAlign_ext w2 _)
          (extTrans (wAlign_ext _ _)
            (extTrans (extAppend _ _) (extAppend _ _))))
        (extTrans h3ext (wPadTo_ext _ _))
    · intro buf hbuf hblen
      have hbuf' : Ext (wPadTo (resolveNthPayload vs tag p
          (resInner (.renumVar w1.length rx)) (discSize (lenT vs))
          (wUIntLE (wAlign w2 (enumAlignFold vs (discSize (lenT vs))))
            (discSize (lenT vs)) tag))
        ((wAlign w2 (enumAlignFold vs (discSize (lenT vs)))).length +
          tySize (.tenum vs))) buf := hbuf
      rw [resolveNthPayload_eq vs tag p _ _ _ t hnth,
        if_neg (by simpa using hz)] at hbuf'
      have hbufr : Ext (resolveTy t p rx
          (wUIntLE (wAlign w2 (enumAlignFold vs (discSize (lenT vs))))
            (discSize (lenT vs)) tag ++
            List.replicate (alignOffset (discSize (lenT vs)) (tyAlign t) -
              discSize (lenT vs)) 0)).1 buf :=
        extTrans (wPadTo_ext _ _) hbuf'
      obtain ⟨tl, htl⟩ := extTrans (extAppend _ _) (extTrans h3ext hbufr)
      subst htl
      have hrd : readUIntLE
          (wUIntLE (wAlign w2 (enumAlignFold vs (discSize (lenT vs))))
            (discSize (lenT vs)) tag ++ tl)
          (alignOffset w2.length (enumAlignFold vs (discSize (lenT vs))))
          (discSize (lenT vs)) = tag := by
        rw [hwu]
        have h := readUIntLE_write
          (wAlign w2 (enumAlignFold vs (discSize (lenT vs)))) tl
          (discSize (lenT vs)) tag
        rw [wAlign_length] at h
        rw [h]
        exact Nat.mod_eq_of_lt htagd
      simp only [decodeTy, tyAlign]
      rw [hrd, decodeNth_eq vs tag _ _ _ t hnth, if_neg (by simpa using hz)]
      have harr : alignOffset w2.length
          (enumAlignFold vs (discSize (lenT vs))) + discSize (lenT vs) +
          (alignOffset (discSize (lenT vs)) (tyAlign t) -
            discSize (lenT vs)) =
          alignOffset w2.length (enumAlignFold vs (discSize (lenT vs))) +
            alignOffset (discSize (lenT vs)) (tyAlign t) := by omega
      rw [harr, h3dec _ hbufr hblen]
      rfl

/-- The structural induction behind C1: archiving a well-typed value leaves
the writer extended and produces a resolver from whose resolve output the
value decodes back (at the aligned resolve position, from any extension of
the buffer of length at most 2^31). -/
theorem roundtrip_aux : ∀ (N : Nat) (t : Ty), tyDepth t ≤ N →
    ∀ (v : Val) (w : List Nat), wfTy t → arrOk t → wt t v →
    Ext w (archiveTy t v w).1 ∧
    ResolveOk t v (archiveTy t v w).1 (archiveTy t v w).2 := by
  intro N
  induction N with
  | zero =>
    intro t ht
    exfalso
    cases t <;> simp [tyDepth] at ht
  | succ N ih =>
    intro t ht v w hwf hok hwt
    cases t with
    | tuint width =>
      cases v <;> simp [wt] at hwt
      case vnat n =>
      exact ⟨extSelf, resolveOk_tuint hwt _ _⟩
    | tint width =>
      have hwp : 0 < width := by
        have h := tyAlign_pos (.tint width) hwf
        simpa [tyAlign] using h
      cases v <;> simp [wt] at hwt
      case vint i =>
      exact ⟨extSelf, resolveOk_tint hwp hwt.1 hwt.2 _ _⟩
    | tbool =>
      cases v <;> simp [wt] at hwt
      case vbool b =>
      exact ⟨extSelf, resolveOk_tbool _ _⟩
    | tunit =>
      cases v <;> simp [wt] at hwt
      exact ⟨extSelf, resolveOk_tunit _ _⟩
    | tchar =>
      cases v <;> simp [wt] at hwt
      case vnat n =>
      exact ⟨extSelf, resolveOk_tchar hwt _ _⟩
    | tstr =>
      cases v <;> simp only [wt, Bool.and_eq_true] at hwt <;>
        try exact absurd hwt Bool.false_ne_true
      case vstr bs =>
      obtain ⟨h256, hrest⟩ := hwt
      by_cases hle : bs.length ≤ 8
      · rw [if_pos hle] at hrest
        simp only [Bool.and_eq_true] at hrest
        have hmark : ∀ b bs', bs = b :: bs' → (b &&& 0xC0) ≠ 0x80 := by
          intro b bs' hbs
          have h := hrest.2
          rw [hbs] at h
          simpa using h
        refine ⟨?_, resolveOk_tstr_inline h256 hrest.1 hmark hle _ _⟩
        simp only [archiveTy, if_pos hle]
        exact extSelf
      · rw [if_neg hle] at hrest
        simp only [decide_eq_true_eq] at hrest
        have hwb : wBytes w bs = w ++ bs := by
          simp only [wBytes, map_mod_id h256]
        constructor
        · simp only [archiveTy, if_neg hle, hwb]
          exact extAppend _ _
        · have hro := resolveOk_tstr_outline h256 hle hrest w (wBytes w bs)
            (by rw [hwb]; exact extSelf)
          simp only [archiveTy, if_neg hle]
          exact hro
    | tvec e =>
      simp only [tyDepth] at ht
      simp only [wfTy] at hwf
      simp only [arrOk] at hok
      have hde : tyDepth e ≤ N := by omega
      cases v <;> simp [wt] at hwt
      case vlist vs =>
      exact rt_tvec e hwf hok
        (fun x w' hx => ih e hde x w' hwf hok hx) vs w hwt.1 hwt.2
    | topt e =>
      simp only [tyDepth] at ht
      simp only [wfTy] at hwf
      simp only [arrOk] at hok
      have hde : tyDepth e ≤ N := by omega
      cases v <;> simp [wt] at hwt
      case vnone =>
        exact rt_topt_none e w
      case vsome x =>
        exact rt_topt_some e hwf
          (fun y w' hy => ih e hde y w' hwf hok hy) x w hwt
    | tbox e =>
      simp only [tyDepth] at ht
      simp only [wfTy] at hwf
      simp only [arrOk] at hok
      have hde : tyDepth e ≤ N := by omega
      simp only [wt] at hwt
      exact rt_tbox e hwf hok
        (fun y w' hy => ih e hde y w' hwf hok hy) v w hwt
    | tarr e n =>
      simp only [tyDepth] at ht
      simp only [wfTy] at hwf
      simp only [arrOk, Bool.and_eq_true] at hok
      have hde : tyDepth e ≤ N := by omega
      have hdvd : tyAlign e ∣ tySize e := by
        have h := hok.1
        simp only [beq_iff_eq] at h
        exact Nat.dvd_of_mod_eq_zero h
      cases v <;> simp [wt] at hwt
      case vlist vs =>
      exact rt_tarr e n hwf hok.2 hdvd
        (fun x w' hx => ih e hde x w' hwf hok.2 hx) vs w hwt.2 hwt.1
    | tstruct fs =>
      simp only [tyDepth] at ht
      simp only [wfTy] at hwf
      simp only [arrOk] at hok
      have hde : tyListDepth fs ≤ N := by omega
      cases v <;> simp [wt] at hwt
      case vstruct vs =>
      exact rt_tstruct fs hwf hok
        (fun i t hn x w' hx => ih t (le_trans (tyDepth_nth fs i t hn) hde)
          x w' (wfFields_nth fs i t hn hwf) (arrOkFields_nth fs i t hn hok)
          hx) vs w hwt
    | tenum vs =>
      simp only [tyDepth] at ht
      simp only [wfTy, Bool.and_eq_true, decide_eq_true_eq] at hwf
      simp only [arrOk] at hok
      have hde : tyListDepth vs ≤ N := by omega
      cases v <;> simp [wt] at hwt
      case venum tag p =>
      exact rt_tenum vs hwf.2 hwf.1 hok
        (fun i t hn x w' hx => ih t (le_trans (tyDepth_nth vs i t hn) hde)
          x w' (wfFields_nth vs i t hn hwf.2)
          (arrOkFields_nth vs i t hn hok) hx) tag p w hwt.1.2 hwt.2
    | tmap tk tv =>
      simp only [tyDepth] at ht
      simp only [wfTy, Bool.and_eq_true] at hwf
      simp only [arrOk, Bool.and_eq_true] at hok
      have hdk : tyDepth tk ≤ N := by
        have h := le_max_left (tyDepth tk) (tyDepth tv)
        omega
      have hdv : tyDepth tv ≤ N := by
        have h := le_max_right (tyDepth tk) (tyDepth tv)
        omega
      cases v <;> simp [wt] at hwt
      case vmap ps =>
      exact rt_tmap tk tv hwf.1 hwf.2 hok.1 hok.2
        (fun x w' hx => ih tk hdk x w' hwf.1 hok.1 hx)
        (fun x w' hx => ih tv hdv x w' hwf.2 hok.2 hx)
        ps w hwt.1.1 hwt.1.2 hwt.2

set_option maxRecDepth 40000 in
/-- C1 counterexample: the B-tree map codec (`r.btreeMap(r.u32, r.u32)`,
`E = 5`) breaks the decode/encode roundtrip.  Encoding the seven-entry map
{1:10, ..., 7:70} and decoding it back yields
[(1,10), (2,20), (3,30), (4,40), (5,50), (0,0), (6,60)]: the entry 7:70 is
lost and a never-inserted entry 0:0 appears, so the decoded value differs
from the original even as a set of entries. -/
theorem C1_counterexample :
    btDecode (btEncode [(1, 10), (2, 20), (3, 30), (4, 40), (5, 50), (6, 60),
        (7, 70)])
      (getRootPosition (btEncode [(1, 10), (2, 20), (3, 30), (4, 40), (5, 50),
        (6, 60), (7, 70)]).length 8) =
      [(1, 10), (2, 20), (3, 30), (4, 40), (5, 50), (0, 0), (6, 60)] ∧
    (7, 70) ∉ btDecode (btEncode [(1, 10), (2, 20), (3, 30), (4, 40), (5, 50),
        (6, 60), (7, 70)])
      (getRootPosition (btEncode [(1, 10), (2, 20), (3, 30), (4, 40), (5, 50),
        (6, 60), (7, 70)]).length 8) :=
  ⟨by decide, by decide⟩

/-- C1: for every codec of the schema universe (integers, bool, unit, char,
string, vec, optional, box, fixed array with size-aligned elements, struct/
tuple, tagged enum, hash map) and every value in the codec's domain,
decoding the encoded bytes at `getRootPosition(codec.size) = bufferLength -
codec.size` returns the original value (buffers up to 2^31 bytes, the JS
reader's signed-32-bit range).  The library's B-tree map codec, by
contrast, loses entries (see the counterexample), so the spec's "for every
codec" is amended to exclude it, and fixed arrays need elements with
`size % align == 0` (the C10 accounting failure otherwise misplaces the
root). -/
theorem C1_roundtrip_amended (t : Ty) (v : Val)
    (hwf : wfTy t = true) (hok : arrOk t = true) (hwt : wt t v = true)
    (hsize : (encodeBytes t v).length ≤ 2 ^ 31) :
    decodeTop t (encodeBytes t v) = some v := by
  obtain ⟨harch, hres⟩ :=
    roundtrip_aux (tyDepth t) t (le_refl _) v [] hwf hok hwt
  have hadv := resolve_advance_aux (tyDepth t) t (le_refl _) v
    (archiveTy t v []).2 (archiveTy t v []).1 hwf hok hwt
  obtain ⟨hext1, hdec⟩ := hres (archiveTy t v []).1 extSelf
  have hbytes : encodeBytes t v =
      (resolveTy t v (archiveTy t v []).2 (archiveTy t v []).1).1 := rfl
  have hlen := hadv.2
  simp only [decodeTop, getRootPosition, hbytes]
  have hpos :
      (resolveTy t v (archiveTy t v []).2 (archiveTy t v []).1).1.length -
        tySize t = alignOffset (archiveTy t v []).1.length (tyAlign t) := by
    omega
  rw [hpos]
  exact hdec _ extSelf (by rw [hbytes] at hsize; exact hsize)

/-- Witness for C1's amended theorem: `struct(u8, bool)` with value
`{7, true}` roundtrips through encode/decode. -/
theorem C1_roundtrip_witness :
    wfTy (.tstruct (.cons (.tuint 1) (.cons .tbool .nil))) = true ∧
    arrOk (.tstruct (.cons (.tuint 1) (.cons .tbool .nil))) = true ∧
    wt (.tstruct (.cons (.tuint 1) (.cons .tbool .nil)))
      (.vstruct (.cons (.vnat 7) (.cons (.vbool true) .nil))) = true ∧
    (encodeBytes (.tstruct (.cons (.tuint 1) (.cons .tbool .nil)))
      (.vstruct (.cons (.vnat 7) (.cons (.vbool true) .nil)))).length ≤
      2 ^ 31 ∧
    decodeTop (.tstruct (.cons (.tuint 1) (.cons .tbool .nil)))
      (encodeBytes (.tstruct (.cons (.tuint 1) (.cons .tbool .nil)))
        (.vstruct (.cons (.vnat 7) (.cons (.vbool true) .nil)))) =
      some (.vstruct (.cons (.vnat 7) (.cons (.vbool true) .nil))) :=
  ⟨by decide, by decide, by decide, by decide,
   C1_roundtrip_amended _ _ (by decide) (by decide) (by decide) (by decide)⟩

end RkyvJS
